import Mathlib

/-!
Verification of the nonogram solver (voetsjoeba/nonogram-rs).

This file gives a shallow embedding of the solver core into Lean and proves
or refutes the claims of the specification against it.  The embedding follows
the Rust sources:

  - src/grid.rs         : SquareStatus, Square, StatusChange, RunChange,
                          Change, errors, the primitive mutators
  - src/row/mod.rs      : Row, Run, scanners, possible_runs_for_sequence,
                          Run.complete and Run.delineate_at
  - src/row/solver.rs   : update_possible_run_placements,
                          infer_status_assignments, infer_run_assignments,
                          check_completed
  - src/puzzle.rs       : the iteration guard of Puzzle.solve
  - src/main.rs         : the speculative branching step of solve

Conventions of the embedding:
  - Rust usize becomes Nat.  Where the source performs a usize subtraction
    that can overflow (which aborts in a debug build), the embedding returns
    an explicit panic error.
  - Rust Result and Rust panics are both modelled by the Except monad over a
    single error type; the constructors keep the distinction between the
    structured errors of the source (status conflict, run conflict, not
    filled in, logic) and aborts (panic).
  - Mutation of the grid through a line view is modelled by threading a
    RowState value (the squares of one line in line order, plus the runs of
    that line) through each procedure.
  - Rust half-open ranges a..b become the Rg structure with fields start and
    stop.
  - Indexing a vector out of range aborts in Rust; the embedding uses getD
    with a default in the few places where the index is always in range for
    well-formed states (run indices equal list positions), and an explicit
    panic error where the claims depend on abort behaviour.
-/

/-- Status of one square of the grid, from src/grid.rs.  CrossedOut is the
spec notion EMPTY, FilledIn is FILLED. -/
inductive SquareStatus where
  | filledIn
  | crossedOut
  | unknown
deriving DecidableEq, Repr

/-- Orientation of a line, from src/util.rs. -/
inductive Direction where
  | horizontal
  | vertical
deriving DecidableEq, Repr

/-- Record of a status transition of one square, from src/grid.rs. -/
structure StatusChange where
  row : Nat
  col : Nat
  old : SquareStatus
  new : SquareStatus
deriving DecidableEq, Repr

/-- Record of a run-owner assignment of one square, from src/grid.rs. -/
structure RunChange where
  row : Nat
  col : Nat
  direction : Direction
  old : Option Nat
  new : Nat
deriving DecidableEq, Repr

/-- Tagged change record, from src/grid.rs. -/
inductive Change where
  | status (c : StatusChange)
  | run (c : RunChange)
deriving DecidableEq, Repr

/-- Unified error type of the embedding.  The source nests StatusError and
RunError inside Error (src/grid.rs); the embedding flattens the nesting but
keeps one constructor per source error case, plus a panic constructor that
models Rust aborts (failed unwrap, failed assert, index out of bounds,
arithmetic overflow). -/
inductive Error where
  | statusConflict (c : StatusChange) (msg : String)
  | runConflict (c : RunChange) (msg : String)
  | notFilledIn (c : RunChange)
  | logic (msg : String)
  | panic (msg : String)
deriving DecidableEq, Repr

/-- One square of the grid, from src/grid.rs.  The two owner fields give the
index of the run this square belongs to in each orientation. -/
structure Square where
  row : Nat
  col : Nat
  status : SquareStatus
  hrunIndex : Option Nat
  vrunIndex : Option Nat
deriving DecidableEq, Repr

/-- Owner lookup by orientation, from Square.get_run_index in src/grid.rs. -/
def Square.getRunIndex (sq : Square) (d : Direction) : Option Nat :=
  match d with
  | Direction.horizontal => sq.hrunIndex
  | Direction.vertical => sq.vrunIndex

/-- Owner update by orientation; models writing through the mutable borrow
selected in Square.apply_run_change of src/grid.rs. -/
def Square.setRunIndexField (sq : Square) (d : Direction) (v : Option Nat) : Square :=
  match d with
  | Direction.horizontal => { sq with hrunIndex := v }
  | Direction.vertical => { sq with vrunIndex := v }

/-- Square.apply_status_change from src/grid.rs (lines 258 to 276): reject a
transition of an already-known status to a different value, otherwise apply
the transition and report the change when one occurred.  The two location
asserts of the source compare fields of the candidate change against the
square and hold for every call site; they are not modelled.  The returned
square models the state of the mutable borrow after the call. -/
def Square.apply_status_change (sq : Square) (cand : StatusChange) :
    Except Error (Option StatusChange) × Square :=
  if sq.status ≠ SquareStatus.unknown ∧ sq.status ≠ cand.new then
    (Except.error (Error.statusConflict cand "conflicting information"), sq)
  else if sq.status ≠ cand.new then
    (Except.ok (some cand), { sq with status := cand.new })
  else
    (Except.ok none, sq)

/-- Square.set_status from src/grid.rs (lines 235 to 238). -/
def Square.set_status (sq : Square) (newStatus : SquareStatus) :
    Except Error (Option StatusChange) × Square :=
  sq.apply_status_change (StatusChange.mk sq.row sq.col sq.status newStatus)

/-- Square.apply_run_change from src/grid.rs (lines 277 to 301): an owner may
only be set on a filled-in square, and may never be rewritten to a different
value. -/
def Square.apply_run_change (sq : Square) (cand : RunChange) :
    Except Error (Option RunChange) × Square :=
  let field := sq.getRunIndex cand.direction
  if sq.status ≠ SquareStatus.filledIn then
    (Except.error (Error.notFilledIn cand), sq)
  else if field ≠ none ∧ field ≠ some cand.new then
    -- the source tests: if let Some(x) = field, reject when x differs from
    -- the candidate; an owner field that is some x with x different from the
    -- new value is exactly a field that is neither none nor some new
    (Except.error (Error.runConflict cand "conflicting information"), sq)
  else if field = none ∨ field ≠ some cand.new then
    (Except.ok (some cand), sq.setRunIndexField cand.direction (some cand.new))
  else
    (Except.ok none, sq)

/-- Square.set_run_index from src/grid.rs (lines 246 to 251). -/
def Square.set_run_index (sq : Square) (d : Direction) (newIndex : Nat) :
    Except Error (Option RunChange) × Square :=
  sq.apply_run_change (RunChange.mk sq.row sq.col d (sq.getRunIndex d) newIndex)

/-- CLAIM C4.  For every square, set_status with a new status equal to the
current one succeeds as a no-op with no change record; with current status
UNKNOWN and a different new status it succeeds, returns the status-change
record and updates the square; in every other case (any transition out of
FilledIn or CrossedOut, including back to UNKNOWN) it fails with the
status-conflict error and leaves the square unchanged; and on any success a
non-UNKNOWN status is never changed, so statuses are monotone. -/
theorem c4_set_status_monotone (sq : Square) (newStatus : SquareStatus) :
    (sq.status = newStatus → sq.set_status newStatus = (Except.ok none, sq)) ∧
    (sq.status = SquareStatus.unknown → newStatus ≠ SquareStatus.unknown →
      sq.set_status newStatus =
        (Except.ok (some (StatusChange.mk sq.row sq.col SquareStatus.unknown newStatus)),
         { sq with status := newStatus })) ∧
    (sq.status ≠ SquareStatus.unknown → sq.status ≠ newStatus →
      sq.set_status newStatus =
        (Except.error (Error.statusConflict
          (StatusChange.mk sq.row sq.col sq.status newStatus) "conflicting information"), sq)) ∧
    (∀ c sq2, sq.set_status newStatus = (Except.ok c, sq2) →
      sq.status ≠ SquareStatus.unknown → sq2.status = sq.status) := by
  refine ⟨?_, ?_, ?_, ?_⟩
  · intro h
    simp [Square.set_status, Square.apply_status_change, h]
  · intro h hne
    simp [Square.set_status, Square.apply_status_change, h, Ne.symm hne]
  · intro h hne
    simp [Square.set_status, Square.apply_status_change, h, hne]
  · intro c sq2 hok h
    by_cases hne : sq.status = newStatus
    · have hcall : sq.set_status newStatus = (Except.ok none, sq) := by
        simp [Square.set_status, Square.apply_status_change, hne]
      rw [hcall] at hok
      have hpair := (Prod.mk.injEq _ _ _ _).mp hok
      rw [← hpair.2]
    · have hcall : sq.set_status newStatus =
          (Except.error (Error.statusConflict
            (StatusChange.mk sq.row sq.col sq.status newStatus) "conflicting information"), sq) := by
        simp [Square.set_status, Square.apply_status_change, h, hne]
      rw [hcall] at hok
      have hpair := (Prod.mk.injEq _ _ _ _).mp hok
      exact absurd hpair.1 (by simp)

/-- Witness for C4 at a concrete square: an UNKNOWN square accepts FilledIn
and produces the change record. -/
theorem c4_witness :
    (Square.mk 2 3 SquareStatus.unknown none none).set_status SquareStatus.filledIn =
      (Except.ok (some (StatusChange.mk 2 3 SquareStatus.unknown SquareStatus.filledIn)),
       Square.mk 2 3 SquareStatus.filledIn none none) := by
  have h := c4_set_status_monotone (Square.mk 2 3 SquareStatus.unknown none none)
              SquareStatus.filledIn
  exact h.2.1 rfl (by decide)

/-- CLAIM C10.  Error atomicity of the primitive square mutators: whenever
apply_status_change or apply_run_change returns an error, the square is
returned exactly as it was before the call, so its status and both owner
fields are unchanged; and by the shape of the result type no change record
accompanies an error. -/
theorem c10_mutators_error_atomic (sq : Square) :
    (∀ cand e, (sq.apply_status_change cand).1 = Except.error e →
      (sq.apply_status_change cand).2 = sq) ∧
    (∀ cand e, (sq.apply_run_change cand).1 = Except.error e →
      (sq.apply_run_change cand).2 = sq) := by
  constructor
  · intro cand e herr
    by_cases h1 : sq.status ≠ SquareStatus.unknown ∧ sq.status ≠ cand.new
    · simp [Square.apply_status_change, h1]
    · by_cases h2 : sq.status = cand.new
      · simp [Square.apply_status_change, h1, h2]
      · exfalso
        have hu : sq.status = SquareStatus.unknown := by
          by_contra hcon
          exact h1 ⟨hcon, h2⟩
        have h4 : SquareStatus.unknown ≠ cand.new := fun hh => h2 (hu.trans hh)
        simp [Square.apply_status_change, hu, h2, h4] at herr
  · intro cand e herr
    by_cases h1 : sq.status ≠ SquareStatus.filledIn
    · simp [Square.apply_run_change, h1]
    · by_cases h2 : sq.getRunIndex cand.direction ≠ none ∧
          sq.getRunIndex cand.direction ≠ some cand.new
      · simp [Square.apply_run_change, h1, h2]
      · by_cases h3 : sq.getRunIndex cand.direction = none ∨
            sq.getRunIndex cand.direction ≠ some cand.new
        · exfalso
          simp only [Square.apply_run_change, if_neg h1, if_neg h2, if_pos h3] at herr
          exact absurd herr (by simp)
        · simp only [Square.apply_run_change, if_neg h1, if_neg h2, if_neg h3]

/-- Witness for C10 at concrete inputs: a status conflict on a FilledIn
square and an owner assignment on a non-filled square both leave the square
untouched. -/
theorem c10_witness :
    ((Square.mk 0 0 SquareStatus.filledIn none none).apply_status_change
        (StatusChange.mk 0 0 SquareStatus.filledIn SquareStatus.crossedOut)).2 =
      Square.mk 0 0 SquareStatus.filledIn none none ∧
    ((Square.mk 0 1 SquareStatus.unknown none none).apply_run_change
        (RunChange.mk 0 1 Direction.horizontal none 4)).2 =
      Square.mk 0 1 SquareStatus.unknown none none := by
  constructor
  · exact (c10_mutators_error_atomic (Square.mk 0 0 SquareStatus.filledIn none none)).1
      (StatusChange.mk 0 0 SquareStatus.filledIn SquareStatus.crossedOut)
      (Error.statusConflict (StatusChange.mk 0 0 SquareStatus.filledIn SquareStatus.crossedOut)
        "conflicting information") (by rfl)
  · exact (c10_mutators_error_atomic (Square.mk 0 1 SquareStatus.unknown none none)).2
      (RunChange.mk 0 1 Direction.horizontal none 4)
      (Error.notFilledIn (RunChange.mk 0 1 Direction.horizontal none 4)) (by rfl)

/-! ## Puzzle driver: iteration guard (src/puzzle.rs) -/

/-- Iteration cap of the queue loop of Puzzle.solve, src/puzzle.rs line 117. -/
def max_iterations : Nat := 100000

/-- Outcome of one execution of the guard at the top of the queue loop. -/
inductive IterationStep where
  | proceed (next : Nat)
  | panicked (msg : String)
deriving DecidableEq, Repr

/-- The per-iteration guard of Puzzle.solve, src/puzzle.rs lines 122 to 125:
on every pop of a line identifier the counter is incremented and, once it
reaches the cap, the program panics. -/
def iteration_guard (curIteration : Nat) : IterationStep :=
  let c := curIteration + 1
  if max_iterations ≤ c then IterationStep.panicked "max iterations exceeded, aborting"
  else IterationStep.proceed c

/-- Counterexample to CLAIM C9.  On the 100000th line-solver invocation the
driver does not return a Failed outcome carrying the grid and a
MaxIterationsExceeded diagnostic: it terminates abnormally through a panic
(src/puzzle.rs line 124), and no MaxIterationsExceeded error kind exists in
the embedded error type taken from src/grid.rs. -/
theorem c9_counterexample :
    iteration_guard 99999 = IterationStep.panicked "max iterations exceeded, aborting" := by
  rfl

/-- CLAIM C9 as amended.  The driver counts line-solver invocations against
the cap max_iterations equal to 100000 and, when the incremented counter
reaches the cap, it panics with the message max iterations exceeded rather
than returning a structured Failed outcome; below the cap it proceeds with
the incremented counter. -/
theorem c9_amended_iteration_cap :
    max_iterations = 100000 ∧
    ∀ n : Nat,
      (iteration_guard n = IterationStep.panicked "max iterations exceeded, aborting" ↔
        max_iterations ≤ n + 1) ∧
      (¬ max_iterations ≤ n + 1 → iteration_guard n = IterationStep.proceed (n + 1)) := by
  refine ⟨rfl, fun n => ⟨?_, ?_⟩⟩
  · unfold iteration_guard
    by_cases h : max_iterations ≤ n + 1 <;> simp [h]
  · intro h
    simp [iteration_guard, h]

/-- Witness for the amended C9 at a concrete counter value below the cap. -/
theorem c9_amended_witness : iteration_guard 5 = IterationStep.proceed 6 :=
  ((c9_amended_iteration_cap.2 5).2 (by decide))

/-! ## List helpers shared by the embedding -/

/-- Reading an updated position of a list. -/
theorem listSet_getD_eq {α : Type} (l : List α) (i : Nat) (a d : α) (h : i < l.length) :
    (l.set i a).getD i d = a := by
  induction l generalizing i with
  | nil => simp at h
  | cons b t ih =>
    cases i with
    | zero => rfl
    | succ j =>
      simp only [List.set, List.getD, List.get?]
      exact ih j (by simpa using h)

/-- Reading an untouched position of an updated list. -/
theorem listSet_getD_ne {α : Type} (l : List α) (i j : Nat) (a d : α) (h : j ≠ i) :
    (l.set i a).getD j d = l.getD j d := by
  induction l generalizing i j with
  | nil => simp
  | cons b t ih =>
    cases i with
    | zero =>
      cases j with
      | zero => exact absurd rfl h
      | succ k => rfl
    | succ i2 =>
      cases j with
      | zero => rfl
      | succ k =>
        simp only [List.set, List.getD, List.get?]
        exact ih i2 k (fun hk => h (by rw [hk]))

/-! ## Puzzle state and the speculative branching step of the driver
(src/main.rs, solve).  The Solver wrapper, Puzzle.incomplete_rows,
Puzzle.get_row and the deep clone of Puzzle are referenced by src/main.rs but
are not defined under src; those parts are modelled from the spec as noted on
each definition. -/

/-- Per-line data the driver scan needs: orientation, index, length and the
completion flag of the line (fields of Row in src/row/mod.rs). -/
structure LineInfo where
  direction : Direction
  index : Nat
  length : Nat
  completed : Bool
deriving DecidableEq, Repr

/-- Puzzle state as seen by the driver: the grid rows of squares (grid is
indexed row first, matching Grid.squares of src/grid.rs), and the horizontal
and vertical line lists. -/
structure PuzzleState where
  grid : List (List Square)
  rows : List LineInfo
  cols : List LineInfo
deriving DecidableEq, Repr

/-- Grid.get_square of src/grid.rs: squares[y][x]. -/
def PuzzleState.getSquare (p : PuzzleState) (x y : Nat) : Square :=
  (p.grid.getD y []).getD x (Square.mk y x SquareStatus.unknown none none)

/-- Modelled from the spec: Puzzle.incomplete_rows is called by solve in
src/main.rs (line 171) but is not defined under src.  Section 4.7 of the spec
prescribes scanning the lines in order, rows before columns, keeping the
lines not yet completed. -/
def PuzzleState.incomplete_rows (p : PuzzleState) : List LineInfo :=
  (p.rows ++ p.cols).filter (fun li => !li.completed)

/-- Line position to grid coordinates (x, y), mirroring square_index of the
DirectionalSequence trait in src/row/mod.rs. -/
def lineCoords (li : LineInfo) (at0 : Nat) : Nat × Nat :=
  match li.direction with
  | Direction.horizontal => (at0, li.index)
  | Direction.vertical => (li.index, at0)

/-- The square-selection scan of solve, src/main.rs lines 170 to 180: walk
the incomplete lines in order and return the grid coordinates of the first
UNKNOWN square of the first incomplete line that has one. -/
def PuzzleState.chooseUnknownSquare (p : PuzzleState) : Option (Nat × Nat) :=
  p.incomplete_rows.findSome? (fun li =>
    ((List.range li.length).find? (fun a =>
        (p.getSquare (lineCoords li a).1 (lineCoords li a).2).status
          == SquareStatus.unknown)).map
      (fun a => lineCoords li a))

/-- Writing one square status through the primitive mutator followed by
unwrap, as solve does at src/main.rs lines 183 and 196; a mutator failure
aborts the process. -/
def PuzzleState.setStatusUnwrap (p : PuzzleState) (x y : Nat) (st : SquareStatus) :
    Except Error PuzzleState :=
  let sq := p.getSquare x y
  match sq.set_status st with
  | (Except.error _, _) => Except.error (Error.panic "called unwrap on an Err value")
  | (Except.ok _, sq2) =>
      Except.ok { p with grid := p.grid.set y ((p.grid.getD y []).set x sq2) }

/-- Result of one speculative step of solve. -/
inductive SpecOutcome where
  | adopted (solved : PuzzleState)
  | resumed (parent : PuzzleState)
deriving Repr

/-- The speculative branching step of solve, src/main.rs lines 160 to 198:
when the queue has drained with the puzzle incomplete, clone the puzzle (the
identity on the pure state; the structural clone itself is not under src and
is modelled from the spec as a deep copy), choose the first UNKNOWN square of
the first incomplete line, set it FilledIn in the clone, and recurse on the
clone, passed here as the function recSolve.  On success the result of the
recursion is adopted wholesale; on failure the chosen square of the parent is
crossed out and the main loop resumes. -/
def speculation_step (p : PuzzleState)
    (recSolve : PuzzleState → Except Error PuzzleState) : Except Error SpecOutcome := do
  let edited := p
  match edited.chooseUnknownSquare with
  | none => Except.error (Error.panic "called unwrap on a None value")
  | some (x, y) => do
      let edited2 ← edited.setStatusUnwrap x y SquareStatus.filledIn
      match recSolve edited2 with
      | Except.ok solved => Except.ok (SpecOutcome.adopted solved)
      | Except.error _ => do
          let parent2 ← p.setStatusUnwrap x y SquareStatus.crossedOut
          Except.ok (SpecOutcome.resumed parent2)

/-- Setting a status on an UNKNOWN square through the unwrap wrapper
succeeds and changes exactly that square, leaving its owner fields and the
line data untouched. -/
theorem setStatusUnwrap_on_unknown (p : PuzzleState) (x y : Nat) (st : SquareStatus)
    (hst : st ≠ SquareStatus.unknown)
    (hsq : (p.getSquare x y).status = SquareStatus.unknown)
    (hgy : y < p.grid.length) (hgx : x < (p.grid.getD y []).length) :
    ∃ p2, p.setStatusUnwrap x y st = Except.ok p2 ∧ p2.rows = p.rows ∧ p2.cols = p.cols ∧
      p2.getSquare x y = { p.getSquare x y with status := st } ∧
      (∀ x2 y2, ¬(x2 = x ∧ y2 = y) → p2.getSquare x2 y2 = p.getSquare x2 y2) := by
  have hs : (p.getSquare x y).set_status st =
      (Except.ok (some (StatusChange.mk (p.getSquare x y).row (p.getSquare x y).col
        SquareStatus.unknown st)), { p.getSquare x y with status := st }) := by
    simp [Square.set_status, Square.apply_status_change, hsq, Ne.symm hst]
  refine ⟨{ p with grid := p.grid.set y ((p.grid.getD y []).set x
      { p.getSquare x y with status := st }) }, ?_, rfl, rfl, ?_, ?_⟩
  · simp only [PuzzleState.setStatusUnwrap]
    rw [hs]
  · simp only [PuzzleState.getSquare]
    rw [listSet_getD_eq _ _ _ _ hgy, listSet_getD_eq _ _ _ _ hgx]
  · intro x2 y2 hne
    simp only [PuzzleState.getSquare]
    by_cases hy : y2 = y
    · subst hy
      have hx : x2 ≠ x := fun hxx => hne ⟨hxx, rfl⟩
      rw [listSet_getD_eq _ _ _ _ hgy, listSet_getD_ne _ _ _ _ _ hx]
    · rw [listSet_getD_ne _ _ _ _ _ hy]

/-- CLAIM C3.  When the work queue has drained with the puzzle incomplete,
the driver selects the first UNKNOWN cell of the first incomplete line in
scan order, hands the recursion a clone of the puzzle that differs from the
parent exactly by that cell being FilledIn with no owner assignment, adopts
the result of the recursion wholesale when it succeeds, and on failure
mutates the parent only by setting the chosen cell to EMPTY before resuming
propagation. -/
theorem c3_speculation_step (p : PuzzleState)
    (recSolve : PuzzleState → Except Error PuzzleState)
    (li : LineInfo) (at0 x y : Nat)
    (hline : p.incomplete_rows.head? = some li)
    (hfind : (List.range li.length).find? (fun a =>
        (p.getSquare (lineCoords li a).1 (lineCoords li a).2).status
          == SquareStatus.unknown) = some at0)
    (hx : x = (lineCoords li at0).1) (hy : y = (lineCoords li at0).2)
    (hgy : y < p.grid.length) (hgx : x < (p.grid.getD y []).length) :
    p.chooseUnknownSquare = some (x, y) ∧
    ∃ edited, p.setStatusUnwrap x y SquareStatus.filledIn = Except.ok edited ∧
      edited.rows = p.rows ∧ edited.cols = p.cols ∧
      edited.getSquare x y = { p.getSquare x y with status := SquareStatus.filledIn } ∧
      (∀ x2 y2, ¬(x2 = x ∧ y2 = y) → edited.getSquare x2 y2 = p.getSquare x2 y2) ∧
      (∀ q, recSolve edited = Except.ok q →
        speculation_step p recSolve = Except.ok (SpecOutcome.adopted q)) ∧
      (∀ e, recSolve edited = Except.error e →
        ∃ parent2, speculation_step p recSolve = Except.ok (SpecOutcome.resumed parent2) ∧
          parent2.rows = p.rows ∧ parent2.cols = p.cols ∧
          parent2.getSquare x y = { p.getSquare x y with status := SquareStatus.crossedOut } ∧
          (∀ x2 y2, ¬(x2 = x ∧ y2 = y) → parent2.getSquare x2 y2 = p.getSquare x2 y2)) := by
  have hsqu : (p.getSquare x y).status = SquareStatus.unknown := by
    have hp := List.find?_some hfind
    rw [hx, hy]
    exact of_decide_eq_true hp
  have hchoose : p.chooseUnknownSquare = some (x, y) := by
    unfold PuzzleState.chooseUnknownSquare
    cases hlist : p.incomplete_rows with
    | nil => rw [hlist] at hline; simp at hline
    | cons a t =>
      rw [hlist] at hline
      simp only [List.head?] at hline
      cases hline
      rw [List.findSome?_cons]
      rw [hfind]
      simp [hx, hy]
  obtain ⟨edited, hed, hedr, hedc, hedsq, hedother⟩ :=
    setStatusUnwrap_on_unknown p x y SquareStatus.filledIn (by decide) hsqu hgy hgx
  refine ⟨hchoose, edited, hed, hedr, hedc, hedsq, hedother, ?_, ?_⟩
  · intro q hrec
    simp only [speculation_step]
    rw [hchoose]
    simp only [bind, Except.bind]
    rw [hed]
    simp [hrec]
  · intro e hrec
    obtain ⟨parent2, hp2, hp2r, hp2c, hp2sq, hp2other⟩ :=
      setStatusUnwrap_on_unknown p x y SquareStatus.crossedOut (by decide) hsqu hgy hgx
    refine ⟨parent2, ?_, hp2r, hp2c, hp2sq, hp2other⟩
    simp only [speculation_step]
    rw [hchoose]
    simp only [bind, Except.bind]
    rw [hed]
    simp [hrec, hp2]

/-- Concrete one-by-one puzzle with a single UNKNOWN square, used to witness
the speculative branching step. -/
def c3ExamplePuzzle : PuzzleState :=
  PuzzleState.mk [[Square.mk 0 0 SquareStatus.unknown none none]]
    [LineInfo.mk Direction.horizontal 0 1 false]
    [LineInfo.mk Direction.vertical 0 1 false]

/-- Witness for C3 on the concrete puzzle, with a recursion oracle that
succeeds immediately. -/
theorem c3_witness :
    c3ExamplePuzzle.chooseUnknownSquare = some (0, 0) ∧
    ∃ edited, c3ExamplePuzzle.setStatusUnwrap 0 0 SquareStatus.filledIn = Except.ok edited ∧
      edited.rows = c3ExamplePuzzle.rows ∧ edited.cols = c3ExamplePuzzle.cols ∧
      edited.getSquare 0 0 =
        { c3ExamplePuzzle.getSquare 0 0 with status := SquareStatus.filledIn } ∧
      (∀ x2 y2, ¬(x2 = 0 ∧ y2 = 0) →
        edited.getSquare x2 y2 = c3ExamplePuzzle.getSquare x2 y2) ∧
      (∀ q, (Except.ok edited : Except Error PuzzleState) = Except.ok q →
        speculation_step c3ExamplePuzzle (fun q2 => Except.ok q2) =
          Except.ok (SpecOutcome.adopted q)) ∧
      (∀ e, (Except.ok edited : Except Error PuzzleState) = Except.error e →
        ∃ parent2, speculation_step c3ExamplePuzzle (fun q2 => Except.ok q2) =
            Except.ok (SpecOutcome.resumed parent2) ∧
          parent2.rows = c3ExamplePuzzle.rows ∧ parent2.cols = c3ExamplePuzzle.cols ∧
          parent2.getSquare 0 0 =
            { c3ExamplePuzzle.getSquare 0 0 with status := SquareStatus.crossedOut } ∧
          (∀ x2 y2, ¬(x2 = 0 ∧ y2 = 0) →
            parent2.getSquare x2 y2 = c3ExamplePuzzle.getSquare x2 y2)) :=
  c3_speculation_step c3ExamplePuzzle (fun q => Except.ok q)
    (LineInfo.mk Direction.horizontal 0 1 false) 0 0 0
    (by rfl) (by rfl) rfl rfl (by decide) (by decide)

/-! ## Line state: runs and the row view (src/row/mod.rs) -/

/-- Half-open range start..stop, the Rust Range of usize. -/
structure Rg where
  start : Nat
  stop : Nat
deriving DecidableEq, Repr

/-- Number of positions of a half-open range (Range::len). -/
def Rg.len (rg : Rg) : Nat := rg.stop - rg.start

/-- Membership test of a half-open range (Range::contains). -/
def Rg.containsB (rg : Rg) (i : Nat) : Bool := decide (rg.start ≤ i) && decide (i < rg.stop)

/-- The list of positions of the Rust iteration a..b, in increasing order. -/
def rustRange (a b : Nat) : List Nat := List.range' a (b - a)

/-- One run descriptor of a line, from the Run structure of src/row/mod.rs. -/
structure Run where
  direction : Direction
  length : Nat
  index : Nat
  rowIndex : Nat
  rowLength : Nat
  possiblePlacements : List Rg
  completed : Bool
deriving DecidableEq, Repr

/-- Placeholder square for the total getD accessor; every access of the
embedded procedures is in range for well-formed states, where the source
would abort on an out-of-range index. -/
def defaultSquare : Square := Square.mk 0 0 SquareStatus.unknown none none

/-- Placeholder run for the total getD accessor, same convention. -/
def defaultRun : Run := Run.mk Direction.horizontal 0 0 0 0 [] false

/-- State of one line: the Row structure of src/row/mod.rs together with the
squares of that line in line order (the view of the shared grid through
get_square of the DirectionalSequence trait). -/
structure RowState where
  direction : Direction
  index : Nat
  length : Nat
  runs : List Run
  squares : List Square
  completed : Bool
deriving DecidableEq, Repr

/-- Reading the square at a line position (Row.get_square). -/
def RowState.sq (r : RowState) (i : Nat) : Square := r.squares.getD i defaultSquare

/-- Square.has_run_assigned from src/grid.rs. -/
def Square.hasRunAssigned (sq : Square) (run : Run) : Bool :=
  sq.getRunIndex run.direction == some run.index

/-- Change list from an optional status-change record, modelling the source
idiom: if let Some(change) then push it. -/
def optStatusChanges (c : Option StatusChange) : List Change :=
  match c with
  | some x => [Change.status x]
  | none => []

/-- Change list from an optional run-change record, same idiom. -/
def optRunChanges (c : Option RunChange) : List Change :=
  match c with
  | some x => [Change.run x]
  | none => []

/-- Mutating one line square through Square.set_status, as the solver does
via get_square_mut; an out-of-range position aborts in the source. -/
def RowState.setStatusAt (r : RowState) (pos : Nat) (st : SquareStatus) :
    Except Error (Option StatusChange × RowState) :=
  match r.squares.get? pos with
  | none => Except.error (Error.panic "index out of bounds")
  | some sq =>
    match sq.set_status st with
    | (Except.error e, _) => Except.error e
    | (Except.ok c, sq2) => Except.ok (c, { r with squares := r.squares.set pos sq2 })

/-- Mutating one line square through Square.assign_run of src/grid.rs, which
forwards to set_run_index with the direction and index of the run. -/
def RowState.assignRunAt (r : RowState) (pos : Nat) (run : Run) :
    Except Error (Option RunChange × RowState) :=
  match r.squares.get? pos with
  | none => Except.error (Error.panic "index out of bounds")
  | some sq =>
    match sq.set_run_index run.direction run.index with
    | (Except.error e, _) => Except.error e
    | (Except.ok c, sq2) => Except.ok (c, { r with squares := r.squares.set pos sq2 })

/-! ## Monotone evolution of squares -/

/-- Monotone refinement between two squares: a known status never changes
and an assigned owner never changes. -/
def Square.mono (a b : Square) : Prop :=
  (a.status ≠ SquareStatus.unknown → b.status = a.status) ∧
  (∀ d i, a.getRunIndex d = some i → b.getRunIndex d = some i)

theorem Square.mono_refl (a : Square) : a.mono a :=
  ⟨fun _ => rfl, fun _ _ h => h⟩

theorem Square.mono_trans {a b c : Square} (h1 : a.mono b) (h2 : b.mono c) : a.mono c := by
  constructor
  · intro h
    rw [h2.1, h1.1 h]
    rw [h1.1 h]
    exact h
  · intro d i h
    exact h2.2 d i (h1.2 d i h)

/-- Monotone refinement between two line states, square by square. -/
def RowState.mono (r r2 : RowState) : Prop :=
  ∀ pos, (r.sq pos).mono (r2.sq pos)

theorem RowState.monoRefl (r : RowState) : r.mono r := fun pos => Square.mono_refl _

theorem RowState.monoTrans {a b c : RowState} (h1 : a.mono b) (h2 : b.mono c) : a.mono c :=
  fun pos => Square.mono_trans (h1 pos) (h2 pos)

/-- Successful set_status: the status becomes the requested one, the owners
and location are untouched, and the update is monotone. -/
theorem set_status_ok (sq : Square) (st : SquareStatus) (c : Option StatusChange)
    (sq2 : Square) (h : sq.set_status st = (Except.ok c, sq2)) :
    sq2.status = st ∧ sq2.hrunIndex = sq.hrunIndex ∧ sq2.vrunIndex = sq.vrunIndex ∧
      sq2.row = sq.row ∧ sq2.col = sq.col ∧ sq.mono sq2 := by
  by_cases h1 : sq.status ≠ SquareStatus.unknown ∧ sq.status ≠ st
  · exfalso
    have : sq.set_status st = (Except.error (Error.statusConflict
        (StatusChange.mk sq.row sq.col sq.status st) "conflicting information"), sq) := by
      simp [Square.set_status, Square.apply_status_change, h1]
    rw [this] at h
    exact absurd ((Prod.mk.injEq _ _ _ _).mp h).1 (by simp)
  · by_cases h2 : sq.status = st
    · have : sq.set_status st = (Except.ok none, sq) := by
        simp [Square.set_status, Square.apply_status_change, h2]
      rw [this] at h
      have hsq := ((Prod.mk.injEq _ _ _ _).mp h).2
      subst hsq
      exact ⟨h2, rfl, rfl, rfl, rfl, Square.mono_refl sq⟩
    · have hu : sq.status = SquareStatus.unknown := by
        by_contra hcon
        exact h1 ⟨hcon, h2⟩
      have : sq.set_status st =
          (Except.ok (some (StatusChange.mk sq.row sq.col sq.status st)),
            { sq with status := st }) := by
        simp [Square.set_status, Square.apply_status_change, hu, h2]
        intro hcon
        exact absurd (hu.trans hcon) h2
      rw [this] at h
      have hsq := ((Prod.mk.injEq _ _ _ _).mp h).2
      subst hsq
      refine ⟨rfl, rfl, rfl, rfl, rfl, ?_, ?_⟩
      · intro hne
        exact absurd hu hne
      · intro d i hd
        cases d <;> exact hd

/-- Successful set_run_index: the owner in the given orientation becomes the
run index, the status and the other orientation are untouched, and the
update is monotone. -/
theorem set_run_index_ok (sq : Square) (d : Direction) (idx : Nat) (c : Option RunChange)
    (sq2 : Square) (h : sq.set_run_index d idx = (Except.ok c, sq2)) :
    sq2.status = sq.status ∧ sq2.getRunIndex d = some idx ∧
      (∀ d2, d2 ≠ d → sq2.getRunIndex d2 = sq.getRunIndex d2) ∧
      sq2.row = sq.row ∧ sq2.col = sq.col ∧ sq.mono sq2 := by
  by_cases h1 : sq.status ≠ SquareStatus.filledIn
  · exfalso
    simp [Square.set_run_index, Square.apply_run_change, h1] at h
  · by_cases h2 : sq.getRunIndex d ≠ none ∧ sq.getRunIndex d ≠ some idx
    · exfalso
      simp [Square.set_run_index, Square.apply_run_change, h1, h2] at h
    · by_cases h3 : sq.getRunIndex d = none ∨ sq.getRunIndex d ≠ some idx
      · have : sq.set_run_index d idx =
            (Except.ok (some (RunChange.mk sq.row sq.col d (sq.getRunIndex d) idx)),
              sq.setRunIndexField d (some idx)) := by
          simp only [Square.set_run_index, Square.apply_run_change, if_neg h1, if_neg h2,
            if_pos h3]
        rw [this] at h
        have hsq := ((Prod.mk.injEq _ _ _ _).mp h).2
        subst hsq
        have hown : sq.getRunIndex d = none ∨ sq.getRunIndex d = some idx := by
          rcases h3 with h3a | h3b
          · exact Or.inl h3a
          · by_cases hn : sq.getRunIndex d = none
            · exact Or.inl hn
            · exact absurd ⟨hn, h3b⟩ h2
        cases d with
        | horizontal =>
          refine ⟨rfl, rfl, ?_, rfl, rfl, ?_, ?_⟩
          · intro d2 hd2
            cases d2 with
            | horizontal => exact absurd rfl hd2
            | vertical => rfl
          · intro _
            rfl
          · intro d2 i hd
            cases d2 with
            | horizontal =>
              rcases hown with ho | ho
              · rw [ho] at hd
                cases hd
              · rw [ho] at hd
                simpa [Square.getRunIndex, Square.setRunIndexField] using hd
            | vertical => exact hd
        | vertical =>
          refine ⟨rfl, rfl, ?_, rfl, rfl, ?_, ?_⟩
          · intro d2 hd2
            cases d2 with
            | horizontal => rfl
            | vertical => exact absurd rfl hd2
          · intro _
            rfl
          · intro d2 i hd
            cases d2 with
            | horizontal => exact hd
            | vertical =>
              rcases hown with ho | ho
              · rw [ho] at hd
                cases hd
              · rw [ho] at hd
                simpa [Square.getRunIndex, Square.setRunIndexField] using hd
      · have : sq.set_run_index d idx = (Except.ok none, sq) := by
          simp only [Square.set_run_index, Square.apply_run_change, if_neg h1, if_neg h2,
            if_neg h3]
        rw [this] at h
        have hsq := ((Prod.mk.injEq _ _ _ _).mp h).2
        subst hsq
        have hsome : sq.getRunIndex d = some idx := by
          by_contra hcon
          exact h3 (Or.inr hcon)
        exact ⟨rfl, hsome, fun d2 _ => rfl, rfl, rfl, Square.mono_refl sq⟩

/-- A successful get? implies the index is within bounds. -/
theorem listGet?_some_lt {α : Type} {l : List α} {i : Nat} {a : α}
    (h : l.get? i = some a) : i < l.length := by
  induction l generalizing i with
  | nil => simp at h
  | cons b t ih =>
    cases i with
    | zero => simp
    | succ j => exact Nat.succ_lt_succ (ih (by simpa using h))

/-- getD agrees with a successful get?. -/
theorem listGetD_of_get? {α : Type} {l : List α} {i : Nat} {a : α} (d : α)
    (h : l.get? i = some a) : l.getD i d = a := by
  induction l generalizing i with
  | nil => simp at h
  | cons b t ih =>
    cases i with
    | zero =>
      simp only [List.get?] at h
      cases h
      rfl
    | succ j =>
      simp only [List.getD, List.get?] at h ⊢
      rw [h]
      rfl

/-- Successful setStatusAt: the status of the addressed square becomes the
requested one, its owners and every other square are untouched, the line data
are untouched, and the update is monotone. -/
theorem setStatusAt_ok (r : RowState) (pos : Nat) (st : SquareStatus)
    (c : Option StatusChange) (r2 : RowState)
    (h : r.setStatusAt pos st = Except.ok (c, r2)) :
    (r2.sq pos).status = st ∧
    (r2.sq pos).hrunIndex = (r.sq pos).hrunIndex ∧
    (r2.sq pos).vrunIndex = (r.sq pos).vrunIndex ∧
    (∀ q, q ≠ pos → r2.sq q = r.sq q) ∧
    r2.runs = r.runs ∧ r2.length = r.length ∧ r2.direction = r.direction ∧
    r2.index = r.index ∧ r2.completed = r.completed ∧
    r2.squares.length = r.squares.length ∧ r.mono r2 := by
  cases hget : r.squares.get? pos with
  | none =>
    have hval : r.setStatusAt pos st = Except.error (Error.panic "index out of bounds") := by
      unfold RowState.setStatusAt
      rw [hget]
    rw [hval] at h
    cases h
  | some sq =>
    cases hset : sq.set_status st with
    | mk res sq2 =>
      cases res with
      | error e =>
        have hval : r.setStatusAt pos st = Except.error e := by
          unfold RowState.setStatusAt
          simp only [hget]
          rw [hset]
        rw [hval] at h
        cases h
      | ok c2 =>
        have hval : r.setStatusAt pos st =
            Except.ok (c2, { r with squares := r.squares.set pos sq2 }) := by
          unfold RowState.setStatusAt
          simp only [hget]
          rw [hset]
        rw [hval] at h
        have hps := ((Prod.mk.injEq _ _ _ _).mp (Except.ok.injEq _ _ |>.mp h))
        have hr2 : r2 = { r with squares := r.squares.set pos sq2 } := hps.2.symm
        have hlt : pos < r.squares.length := listGet?_some_lt hget
        have hsq : r.sq pos = sq := listGetD_of_get? defaultSquare hget
        have hok := set_status_ok sq st c2 sq2 hset
        subst hr2
        have hpos : RowState.sq { r with squares := r.squares.set pos sq2 } pos = sq2 := by
          simp only [RowState.sq]
          exact listSet_getD_eq _ _ _ _ hlt
        have hother : ∀ q, q ≠ pos →
            RowState.sq { r with squares := r.squares.set pos sq2 } q = r.sq q := by
          intro q hq
          simp only [RowState.sq]
          exact listSet_getD_ne _ _ _ _ _ hq
        refine ⟨by rw [hpos]; exact hok.1,
                by rw [hpos, hsq]; exact hok.2.1,
                by rw [hpos, hsq]; exact hok.2.2.1,
                hother, rfl, rfl, rfl, rfl, rfl, by simp, ?_⟩
        intro q
        by_cases hq : q = pos
        · subst hq
          rw [hpos, hsq]
          exact hok.2.2.2.2.2
        · rw [hother q hq]
          exact Square.mono_refl _

/-- Successful assignRunAt: the owner of the addressed square in the
direction of the run becomes the index of the run, everything else is
untouched, and the update is monotone. -/
theorem assignRunAt_ok (r : RowState) (pos : Nat) (run : Run)
    (c : Option RunChange) (r2 : RowState)
    (h : r.assignRunAt pos run = Except.ok (c, r2)) :
    (r2.sq pos).status = (r.sq pos).status ∧
    (r2.sq pos).getRunIndex run.direction = some run.index ∧
    (∀ d2, d2 ≠ run.direction → (r2.sq pos).getRunIndex d2 = (r.sq pos).getRunIndex d2) ∧
    (∀ q, q ≠ pos → r2.sq q = r.sq q) ∧
    r2.runs = r.runs ∧ r2.length = r.length ∧ r2.direction = r.direction ∧
    r2.index = r.index ∧ r2.completed = r.completed ∧
    r2.squares.length = r.squares.length ∧ r.mono r2 := by
  cases hget : r.squares.get? pos with
  | none =>
    have hval : r.assignRunAt pos run = Except.error (Error.panic "index out of bounds") := by
      unfold RowState.assignRunAt
      rw [hget]
    rw [hval] at h
    cases h
  | some sq =>
    cases hset : sq.set_run_index run.direction run.index with
    | mk res sq2 =>
      cases res with
      | error e =>
        have hval : r.assignRunAt pos run = Except.error e := by
          unfold RowState.assignRunAt
          simp only [hget]
          rw [hset]
        rw [hval] at h
        cases h
      | ok c2 =>
        have hval : r.assignRunAt pos run =
            Except.ok (c2, { r with squares := r.squares.set pos sq2 }) := by
          unfold RowState.assignRunAt
          simp only [hget]
          rw [hset]
        rw [hval] at h
        have hps := ((Prod.mk.injEq _ _ _ _).mp (Except.ok.injEq _ _ |>.mp h))
        have hr2 : r2 = { r with squares := r.squares.set pos sq2 } := hps.2.symm
        have hlt : pos < r.squares.length := listGet?_some_lt hget
        have hsq : r.sq pos = sq := listGetD_of_get? defaultSquare hget
        have hok := set_run_index_ok sq run.direction run.index c2 sq2 hset
        subst hr2
        have hpos : RowState.sq { r with squares := r.squares.set pos sq2 } pos = sq2 := by
          simp only [RowState.sq]
          exact listSet_getD_eq _ _ _ _ hlt
        have hother : ∀ q, q ≠ pos →
            RowState.sq { r with squares := r.squares.set pos sq2 } q = r.sq q := by
          intro q hq
          simp only [RowState.sq]
          exact listSet_getD_ne _ _ _ _ _ hq
        refine ⟨by rw [hpos, hsq]; exact hok.1,
                by rw [hpos]; exact hok.2.1,
                by rw [hpos, hsq]; exact hok.2.2.1,
                hother, rfl, rfl, rfl, rfl, rfl, by simp, ?_⟩
        intro q
        by_cases hq : q = pos
        · subst hq
          rw [hpos, hsq]
          exact hok.2.2.2.2.2
        · rw [hother q hq]
          exact Square.mono_refl _

/-! ## Scanners of the line view (Row private helpers, src/row/mod.rs) -/

/-- First position at or after x where the predicate holds, or the line
length; the skip-past-false inner while loop of the ranges scanners. -/
def scanToTrue (r : RowState) (pred : Square → Nat → Bool) (x : Nat) : Nat :=
  if _h : x < r.length then
    if pred (r.sq x) x then x else scanToTrue r pred (x + 1)
  else x
termination_by r.length - x

/-- First position at or after x where the predicate fails, or the line
length; the skip-past-true inner while loop of the ranges scanners. -/
def scanToFalse (r : RowState) (pred : Square → Nat → Bool) (x : Nat) : Nat :=
  if _h : x < r.length then
    if pred (r.sq x) x then scanToFalse r pred (x + 1) else x
  else x
termination_by r.length - x

theorem scanToTrue_ge (r : RowState) (pred : Square → Nat → Bool) (x : Nat) :
    x ≤ scanToTrue r pred x := by
  unfold scanToTrue
  split
  · split
    · exact Nat.le_refl x
    · exact Nat.le_trans (Nat.le_succ x) (scanToTrue_ge r pred (x + 1))
  · exact Nat.le_refl x
termination_by r.length - x

theorem scanToFalse_ge (r : RowState) (pred : Square → Nat → Bool) (x : Nat) :
    x ≤ scanToFalse r pred x := by
  unfold scanToFalse
  split
  · split
    · exact Nat.le_trans (Nat.le_succ x) (scanToFalse_ge r pred (x + 1))
    · exact Nat.le_refl x
  · exact Nat.le_refl x
termination_by r.length - x

/-- The scanning loop of the private helper ranges_of_squares of
src/row/mod.rs (lines 74 to 100): skip past positions where the predicate
fails, record the maximal block where it holds, then resume one position
past the end of the block (the extra increment of the source loop; that
position is known to fail the predicate or to be past the end, so skipping
it does not change the result). -/
def rangesOfSquaresGo (r : RowState) (pred : Square → Nat → Bool) (x : Nat) : List Rg :=
  let x1 := scanToTrue r pred x
  if _h : x1 < r.length then
    let x2 := scanToFalse r pred (x1 + 1)
    Rg.mk x1 x2 :: rangesOfSquaresGo r pred (x2 + 1)
  else []
termination_by r.length + 1 - x
decreasing_by
  have h1 : x ≤ scanToTrue r pred x := scanToTrue_ge r pred x
  have h2 : scanToTrue r pred x + 1 ≤ scanToFalse r pred (scanToTrue r pred x + 1) :=
    scanToFalse_ge r pred (scanToTrue r pred x + 1)
  omega

/-- Row ranges_of_squares: the maximal blocks of positions where the
predicate holds, in increasing order. -/
def rangesOfSquares (r : RowState) (pred : Square → Nat → Bool) : List Rg :=
  rangesOfSquaresGo r pred 0

/-- Skip-past-false inner loop over the run list. -/
def scanRunsToTrue (r : RowState) (pred : Run → Bool) (x : Nat) : Nat :=
  if _h : x < r.runs.length then
    if pred (r.runs.getD x defaultRun) then x else scanRunsToTrue r pred (x + 1)
  else x
termination_by r.runs.length - x

/-- Skip-past-true inner loop over the run list. -/
def scanRunsToFalse (r : RowState) (pred : Run → Bool) (x : Nat) : Nat :=
  if _h : x < r.runs.length then
    if pred (r.runs.getD x defaultRun) then scanRunsToFalse r pred (x + 1) else x
  else x
termination_by r.runs.length - x

theorem scanRunsToTrue_ge (r : RowState) (pred : Run → Bool) (x : Nat) :
    x ≤ scanRunsToTrue r pred x := by
  unfold scanRunsToTrue
  split
  · split
    · exact Nat.le_refl x
    · exact Nat.le_trans (Nat.le_succ x) (scanRunsToTrue_ge r pred (x + 1))
  · exact Nat.le_refl x
termination_by r.runs.length - x

theorem scanRunsToFalse_ge (r : RowState) (pred : Run → Bool) (x : Nat) :
    x ≤ scanRunsToFalse r pred x := by
  unfold scanRunsToFalse
  split
  · split
    · exact Nat.le_trans (Nat.le_succ x) (scanRunsToFalse_ge r pred (x + 1))
    · exact Nat.le_refl x
  · exact Nat.le_refl x
termination_by r.runs.length - x

/-- The scanning loop of ranges_of_runs of src/row/mod.rs (lines 101 to
127), identical in structure to the squares scanner but over the run list. -/
def rangesOfRunsGo (r : RowState) (pred : Run → Bool) (x : Nat) : List Rg :=
  let x1 := scanRunsToTrue r pred x
  if _h : x1 < r.runs.length then
    let x2 := scanRunsToFalse r pred (x1 + 1)
    Rg.mk x1 x2 :: rangesOfRunsGo r pred (x2 + 1)
  else []
termination_by r.runs.length + 1 - x
decreasing_by
  have h1 : x ≤ scanRunsToTrue r pred x := scanRunsToTrue_ge r pred x
  have h2 : scanRunsToTrue r pred x + 1 ≤ scanRunsToFalse r pred (scanRunsToTrue r pred x + 1) :=
    scanRunsToFalse_ge r pred (scanRunsToTrue r pred x + 1)
  omega

/-- Row ranges_of_runs of src/row/mod.rs. -/
def rangesOfRuns (r : RowState) (pred : Run → Bool) : List Rg :=
  rangesOfRunsGo r pred 0

/-- Row.get_fields of src/row/mod.rs: maximal blocks of squares that are not
crossed out. -/
def RowState.get_fields (r : RowState) : List Rg :=
  rangesOfSquares r (fun sq _ => !(sq.status == SquareStatus.crossedOut))

/-- Row.is_trivially_empty of src/row/mod.rs: no runs, or only zero-length
runs. -/
def RowState.is_trivially_empty (r : RowState) : Bool :=
  r.runs.isEmpty || r.runs.all (fun run => run.length == 0)

/-- Row.possible_runs_for_sequence of src/row/mod.rs (lines 140 to 156): the
indices of the runs at least as long as the sequence with a possible
placement containing both the first and the last square of the sequence. -/
def possible_runs_for_sequence (r : RowState) (seq : Rg) : List Nat :=
  (r.runs.filter (fun run =>
      decide (seq.len ≤ run.length) &&
      run.possiblePlacements.any (fun rg =>
        rg.containsB seq.start && rg.containsB (seq.stop - 1)))).map (fun run => run.index)

/-- Run.delineate_at of src/row/mod.rs (lines 224 to 239): cross out the
squares directly before and after an assumed placement of the run (the
bounds checks compare against zero and against row_length of the run). -/
def delineateAt (r : RowState) (run : Run) (startAt : Nat) :
    Except Error (List Change × RowState) := do
  let (cs1, r1) ←
    if 0 < startAt then do
      match r.setStatusAt (startAt - 1) SquareStatus.crossedOut with
      | Except.error e => Except.error e
      | Except.ok (c, st) => Except.ok (optStatusChanges c, st)
    else Except.ok ([], r)
  if startAt + run.length < run.rowLength then
    match r1.setStatusAt (startAt + run.length) SquareStatus.crossedOut with
    | Except.error e => Except.error e
    | Except.ok (c, st) => Except.ok (cs1 ++ optStatusChanges c, st)
  else Except.ok (cs1, r1)

/-- Run.complete of src/row/mod.rs (lines 215 to 223) applied to the run at
list position i: delineate at the final position, then make that position
the single possible placement and mark the run completed. -/
def completeRunAt (r : RowState) (i : Nat) (startAt : Nat) :
    Except Error (List Change × RowState) := do
  match r.runs.get? i with
  | none => Except.error (Error.panic "index out of bounds")
  | some run => do
    let (cs, r1) ← delineateAt r run startAt
    let run2 := { run with
      possiblePlacements := [Rg.mk startAt (startAt + run.length)], completed := true }
    Except.ok (cs, { r1 with runs := r1.runs.set i run2 })

/-! ## The check_completed procedure (src/row/solver.rs lines 555 to 584) -/

/-- The square loop of check_completed: cross out every square when the line
is trivially empty, otherwise every square that is not filled in. -/
def check_completed_go (trivially : Bool) :
    List Nat → List Change → RowState → Except Error (List Change × RowState)
  | [], cs, st => Except.ok (cs, st)
  | x :: rest, cs, st =>
    if trivially || !((st.sq x).status == SquareStatus.filledIn) then
      match st.setStatusAt x SquareStatus.crossedOut with
      | Except.error e => Except.error e
      | Except.ok (c, st2) => check_completed_go trivially rest (cs ++ optStatusChanges c) st2
    else check_completed_go trivially rest cs st

/-- The zero-run marking loop at the end of check_completed, guarded by the
assert that every run has length zero. -/
def markZeroRuns : List Run → Except Error (List Run)
  | [] => Except.ok []
  | run :: rest =>
    if run.length ≠ 0 then Except.error (Error.panic "assertion failed: run.length == 0")
    else do
      let rest2 ← markZeroRuns rest
      Except.ok ({ run with completed := true } :: rest2)

/-- Row.check_completed of src/row/solver.rs: when every run is completed or
the line is trivially empty, cross out the remaining squares (all squares
when trivially empty) and mark the line completed; when trivially empty also
mark every run completed. -/
def check_completed (r : RowState) : Except Error (List Change × RowState) := do
  let trivially := r.is_trivially_empty
  if trivially || r.runs.all (fun run => run.completed) then do
    let (cs, r1) ← check_completed_go trivially (List.range r.length) [] r
    let r2 := { r1 with completed := true }
    if trivially then do
      let runs2 ← markZeroRuns r2.runs
      Except.ok (cs, { r2 with runs := runs2 })
    else Except.ok (cs, r2)
  else Except.ok ([], r)

/-- Invariants of the square loop of check_completed on a duplicate-free
position list: squares outside the list are untouched; a listed square that
is crossed by the loop condition ends crossed out; a listed square that the
condition skips is untouched; runs and line data are untouched. -/
theorem check_completed_go_ok (trivially : Bool) (xs : List Nat) (cs : List Change)
    (st : RowState) (cs2 : List Change) (st2 : RowState) (hnd : xs.Nodup)
    (h : check_completed_go trivially xs cs st = Except.ok (cs2, st2)) :
    (∀ x, x ∉ xs → st2.sq x = st.sq x) ∧
    (∀ x ∈ xs, (trivially = true ∨ (st.sq x).status ≠ SquareStatus.filledIn) →
      (st2.sq x).status = SquareStatus.crossedOut) ∧
    (∀ x ∈ xs, trivially = false ∧ (st.sq x).status = SquareStatus.filledIn →
      st2.sq x = st.sq x) ∧
    st2.runs = st.runs ∧ st2.length = st.length ∧ st2.completed = st.completed ∧
    st2.direction = st.direction ∧ st2.index = st.index := by
  induction xs generalizing cs st with
  | nil =>
    cases h
    exact ⟨fun _ _ => rfl, by simp, by simp, rfl, rfl, rfl, rfl, rfl⟩
  | cons x rest ih =>
    have hx : x ∉ rest := (List.nodup_cons.mp hnd).1
    have hndr : rest.Nodup := (List.nodup_cons.mp hnd).2
    by_cases hcond : (trivially || !((st.sq x).status == SquareStatus.filledIn)) = true
    · cases hset : st.setStatusAt x SquareStatus.crossedOut with
      | error e =>
        have hval : check_completed_go trivially (x :: rest) cs st = Except.error e := by
          unfold check_completed_go
          rw [if_pos hcond, hset]
        rw [hval] at h
        cases h
      | ok p =>
        cases p with
        | mk c stA =>
          have hval : check_completed_go trivially (x :: rest) cs st =
              check_completed_go trivially rest (cs ++ optStatusChanges c) stA := by
            conv_lhs => rw [check_completed_go]
            rw [if_pos hcond, hset]
          rw [hval] at h
          have hsOk := setStatusAt_ok st x SquareStatus.crossedOut c stA hset
          have hrec := ih (cs ++ optStatusChanges c) stA hndr h
          refine ⟨?_, ?_, ?_, ?_, ?_, ?_, ?_, ?_⟩
          · intro q hq
            have hq1 : q ≠ x := fun hh => hq (by rw [hh]; exact List.mem_cons_self x rest)
            have hq2 : q ∉ rest := fun hh => hq (List.mem_cons_of_mem x hh)
            rw [hrec.1 q hq2, hsOk.2.2.2.1 q hq1]
          · intro q hq hcq
            rcases List.mem_cons.mp hq with hq | hq
            · subst hq
              rw [hrec.1 q hx]
              exact hsOk.1
            · have hqx : q ≠ x := fun hh => hx (hh ▸ hq)
              exact hrec.2.1 q hq (by rw [hsOk.2.2.2.1 q hqx]; exact hcq)
          · intro q hq hcq
            rcases List.mem_cons.mp hq with hq | hq
            · subst hq
              exfalso
              rcases hcq with ⟨ht, hf⟩
              rw [ht, hf] at hcond
              simp at hcond
            · have hqx : q ≠ x := fun hh => hx (hh ▸ hq)
              rw [hrec.2.2.1 q hq ⟨hcq.1, by rw [hsOk.2.2.2.1 q hqx]; exact hcq.2⟩]
              exact hsOk.2.2.2.1 q hqx
          · rw [hrec.2.2.2.1, hsOk.2.2.2.2.1]
          · rw [hrec.2.2.2.2.1, hsOk.2.2.2.2.2.1]
          · rw [hrec.2.2.2.2.2.1]
            have := hsOk.2.2.2.2.2.2.2.2.1
            rw [this]
          · rw [hrec.2.2.2.2.2.2.1, hsOk.2.2.2.2.2.2.1]
          · rw [hrec.2.2.2.2.2.2.2, hsOk.2.2.2.2.2.2.2.1]
    · have hval : check_completed_go trivially (x :: rest) cs st =
          check_completed_go trivially rest cs st := by
        conv_lhs => rw [check_completed_go]
        rw [if_neg hcond]
      rw [hval] at h
      have hrec := ih cs st hndr h
      have hparts : trivially = false ∧ (st.sq x).status = SquareStatus.filledIn := by
        by_contra hcon
        apply hcond
        simp only [Bool.or_eq_true, Bool.not_eq_true', beq_eq_false_iff_ne]
        by_cases ht : trivially = true
        · exact Or.inl ht
        · refine Or.inr ?_
          intro hf
          exact hcon ⟨Bool.eq_false_iff.mpr ht, hf⟩
      refine ⟨?_, ?_, ?_, hrec.2.2.2.1, hrec.2.2.2.2.1, hrec.2.2.2.2.2.1,
        hrec.2.2.2.2.2.2.1, hrec.2.2.2.2.2.2.2⟩
      · intro q hq
        exact hrec.1 q (fun hh => hq (List.mem_cons_of_mem x hh))
      · intro q hq hcq
        rcases List.mem_cons.mp hq with hq | hq
        · subst hq
          exfalso
          rcases hcq with ht | hf
          · rw [ht] at hparts
            cases hparts.1
          · exact hf hparts.2
        · exact hrec.2.1 q hq hcq
      · intro q hq hcq
        rcases List.mem_cons.mp hq with hq | hq
        · subst hq
          exact hrec.1 q hx
        · exact hrec.2.2.1 q hq hcq

/-- Successful zero-run marking: every run of the result is completed. -/
theorem markZeroRuns_ok (runs runs2 : List Run) (h : markZeroRuns runs = Except.ok runs2) :
    ∀ run2 ∈ runs2, run2.completed = true := by
  induction runs generalizing runs2 with
  | nil =>
    cases h
    intro run2 hmem
    cases hmem
  | cons run rest ih =>
    by_cases hlen : run.length ≠ 0
    · have hval : markZeroRuns (run :: rest) =
          Except.error (Error.panic "assertion failed: run.length == 0") := by
        unfold markZeroRuns
        rw [if_pos hlen]
      rw [hval] at h
      cases h
    · cases hrest : markZeroRuns rest with
      | error e =>
        have hval : markZeroRuns (run :: rest) = Except.error e := by
          unfold markZeroRuns
          rw [if_neg hlen]
          simp only [hrest]
          rfl
        rw [hval] at h
        cases h
      | ok rest2 =>
        have hval : markZeroRuns (run :: rest) =
            Except.ok ({ run with completed := true } :: rest2) := by
          unfold markZeroRuns
          rw [if_neg hlen]
          simp only [hrest]
          rfl
        rw [hval] at h
        cases h
        intro run2 hmem
        rcases List.mem_cons.mp hmem with hmem | hmem
        · rw [hmem]
        · exact ih rest2 hrest run2 hmem

/-- Concrete line refuting the universal zero-run marking of CLAIM C8: two
runs of lengths zero and one, both incomplete, on a line of two UNKNOWN
squares. -/
def c8Row : RowState :=
  RowState.mk Direction.horizontal 0 2
    [Run.mk Direction.horizontal 0 0 0 2 [] false,
     Run.mk Direction.horizontal 1 1 0 2 [] false]
    [Square.mk 0 0 SquareStatus.unknown none none,
     Square.mk 0 1 SquareStatus.unknown none none]
    false

/-- Counterexample to CLAIM C8.  The claim states that all zero-length runs
are always marked completed by check_completed; on a line whose runs are of
lengths zero and one (so the line is not trivially empty and not all runs
are completed) the call succeeds without touching anything, and the
zero-length run stays not completed. -/
theorem c8_counterexample :
    check_completed c8Row = Except.ok ([], c8Row) ∧
    (c8Row.runs.getD 0 defaultRun).length = 0 ∧
    (c8Row.runs.getD 0 defaultRun).completed = false := by
  refine ⟨by rfl, by rfl, by rfl⟩

/-- CLAIM C8 as amended.  On success, check_completed marks the line
completed and crosses out the remaining UNKNOWN squares exactly when every
run on the line is completed or the line is trivially empty; for a
trivially-empty line every square ends EMPTY and every run ends completed;
zero-length runs are marked completed exactly in the trivially-empty case
(rather than always, as the original claim stated); and when the condition
fails the call changes nothing. -/
theorem c8_check_completed (r : RowState) (cs : List Change) (r2 : RowState)
    (h : check_completed r = Except.ok (cs, r2)) :
    ((r.is_trivially_empty || r.runs.all (fun run => run.completed)) = true →
      r2.completed = true ∧
      ∀ pos, pos < r.length → (r.sq pos).status = SquareStatus.unknown →
        (r2.sq pos).status = SquareStatus.crossedOut) ∧
    ((r.is_trivially_empty || r.runs.all (fun run => run.completed)) = false →
      r2 = r ∧ cs = []) ∧
    (r.is_trivially_empty = true →
      (∀ pos, pos < r.length → (r2.sq pos).status = SquareStatus.crossedOut) ∧
      ∀ run2 ∈ r2.runs, run2.completed = true) := by
  by_cases hcond : (r.is_trivially_empty || r.runs.all (fun run => run.completed)) = true
  · cases hgo : check_completed_go r.is_trivially_empty (List.range r.length) [] r with
    | error e =>
      have hval : check_completed r = Except.error e := by
        simp [check_completed, hcond, hgo, bind, Except.bind]
      rw [hval] at h
      cases h
    | ok p =>
      cases p with
      | mk csA r1 =>
        have hgoOk := check_completed_go_ok r.is_trivially_empty (List.range r.length)
          [] r csA r1 (List.nodup_range _) hgo
        by_cases htriv : r.is_trivially_empty = true
        · have hgo2 : check_completed_go true (List.range r.length) [] r =
              Except.ok (csA, r1) := htriv ▸ hgo
          cases hmark : markZeroRuns r1.runs with
          | error e =>
            have hval : check_completed r = Except.error e := by
              simp [check_completed, hcond, hgo2, htriv, hmark, bind, Except.bind]
            rw [hval] at h
            cases h
          | ok runs2 =>
            have hval : check_completed r =
                Except.ok (csA, { r1 with completed := true, runs := runs2 }) := by
              simp [check_completed, hcond, hgo2, htriv, hmark, bind, Except.bind]
            rw [hval] at h
            have hps := (Prod.mk.injEq _ _ _ _).mp (Except.ok.injEq _ _ |>.mp h)
            have hcs : csA = cs := hps.1
            have hr2 : r2 = { r1 with completed := true, runs := runs2 } := hps.2.symm
            subst hr2
            refine ⟨fun _ => ⟨rfl, ?_⟩, fun hf => ?_, fun _ => ⟨?_, ?_⟩⟩
            · intro pos hpos hunk
              have := hgoOk.2.1 pos (List.mem_range.mpr hpos)
                (Or.inl htriv)
              exact this
            · rw [hf] at hcond
              cases hcond
            · intro pos hpos
              exact hgoOk.2.1 pos (List.mem_range.mpr hpos) (Or.inl htriv)
            · exact markZeroRuns_ok r1.runs runs2 hmark
        · have htrivf : r.is_trivially_empty = false := Bool.eq_false_iff.mpr htriv
          have hgo2 : check_completed_go false (List.range r.length) [] r =
              Except.ok (csA, r1) := htrivf ▸ hgo
          have hall : r.runs.all (fun run => run.completed) = true := by
            rw [htrivf] at hcond
            simpa using hcond
          have hval : check_completed r = Except.ok (csA, { r1 with completed := true }) := by
            simp [check_completed, hall, hgo2, htrivf, bind, Except.bind]
          rw [hval] at h
          have hps := (Prod.mk.injEq _ _ _ _).mp (Except.ok.injEq _ _ |>.mp h)
          have hr2 : r2 = { r1 with completed := true } := hps.2.symm
          subst hr2
          refine ⟨fun _ => ⟨rfl, ?_⟩, fun hf => ?_, fun ht => absurd ht htriv⟩
          · intro pos hpos hunk
            refine hgoOk.2.1 pos (List.mem_range.mpr hpos) (Or.inr ?_)
            rw [hunk]
            intro hcon
            cases hcon
          · rw [hf] at hcond
            cases hcond
  · have hcondf : (r.is_trivially_empty || r.runs.all (fun run => run.completed)) = false :=
      Bool.eq_false_iff.mpr hcond
    have hval : check_completed r = Except.ok ([], r) := by
      simp [check_completed, hcondf]
    rw [hval] at h
    have hps := (Prod.mk.injEq _ _ _ _).mp (Except.ok.injEq _ _ |>.mp h)
    have hr2 : r2 = r := hps.2.symm
    have hcs : cs = [] := hps.1.symm
    subst hr2
    refine ⟨fun ht => absurd ht hcond, fun _ => ⟨rfl, hcs⟩, fun ht => ?_⟩
    rw [Bool.or_eq_false_iff] at hcondf
    rw [ht] at hcondf
    cases hcondf.1

/-- Concrete trivially-empty line for the C8 witness: one zero-length run on
one UNKNOWN square. -/
def c8TrivRow : RowState :=
  RowState.mk Direction.horizontal 0 1
    [Run.mk Direction.horizontal 0 0 0 1 [] false]
    [Square.mk 0 0 SquareStatus.unknown none none]
    false

/-- Witness for the amended C8: on the trivially-empty line the call
succeeds, the square ends EMPTY and the zero-length run ends completed. -/
theorem c8_witness :
    (∃ cs r2, check_completed c8TrivRow = Except.ok (cs, r2) ∧
      (r2.sq 0).status = SquareStatus.crossedOut ∧
      ∀ run2 ∈ r2.runs, run2.completed = true) := by
  have hcall : check_completed c8TrivRow = Except.ok
      ([Change.status (StatusChange.mk 0 0 SquareStatus.unknown SquareStatus.crossedOut)],
       RowState.mk Direction.horizontal 0 1 [Run.mk Direction.horizontal 0 0 0 1 [] true]
         [Square.mk 0 0 SquareStatus.crossedOut none none] true) := by rfl
  have h := c8_check_completed c8TrivRow _ _ hcall
  exact ⟨_, _, hcall, (h.2.2 (by rfl)).1 0 (by decide), (h.2.2 (by rfl)).2⟩

/-! ## Candidate recomputation: update_possible_run_placements
(src/row/solver.rs lines 18 to 175) -/

/-- Positions of the squares assigned to the given run, in increasing order
(src/row/solver.rs lines 64 to 65). -/
def assignedList (r : RowState) (run : Run) : List Nat :=
  (List.range r.length).filter (fun pos => (r.sq pos).hasRunAssigned run)

/-- Positions of the filled-in squares, in increasing order
(src/row/solver.rs lines 66 to 67). -/
def filledList (r : RowState) : List Nat :=
  (List.range r.length).filter (fun pos => (r.sq pos).status == SquareStatus.filledIn)

/-- The admissibility test of the left-to-right scan of
update_possible_run_placements (src/row/solver.rs lines 74 to 119) for a
start position s of a run of the given length: no square of the range is
crossed out, none belongs to another run, the range is not adjacent to a
filled square, it contains the first and last square assigned to this run,
and a first (respectively last) run may not sit beyond the first
(respectively last) filled square.  The lists assigned and filled are the
precomputed position lists of the source (lines 64 to 67). -/
def placementCondition (r : RowState) (total runIdx len : Nat)
    (assigned filled : List Nat) (s : Nat) : Bool :=
  let anyCrossedOut := (List.range' s len).any (fun pos =>
      (r.sq pos).status == SquareStatus.crossedOut)
  let anyBelongsToOther := (List.range' s len).any (fun pos =>
      match (r.sq pos).getRunIndex r.direction with
      | some x => x != runIdx
      | none => false)
  let anyAdjFilledIn :=
    (decide (0 < s) && ((r.sq (s - 1)).status == SquareStatus.filledIn)) ||
    (decide (s + len < r.length) && ((r.sq (s + len)).status == SquareStatus.filledIn))
  let containsFirstAssigned :=
    match assigned.head? with
    | some pos => decide (s ≤ pos) && decide (pos < s + len)
    | none => true
  let containsLastAssigned :=
    match assigned.getLast? with
    | some pos => decide (s ≤ pos) && decide (pos < s + len)
    | none => true
  let beyondFirstFilled := (runIdx == 0) &&
    (match filled.head? with
     | some pos => decide (pos < s)
     | none => false)
  let beyondLastFilled := (runIdx == total - 1) &&
    (match filled.getLast? with
     | some pos => decide (s + len ≤ pos)
     | none => false)
  !anyCrossedOut && !anyBelongsToOther && !anyAdjFilledIn &&
    containsFirstAssigned && containsLastAssigned &&
    !beyondFirstFilled && !beyondLastFilled

/-- One run of the left-to-right scan: a completed run is skipped after the
singleton assert; otherwise the scan start comes from the first placement of
the previous run (indexing aborts when that list is empty), and the
candidates are the admissible start positions in scan order. -/
def lrProcessRun (r : RowState) (total runIdx : Nat) (prevPls : List Rg) (run : Run) :
    Except Error Run :=
  if run.completed then
    if run.possiblePlacements.length = 1 then Except.ok run
    else Except.error (Error.panic "assertion failed: run.possible_placements.len() == 1")
  else
    match (if runIdx = 0 then some 0 else
           match prevPls.head? with
           | some rg => some (rg.stop + 1)
           | none => none) with
    | none => Except.error (Error.panic
        "index out of bounds: the previous run has no possible placements")
    | some scanStart =>
      if r.length < run.length then
        Except.error (Error.panic "attempt to subtract with overflow")
      else
        let scanEnd := r.length - run.length + 1
        let pls := ((rustRange scanStart scanEnd).filter
            (placementCondition r total runIdx run.length
              (assignedList r run) (filledList r))).map
            (fun s => Rg.mk s (s + run.length))
        Except.ok { run with possiblePlacements := pls }

/-- The left-to-right pass (stage 1 of update_possible_run_placements):
process the runs in order; each run reads the just-recomputed placements of
its predecessor. -/
def lrPass (r : RowState) (total : Nat) :
    Nat → List Rg → List Run → Except Error (List Run)
  | _, _, [] => Except.ok []
  | runIdx, prevPls, run :: rest => do
    let run2 ← lrProcessRun r total runIdx prevPls run
    let rest2 ← lrPass r total (runIdx + 1) run2.possiblePlacements rest
    Except.ok (run2 :: rest2)

/-- The right-to-left pass (stage 2, src/row/solver.rs lines 135 to 158):
every run except the last drops the placements that do not end strictly
before the latest start of the already-pruned successor; the unwrap on the
last placement of the successor and the usize subtraction on a zero latest
start abort. -/
def rlPass : List Run → Except Error (List Run)
  | [] => Except.ok []
  | [run] => Except.ok [run]
  | run :: next :: rest => do
    let rest2 ← rlPass (next :: rest)
    if run.completed then Except.ok (run :: rest2)
    else
      match rest2.head? with
      | none => Except.error (Error.panic "unreachable: processed tail is empty")
      | some next2 =>
        match next2.possiblePlacements.getLast? with
        | none => Except.error (Error.panic "called unwrap on a None value")
        | some rg =>
          if rg.start = 0 then Except.error (Error.panic "attempt to subtract with overflow")
          else
            let pls := run.possiblePlacements.filter (fun pl => decide (pl.stop ≤ rg.start - 1))
            Except.ok ({ run with possiblePlacements := pls } :: rest2)

/-- Row.update_possible_run_placements of src/row/solver.rs: the two passes
followed by the check that every run kept at least one possible placement,
reported as the logic error of lines 163 to 172.  The source iterates the
right-to-left pass over the index range 0..(len-1) reversed, whose bound
underflows on a line without runs. -/
def update_possible_run_placements (r : RowState) : Except Error RowState := do
  let runs1 ← lrPass r r.runs.length 0 [] r.runs
  if r.runs.length = 0 then
    Except.error (Error.panic "attempt to subtract with overflow")
  else do
    let runs2 ← rlPass runs1
    match runs2.find? (fun run => run.possiblePlacements.isEmpty) with
    | some run => Except.error (Error.logic
        ("Inconsistency: no possible placements found for run " ++ toString run.index ++
         " of length " ++ toString run.length ++ " in row " ++ toString r.index))
    | none => Except.ok { r with runs := runs2 }

/-- Line state on which update_possible_run_placements aborts instead of
returning its structured failure.  The state arises on the puzzle with
row clues [[1,1],[]] and column clues [[0],[1],[1],[0]] (width 4, height 2):
the first driver pass completes the columns, filling squares 1 and 2 of row 0
with vertical owners and crossing out squares 0 and 3; the stored placements
of the two runs of row 0 are the ones computed when the row was first
visited, before the columns ran. -/
def c6Row : RowState :=
  RowState.mk Direction.horizontal 0 4
    [Run.mk Direction.horizontal 1 0 0 4 [Rg.mk 0 1, Rg.mk 1 2] false,
     Run.mk Direction.horizontal 1 1 0 4 [Rg.mk 2 3, Rg.mk 3 4] false]
    [Square.mk 0 0 SquareStatus.crossedOut none none,
     Square.mk 0 1 SquareStatus.filledIn none (some 0),
     Square.mk 0 2 SquareStatus.filledIn none (some 0),
     Square.mk 0 3 SquareStatus.crossedOut none none]
    false

/-- CLAIM C6 (code bug).  The claim states that update_possible_run_placements
never panics and that its only failure mode is the structured no-placement
error.  On the reachable line state c6Row the left-to-right scan leaves run 0
with no possible placements, and the scan of run 1 then indexes
possible_placements[0] of run 0 (src/row/solver.rs line 61) and aborts before
the structured check of lines 162 to 173 is reached. -/
theorem c6_update_panics :
    update_possible_run_placements c6Row = Except.error (Error.panic
      "index out of bounds: the previous run has no possible placements") := by
  rfl

/-! ## Specification-side two-pass candidate procedure for CLAIM C1.
These definitions follow the wording of spec section 4.3 (conditions 1 to 7
and the two passes); they are the comparison target of the refinement
theorem, not a second copy of the source. -/

/-- Admissibility of a start position s per the spec conditions: the range
s..s+len lies on the line, contains no EMPTY cell (1), contains no cell
owned by another run (2), is not adjacent to a FILLED cell (3), starts at or
after the predecessor bound (4), contains every cell already owned by this
run (6), and for the first (respectively last) run leaves no FILLED cell
before (respectively at or after) the range (7).  Condition 5 is the
right-to-left pass. -/
def specAdmissible (r : RowState) (total runIdx len predBound s : Nat) : Bool :=
  decide (s + len ≤ r.length) &&
  ((List.range' s len).all (fun pos => !((r.sq pos).status == SquareStatus.crossedOut))) &&
  ((List.range' s len).all (fun pos =>
      match (r.sq pos).getRunIndex r.direction with
      | some x => x == runIdx
      | none => true)) &&
  (!(decide (0 < s)) || !((r.sq (s - 1)).status == SquareStatus.filledIn)) &&
  (!(decide (s + len < r.length)) || !((r.sq (s + len)).status == SquareStatus.filledIn)) &&
  decide (predBound ≤ s) &&
  ((List.range r.length).all (fun pos =>
      match (r.sq pos).getRunIndex r.direction with
      | some x => !(x == runIdx) || (decide (s ≤ pos) && decide (pos < s + len))
      | none => true)) &&
  (!(runIdx == 0) || (List.range r.length).all (fun pos =>
      !(decide (pos < s)) || !((r.sq pos).status == SquareStatus.filledIn))) &&
  (!(runIdx == total - 1) || (List.range r.length).all (fun pos =>
      !(decide (s + len ≤ pos)) || !((r.sq pos).status == SquareStatus.filledIn)))

/-- One run of the left-to-right pass of the spec: a completed run keeps its
stored placement; a non-completed run receives, in order of start position,
the admissible start positions given the provisional earliest candidate of
its predecessor. -/
def specProcessRun (r : RowState) (total runIdx : Nat) (prevPls : List Rg) (run : Run) :
    Run :=
  if run.completed then run else
    let predBound := if runIdx = 0 then 0 else
      (match prevPls.head? with
       | some rg => rg.stop + 1
       | none => 0)
    let pls := ((rustRange 0 (r.length + 1 - run.length)).filter
        (specAdmissible r total runIdx run.length predBound)).map
        (fun s => Rg.mk s (s + run.length))
    { run with possiblePlacements := pls }

/-- The left-to-right pass of the spec, processing the runs in order; each
run reads the provisional candidates of its predecessor. -/
def specLRPass (r : RowState) (total : Nat) : Nat → List Rg → List Run → List Run
  | _, _, [] => []
  | runIdx, prevPls, run :: rest =>
    let run2 := specProcessRun r total runIdx prevPls run
    run2 :: specLRPass r total (runIdx + 1) run2.possiblePlacements rest

/-- The right-to-left pass of the spec: every non-completed run except the
last drops the candidates whose end exceeds the latest candidate start of
its already-pruned successor minus one; over the integers that is exactly
keeping the candidates that end strictly before the latest successor
start. -/
def specRLPass : List Run → List Run
  | [] => []
  | [run] => [run]
  | run :: next :: rest =>
    let rest2 := specRLPass (next :: rest)
    if run.completed then run :: rest2
    else
      let latestStart :=
        match rest2.head? with
        | some next2 =>
          match next2.possiblePlacements.getLast? with
          | some rg => rg.start
          | none => 0
        | none => 0
      let pls := run.possiblePlacements.filter (fun pl => decide (pl.stop < latestStart))
      { run with possiblePlacements := pls } :: rest2

/-- The whole two-pass procedure of the spec. -/
def specTwoPass (r : RowState) : List Run :=
  specRLPass (specLRPass r r.runs.length 0 [] r.runs)

/-! ## Sorted-list lemmas for the candidate equivalence -/

theorem sorted_head_le {l : List Nat} (hs : l.Pairwise (· < ·)) {x : Nat} (hx : x ∈ l) :
    ∃ h0, l.head? = some h0 ∧ h0 ≤ x := by
  cases l with
  | nil => cases hx
  | cons a t =>
    refine ⟨a, rfl, ?_⟩
    rcases List.mem_cons.mp hx with h | h
    · exact Nat.le_of_eq h.symm
    · exact Nat.le_of_lt ((List.pairwise_cons.mp hs).1 x h)

theorem sorted_getLast_ge {x : Nat} :
    ∀ {l : List Nat}, l.Pairwise (· < ·) → x ∈ l → ∃ g, l.getLast? = some g ∧ x ≤ g
  | [], _, hx => absurd hx (List.not_mem_nil x)
  | [a], _, hx => by
    refine ⟨a, rfl, ?_⟩
    rcases List.mem_cons.mp hx with h | h
    · exact Nat.le_of_eq h
    · cases h
  | a :: b :: t, hs, hx => by
    have hs2 : (b :: t).Pairwise (· < ·) := (List.pairwise_cons.mp hs).2
    rcases List.mem_cons.mp hx with h | h
    · subst h
      obtain ⟨g, hg, hbg⟩ := sorted_getLast_ge hs2 (List.mem_cons_self b t)
      refine ⟨g, by rw [List.getLast?_cons_cons]; exact hg, ?_⟩
      have hab : x < b := (List.pairwise_cons.mp hs).1 b (List.mem_cons_self b t)
      omega
    · obtain ⟨g, hg, hbg⟩ := sorted_getLast_ge hs2 h
      exact ⟨g, by rw [List.getLast?_cons_cons]; exact hg, hbg⟩

/-- For a sorted list, the head-and-last interval test is the universal
interval test. -/
theorem sorted_interval_test {l : List Nat} (hs : l.Pairwise (· < ·)) (s e : Nat) :
    (((match l.head? with
       | some pos => decide (s ≤ pos) && decide (pos < e)
       | none => true) : Bool) &&
     ((match l.getLast? with
       | some pos => decide (s ≤ pos) && decide (pos < e)
       | none => true) : Bool)) = true ↔
    ∀ x ∈ l, s ≤ x ∧ x < e := by
  constructor
  · intro h x hx
    rw [Bool.and_eq_true] at h
    obtain ⟨h0, hh0, hle0⟩ := sorted_head_le hs hx
    obtain ⟨g, hg, hleg⟩ := sorted_getLast_ge hs hx
    rw [hh0] at h
    rw [hg] at h
    have h1 := h.1
    have h2 := h.2
    simp only [Bool.and_eq_true, decide_eq_true_eq] at h1 h2
    omega
  · intro h
    rw [Bool.and_eq_true]
    constructor
    · cases hh : l.head? with
      | none => rfl
      | some p =>
        have hp := h p (List.mem_of_mem_head? (by rw [hh]; exact rfl))
        simp only [Bool.and_eq_true, decide_eq_true_eq]
        exact hp
    · cases hh : l.getLast? with
      | none => rfl
      | some p =>
        have hp := h p (List.mem_of_mem_getLast? (by rw [hh]; exact rfl))
        simp only [Bool.and_eq_true, decide_eq_true_eq]
        exact hp

/-- For a sorted list, testing the head against a strict upper bound decides
the existence of a member below the bound. -/
theorem sorted_head_lt_test {l : List Nat} (hs : l.Pairwise (· < ·)) (s : Nat) :
    ((match l.head? with
      | some pos => decide (pos < s)
      | none => false) : Bool) = true ↔ ∃ x ∈ l, x < s := by
  constructor
  · intro h
    cases hh : l.head? with
    | none => rw [hh] at h; cases h
    | some p =>
      rw [hh] at h
      refine ⟨p, List.mem_of_mem_head? (by rw [hh]; exact rfl), ?_⟩
      simpa using h
  · rintro ⟨x, hx, hxs⟩
    obtain ⟨h0, hh0, hle⟩ := sorted_head_le hs hx
    rw [hh0]
    simp only [decide_eq_true_eq]
    omega

/-- For a sorted list, testing the last element against a lower bound
decides the existence of a member at or above the bound. -/
theorem sorted_getLast_ge_test {l : List Nat} (hs : l.Pairwise (· < ·)) (v : Nat) :
    ((match l.getLast? with
      | some pos => decide (v ≤ pos)
      | none => false) : Bool) = true ↔ ∃ x ∈ l, v ≤ x := by
  constructor
  · intro h
    cases hh : l.getLast? with
    | none => rw [hh] at h; cases h
    | some p =>
      rw [hh] at h
      refine ⟨p, List.mem_of_mem_getLast? (by rw [hh]; exact rfl), ?_⟩
      simpa using h
  · rintro ⟨x, hx, hxs⟩
    obtain ⟨g, hg, hle⟩ := sorted_getLast_ge hs hx
    rw [hg]
    simp only [decide_eq_true_eq]
    omega

/-- Filtering the positions of the Rust iteration a..b equals filtering the
positions of 0..b with the lower bound folded into the predicate. -/
theorem filter_rustRange_shift (a b : Nat) (p : Nat → Bool) :
    (rustRange a b).filter p =
      (rustRange 0 b).filter (fun s => decide (a ≤ s) && p s) := by
  by_cases hab : a ≤ b
  · have hsplit : rustRange 0 b = rustRange 0 a ++ rustRange a b := by
      unfold rustRange
      rw [Nat.sub_zero, Nat.sub_zero]
      have happ := List.range'_append_1 0 a (b - a)
      rw [Nat.zero_add] at happ
      have hba : b - a + a = b := by omega
      rw [hba] at happ
      exact happ.symm
    rw [hsplit, List.filter_append]
    have h1 : (rustRange 0 a).filter (fun s => decide (a ≤ s) && p s) = [] := by
      rw [List.filter_eq_nil_iff]
      intro x hx
      have hlt : x < a := by simpa [rustRange] using hx
      simp [Nat.not_le.mpr hlt]
    have h2 : (rustRange a b).filter (fun s => decide (a ≤ s) && p s) =
        (rustRange a b).filter p := by
      apply List.filter_congr
      intro x hx
      have hm : a ≤ x ∧ x < a + (b - a) := by
        simpa [rustRange, List.mem_range'_1] using hx
      simp [hm.1]
    rw [h1, h2]
    simp
  · have hlhs : rustRange a b = [] := by
      unfold rustRange
      have hz : b - a = 0 := by omega
      rw [hz]
      rfl
    rw [hlhs]
    simp only [List.filter_nil]
    symm
    rw [List.filter_eq_nil_iff]
    intro x hx
    have hlt : x < b := by simpa [rustRange] using hx
    have hnle : ¬ a ≤ x := by omega
    simp [hnle]

theorem assignedList_sorted (r : RowState) (run : Run) :
    (assignedList r run).Pairwise (· < ·) :=
  (List.pairwise_lt_range r.length).filter _

theorem filledList_sorted (r : RowState) :
    (filledList r).Pairwise (· < ·) :=
  (List.pairwise_lt_range r.length).filter _

theorem mem_assignedList (r : RowState) (run : Run) (pos : Nat) :
    pos ∈ assignedList r run ↔
      pos < r.length ∧ (r.sq pos).getRunIndex run.direction = some run.index := by
  simp [assignedList, List.mem_filter, List.mem_range, Square.hasRunAssigned]

theorem mem_filledList (r : RowState) (pos : Nat) :
    pos ∈ filledList r ↔ pos < r.length ∧ (r.sq pos).status = SquareStatus.filledIn := by
  simp [filledList, List.mem_filter, List.mem_range]

/-- The head-and-last containment test of the scan equals the universal
containment condition of the spec. -/
theorem contains_assigned_iff (r : RowState) (run : Run) (runIdx s len : Nat)
    (hidx : run.index = runIdx) (hdir : run.direction = r.direction) :
    ((((match (assignedList r run).head? with
        | some pos => decide (s ≤ pos) && decide (pos < s + len)
        | none => true) : Bool) &&
      ((match (assignedList r run).getLast? with
        | some pos => decide (s ≤ pos) && decide (pos < s + len)
        | none => true) : Bool)) = true) ↔
    ((List.range r.length).all (fun pos =>
        match (r.sq pos).getRunIndex r.direction with
        | some x => !(x == runIdx) || (decide (s ≤ pos) && decide (pos < s + len))
        | none => true)) = true := by
  rw [sorted_interval_test (assignedList_sorted r run) s (s + len), List.all_eq_true]
  constructor
  · intro h pos hpos
    cases howner : (r.sq pos).getRunIndex r.direction with
    | none => rfl
    | some x =>
      by_cases hx : x = runIdx
      · have hmem : pos ∈ assignedList r run := by
          rw [mem_assignedList, hdir, hidx]
          exact ⟨List.mem_range.mp hpos, by rw [howner, hx]⟩
        have hb := h pos hmem
        simp [hb.1, hb.2]
      · simp [hx]
  · intro h pos hmem
    rw [mem_assignedList] at hmem
    have hpos := h pos (List.mem_range.mpr hmem.1)
    rw [hdir, hidx] at hmem
    rw [hmem.2] at hpos
    simp only [beq_self_eq_true, Bool.not_true, Bool.false_or, Bool.and_eq_true,
      decide_eq_true_eq] at hpos
    exact hpos

/-- The first-run filled guard of the scan equals the universal guard of the
spec. -/
theorem beyond_first_iff (r : RowState) (runIdx s : Nat) :
    ((!((runIdx == 0) && ((match (filledList r).head? with
        | some pos => decide (pos < s)
        | none => false) : Bool))) = true) ↔
    (((!(runIdx == 0)) || (List.range r.length).all (fun pos =>
        !(decide (pos < s)) || !((r.sq pos).status == SquareStatus.filledIn))) = true) := by
  by_cases hr0 : runIdx = 0
  · subst hr0
    simp only [beq_self_eq_true, Bool.true_and, Bool.not_true, Bool.false_or,
      Bool.not_eq_true']
    rw [Bool.eq_false_iff]
    rw [ne_eq, sorted_head_lt_test (filledList_sorted r) s]
    rw [List.all_eq_true]
    constructor
    · intro h pos hpos
      by_cases hlt : pos < s
      · by_cases hf : (r.sq pos).status = SquareStatus.filledIn
        · exact absurd ⟨pos, (mem_filledList r pos).mpr
            ⟨List.mem_range.mp hpos, hf⟩, hlt⟩ h
        · simp [hf]
      · simp [hlt]
    · rintro h ⟨x, hx, hxs⟩
      rw [mem_filledList] at hx
      have := h x (List.mem_range.mpr hx.1)
      rw [hx.2] at this
      simp [hxs] at this
  · have : (runIdx == 0) = false := by simpa using hr0
    simp [this]

/-- The last-run filled guard of the scan equals the universal guard of the
spec. -/
theorem beyond_last_iff (r : RowState) (total runIdx s len : Nat) :
    ((!((runIdx == total - 1) && ((match (filledList r).getLast? with
        | some pos => decide (s + len ≤ pos)
        | none => false) : Bool))) = true) ↔
    (((!(runIdx == total - 1)) || (List.range r.length).all (fun pos =>
        !(decide (s + len ≤ pos)) || !((r.sq pos).status == SquareStatus.filledIn))) = true) := by
  by_cases hr0 : runIdx = total - 1
  · subst hr0
    simp only [beq_self_eq_true, Bool.true_and, Bool.not_true, Bool.false_or,
      Bool.not_eq_true']
    rw [Bool.eq_false_iff]
    rw [ne_eq, sorted_getLast_ge_test (filledList_sorted r) (s + len)]
    rw [List.all_eq_true]
    constructor
    · intro h pos hpos
      by_cases hlt : s + len ≤ pos
      · by_cases hf : (r.sq pos).status = SquareStatus.filledIn
        · exact absurd ⟨pos, (mem_filledList r pos).mpr
            ⟨List.mem_range.mp hpos, hf⟩, hlt⟩ h
        · simp [hf]
      · simp [hlt]
    · rintro h ⟨x, hx, hxs⟩
      rw [mem_filledList] at hx
      have := h x (List.mem_range.mpr hx.1)
      rw [hx.2] at this
      simp [hxs] at this
  · have : (runIdx == total - 1) = false := by simpa using hr0
    simp [this]

/-- Pointwise equivalence of the scan admissibility test (with the
predecessor bound folded in) and the spec admissibility test, for a start
position whose range lies on the line. -/
theorem placementCondition_eq_spec (r : RowState) (total runIdx len predBound s : Nat)
    (run : Run) (hidx : run.index = runIdx) (hdir : run.direction = r.direction)
    (hs : s + len ≤ r.length) :
    (decide (predBound ≤ s) &&
      placementCondition r total runIdx len (assignedList r run) (filledList r) s) =
    specAdmissible r total runIdx len predBound s := by
  rw [Bool.eq_iff_iff]
  simp only [placementCondition, specAdmissible, Bool.and_eq_true]
  have hfun : ∀ pos : Nat,
      (!(match (r.sq pos).getRunIndex r.direction with
         | some x => x != runIdx
         | none => false) : Bool) =
      ((match (r.sq pos).getRunIndex r.direction with
         | some x => x == runIdx
         | none => true) : Bool) := by
    intro pos
    cases (r.sq pos).getRunIndex r.direction with
    | none => rfl
    | some x => simp [bne]
  constructor
  · rintro ⟨hpred, ⟨⟨⟨⟨⟨hnc, hno⟩, hna⟩, hcf⟩, hcl⟩, hbf⟩, hbl⟩
    rw [List.not_any_eq_all_not] at hnc hno
    rw [Bool.not_or, Bool.and_eq_true] at hna
    obtain ⟨hna1, hna2⟩ := hna
    rw [Bool.not_and] at hna1 hna2
    refine ⟨⟨⟨⟨⟨⟨⟨⟨decide_eq_true hs, hnc⟩, ?_⟩, hna1⟩, hna2⟩, hpred⟩, ?_⟩, ?_⟩, ?_⟩
    · rw [List.all_eq_true] at hno ⊢
      intro x hx
      rw [← hfun x]
      exact hno x hx
    · exact (contains_assigned_iff r run runIdx s len hidx hdir).mp
        (by rw [Bool.and_eq_true]; exact ⟨hcf, hcl⟩)
    · exact (beyond_first_iff r runIdx s).mp hbf
    · exact (beyond_last_iff r total runIdx s len).mp hbl
  · rintro ⟨⟨⟨⟨⟨⟨⟨⟨_, h1⟩, h2⟩, h3a⟩, h3b⟩, hpred⟩, h6⟩, h7a⟩, h7b⟩
    have hcfl := (contains_assigned_iff r run runIdx s len hidx hdir).mpr h6
    rw [Bool.and_eq_true] at hcfl
    refine ⟨hpred, ⟨⟨⟨⟨⟨?_, ?_⟩, ?_⟩, hcfl.1⟩, hcfl.2⟩, ?_⟩, ?_⟩
    · rw [List.not_any_eq_all_not]
      exact h1
    · rw [List.not_any_eq_all_not, List.all_eq_true]
      rw [List.all_eq_true] at h2
      intro x hx
      rw [hfun x]
      exact h2 x hx
    · rw [Bool.not_or, Bool.and_eq_true, Bool.not_and, Bool.not_and]
      exact ⟨h3a, h3b⟩
    · exact (beyond_first_iff r runIdx s).mpr h7a
    · exact (beyond_last_iff r total runIdx s len).mpr h7b

/-- One successful step of the left-to-right scan computes exactly the spec
candidate list of that run. -/
theorem lrProcessRun_ok (r : RowState) (total runIdx : Nat) (prevPls : List Rg)
    (run run2 : Run)
    (hidx : run.index = runIdx) (hdir : run.direction = r.direction)
    (h : lrProcessRun r total runIdx prevPls run = Except.ok run2) :
    run2 = specProcessRun r total runIdx prevPls run := by
  by_cases hcomp : run.completed
  · rw [specProcessRun, if_pos hcomp]
    by_cases hone : run.possiblePlacements.length = 1
    · have hval : lrProcessRun r total runIdx prevPls run = Except.ok run := by
        unfold lrProcessRun
        rw [if_pos hcomp, if_pos hone]
      rw [hval] at h
      cases h
      rfl
    · have hval : lrProcessRun r total runIdx prevPls run = Except.error
          (Error.panic "assertion failed: run.possible_placements.len() == 1") := by
        unfold lrProcessRun
        rw [if_pos hcomp, if_neg hone]
      rw [hval] at h
      cases h
  · rw [specProcessRun, if_neg hcomp]
    have hstart : ∃ scanStart,
        ((if runIdx = 0 then some 0 else
          match prevPls.head? with
          | some rg => some (rg.stop + 1)
          | none => none) = some scanStart) ∧
        scanStart = (if runIdx = 0 then 0 else
          (match prevPls.head? with
           | some rg => rg.stop + 1
           | none => 0)) := by
      by_cases h0 : runIdx = 0
      · exact ⟨0, by rw [if_pos h0], by rw [if_pos h0]⟩
      · cases hh : prevPls.head? with
        | none =>
          exfalso
          have hval : lrProcessRun r total runIdx prevPls run = Except.error (Error.panic
              "index out of bounds: the previous run has no possible placements") := by
            unfold lrProcessRun
            rw [if_neg hcomp]
            rw [if_neg h0, hh]
          rw [hval] at h
          cases h
        | some rg =>
          refine ⟨rg.stop + 1, ?_, ?_⟩
          · rw [if_neg h0]
          · rw [if_neg h0]
    obtain ⟨scanStart, hsome, hscan⟩ := hstart
    unfold lrProcessRun at h
    rw [if_neg hcomp] at h
    simp only [hsome] at h
    by_cases hlen : r.length < run.length
    · rw [if_pos hlen] at h
      cases h
    · rw [if_neg hlen] at h
      have hrun2 := (Except.ok.injEq _ _).mp h
      rw [← hrun2]
      congr 1
      have hEnd : r.length - run.length + 1 = r.length + 1 - run.length := by omega
      rw [filter_rustRange_shift, hEnd]
      congr 1
      apply List.filter_congr
      intro s hsmem
      have hsin : s < r.length + 1 - run.length := by
        have hm := hsmem
        unfold rustRange at hm
        have hmm := (List.mem_range'_1).mp hm
        omega
      rw [← hscan]
      exact placementCondition_eq_spec r total runIdx run.length scanStart s run
        hidx hdir (by omega)

/-- A successful left-to-right pass computes exactly the spec pass, given
that the run indices match their positions and the run directions match the
line. -/
theorem lrPass_ok (r : RowState) (total : Nat) :
    ∀ (runs : List Run) (runIdx : Nat) (prevPls : List Rg) (out : List Run),
    (∀ j run, runs.get? j = some run → run.index = runIdx + j) →
    (∀ run ∈ runs, run.direction = r.direction) →
    lrPass r total runIdx prevPls runs = Except.ok out →
    out = specLRPass r total runIdx prevPls runs := by
  intro runs
  induction runs with
  | nil =>
    intro runIdx prevPls out _ _ h
    cases h
    rfl
  | cons run rest ih =>
    intro runIdx prevPls out hIdx hDir h
    cases hpr : lrProcessRun r total runIdx prevPls run with
    | error e =>
      have hval : lrPass r total runIdx prevPls (run :: rest) = Except.error e := by
        simp only [lrPass, bind, Except.bind, hpr]
      rw [hval] at h
      cases h
    | ok run2 =>
      cases hrest : lrPass r total (runIdx + 1) run2.possiblePlacements rest with
      | error e =>
        have hval : lrPass r total runIdx prevPls (run :: rest) = Except.error e := by
          simp only [lrPass, bind, Except.bind, hpr, hrest]
        rw [hval] at h
        cases h
      | ok rest2 =>
        have hval : lrPass r total runIdx prevPls (run :: rest) =
            Except.ok (run2 :: rest2) := by
          simp only [lrPass, bind, Except.bind, hpr, hrest]
        rw [hval] at h
        cases h
        have hidx0 : run.index = runIdx := by
          have := hIdx 0 run rfl
          simpa using this
        have hdir0 : run.direction = r.direction := hDir run (List.mem_cons_self run rest)
        have hhead := lrProcessRun_ok r total runIdx prevPls run run2 hidx0 hdir0 hpr
        have htail := ih (runIdx + 1) run2.possiblePlacements rest2
          (fun j rn hj => by
            have := hIdx (j + 1) rn (by simpa using hj)
            omega)
          (fun rn hm => hDir rn (List.mem_cons_of_mem run hm)) hrest
        rw [specLRPass]
        rw [← hhead, htail, hhead]

/-- A successful right-to-left pass computes exactly the spec pass. -/
theorem rlPass_ok : ∀ (runs out : List Run), rlPass runs = Except.ok out →
    out = specRLPass runs
  | [], out, h => by
    cases h
    rfl
  | [run], out, h => by
    cases h
    rfl
  | run :: next :: rest, out, h => by
    cases hrest : rlPass (next :: rest) with
    | error e =>
      have hval : rlPass (run :: next :: rest) = Except.error e := by
        simp only [rlPass, bind, Except.bind, hrest]
      rw [hval] at h
      cases h
    | ok rest2 =>
      have htail := rlPass_ok (next :: rest) rest2 hrest
      by_cases hcomp : run.completed
      · have hval : rlPass (run :: next :: rest) = Except.ok (run :: rest2) := by
          simp only [rlPass, bind, Except.bind, hrest, hcomp]
          rfl
        rw [hval] at h
        cases h
        rw [specRLPass]
        rw [← htail]
        simp [hcomp]
      · cases hhead : rest2.head? with
        | none =>
          have hval : rlPass (run :: next :: rest) = Except.error
              (Error.panic "unreachable: processed tail is empty") := by
            simp only [rlPass, bind, Except.bind, hrest]
            rw [if_neg hcomp, hhead]
          rw [hval] at h
          cases h
        | some next2 =>
          cases hlast : next2.possiblePlacements.getLast? with
          | none =>
            have hval : rlPass (run :: next :: rest) = Except.error
                (Error.panic "called unwrap on a None value") := by
              simp only [rlPass, bind, Except.bind, hrest]
              rw [if_neg hcomp, hhead]
              simp only [hlast]
            rw [hval] at h
            cases h
          | some rg =>
            by_cases hz : rg.start = 0
            · have hval : rlPass (run :: next :: rest) = Except.error
                  (Error.panic "attempt to subtract with overflow") := by
                simp only [rlPass, bind, Except.bind, hrest]
                rw [if_neg hcomp, hhead]
                simp only [hlast]
                rw [if_pos hz]
              rw [hval] at h
              cases h
            · simp only [rlPass, bind, Except.bind, hrest] at h
              rw [if_neg hcomp, hhead] at h
              simp only [hlast] at h
              rw [if_neg hz] at h
              have hout := (Except.ok.injEq _ _).mp h
              rw [← hout]
              rw [specRLPass]
              simp only [← htail, hhead, hlast]
              rw [if_neg hcomp]
              congr 2
              apply List.filter_congr
              intro pl _
              have hiff : (pl.stop ≤ rg.start - 1) ↔ (pl.stop < rg.start) := by omega
              exact decide_eq_decide.mpr hiff

theorem pls_pairwise (a n len : Nat) (p : Nat → Bool) :
    (((List.range' a n).filter p).map (fun s => Rg.mk s (s + len))).Pairwise
      (fun x y => x.start < y.start) :=
  ((List.pairwise_lt_range' a n).filter p).map _ (fun x y h => by simpa using h)

theorem specProcessRun_pairwise (r : RowState) (total runIdx : Nat) (prevPls : List Rg)
    (run : Run) (h : (specProcessRun r total runIdx prevPls run).completed = false) :
    (specProcessRun r total runIdx prevPls run).possiblePlacements.Pairwise
      (fun a b => a.start < b.start) := by
  by_cases hcomp : run.completed
  · rw [specProcessRun, if_pos hcomp] at h ⊢
    rw [h] at hcomp
    cases hcomp
  · rw [specProcessRun, if_neg hcomp]
    exact pls_pairwise 0 (r.length + 1 - run.length) run.length _

theorem specLRPass_pairwise (r : RowState) (total : Nat) :
    ∀ (runs : List Run) (runIdx : Nat) (prevPls : List Rg) (run2 : Run),
    run2 ∈ specLRPass r total runIdx prevPls runs → run2.completed = false →
    run2.possiblePlacements.Pairwise (fun a b => a.start < b.start) := by
  intro runs
  induction runs with
  | nil =>
    intro runIdx prevPls run2 hmem
    cases hmem
  | cons run rest ih =>
    intro runIdx prevPls run2 hmem hcomp
    rw [specLRPass] at hmem
    rcases List.mem_cons.mp hmem with hm | hm
    · rw [hm]
      rw [hm] at hcomp
      exact specProcessRun_pairwise r total runIdx prevPls run hcomp
    · exact ih (runIdx + 1) _ run2 hm hcomp

theorem specRLPass_pairwise :
    ∀ (runs : List Run),
    (∀ run2 ∈ runs, run2.completed = false →
      run2.possiblePlacements.Pairwise (fun a b => a.start < b.start)) →
    ∀ run2 ∈ specRLPass runs, run2.completed = false →
    run2.possiblePlacements.Pairwise (fun a b => a.start < b.start)
  | [], _, run2, hmem => by cases hmem
  | [run], hin, run2, hmem => by
    rw [specRLPass] at hmem
    rcases List.mem_cons.mp hmem with hm | hm
    · rw [hm]
      exact hin run (List.mem_cons_self run [])
    · cases hm
  | run :: next :: rest, hin, run2, hmem => by
    intro hcomp
    rw [specRLPass] at hmem
    have hinRest : ∀ rn ∈ next :: rest, rn.completed = false →
        rn.possiblePlacements.Pairwise (fun a b => a.start < b.start) :=
      fun rn hm => hin rn (List.mem_cons_of_mem run hm)
    by_cases hc : run.completed
    · rw [if_pos hc] at hmem
      rcases List.mem_cons.mp hmem with hm | hm
      · rw [hm] at hcomp ⊢
        exact hin run (List.mem_cons_self run _) hcomp
      · exact specRLPass_pairwise (next :: rest) hinRest run2 hm hcomp
    · rw [if_neg hc] at hmem
      rcases List.mem_cons.mp hmem with hm | hm
      · rw [hm]
        apply List.Pairwise.filter
        exact hin run (List.mem_cons_self run _) (by simpa using hc)
      · exact specRLPass_pairwise (next :: rest) hinRest run2 hm hcomp

/-- CLAIM C1.  On a well-formed line (run indices match their positions and
run directions match the line), a successful call to
update_possible_run_placements leaves the run list exactly equal to the
result of the two-pass spec procedure: the left-to-right pass admits, in
order of start position, exactly the positions satisfying spec conditions 1
to 4, 6 and 7 (no EMPTY cell in the range, no cell owned by another run, no
adjacent FILLED cell, start at or after the predecessor provisional earliest
end plus one, containment of every cell owned by the run, and the
first-run and last-run filled guards), and the right-to-left pass removes
every candidate whose end exceeds the latest candidate start of the pruned
successor minus one.  Every non-completed run ends with its candidate list
strictly ordered by start position. -/
theorem c1_update_matches_spec (r r2 : RowState)
    (hIdx : ∀ j run, r.runs.get? j = some run → run.index = j)
    (hDir : ∀ run ∈ r.runs, run.direction = r.direction)
    (hok : update_possible_run_placements r = Except.ok r2) :
    r2.runs = specTwoPass r ∧
    ∀ run2 ∈ r2.runs, run2.completed = false →
      run2.possiblePlacements.Pairwise (fun a b => a.start < b.start) := by
  cases hlr : lrPass r r.runs.length 0 [] r.runs with
  | error e =>
    have hval : update_possible_run_placements r = Except.error e := by
      simp only [update_possible_run_placements, bind, Except.bind, hlr]
    rw [hval] at hok
    cases hok
  | ok runs1 =>
    by_cases h0 : r.runs.length = 0
    · have hval : update_possible_run_placements r =
          Except.error (Error.panic "attempt to subtract with overflow") := by
        simp only [update_possible_run_placements, bind, Except.bind, hlr]
        rw [if_pos h0]
      rw [hval] at hok
      cases hok
    · cases hrl : rlPass runs1 with
      | error e =>
        have hval : update_possible_run_placements r = Except.error e := by
          simp only [update_possible_run_placements, bind, Except.bind, hlr]
          rw [if_neg h0]
          simp only [bind, Except.bind, hrl]
        rw [hval] at hok
        cases hok
      | ok runs2 =>
        cases hfind : runs2.find? (fun run => run.possiblePlacements.isEmpty) with
        | some rn =>
          have hval : update_possible_run_placements r = Except.error (Error.logic
              ("Inconsistency: no possible placements found for run " ++ toString rn.index ++
               " of length " ++ toString rn.length ++ " in row " ++ toString r.index)) := by
            simp only [update_possible_run_placements, bind, Except.bind, hlr]
            rw [if_neg h0]
            simp only [bind, Except.bind, hrl, hfind]
          rw [hval] at hok
          cases hok
        | none =>
          have hval : update_possible_run_placements r =
              Except.ok { r with runs := runs2 } := by
            simp only [update_possible_run_placements, bind, Except.bind, hlr]
            rw [if_neg h0]
            simp only [bind, Except.bind, hrl, hfind]
          rw [hval] at hok
          have hr2 : r2 = { r with runs := runs2 } :=
            ((Except.ok.injEq _ _).mp hok).symm
          subst hr2
          have h1 := lrPass_ok r r.runs.length r.runs 0 [] runs1
            (fun j run hj => by
              have := hIdx j run hj
              omega)
            hDir hlr
          have h2 := rlPass_ok runs1 runs2 hrl
          constructor
          · rw [h2, h1]
            rfl
          · intro run2 hmem hcomp
            have hmem2 : run2 ∈ specRLPass (specLRPass r r.runs.length 0 [] r.runs) := by
              rw [← h1, ← h2]
              exact hmem
            exact specRLPass_pairwise _ (fun rn hm hc =>
              specLRPass_pairwise r r.runs.length r.runs 0 [] rn hm hc) run2 hmem2 hcomp

/-- Concrete line for the C1 witness: one run of length one on three UNKNOWN
squares. -/
def c1Row : RowState :=
  RowState.mk Direction.horizontal 0 3
    [Run.mk Direction.horizontal 1 0 0 3 [] false]
    [Square.mk 0 0 SquareStatus.unknown none none,
     Square.mk 0 1 SquareStatus.unknown none none,
     Square.mk 0 2 SquareStatus.unknown none none]
    false

/-- Witness for C1 on the concrete line. -/
theorem c1_witness :
    ∃ r2, update_possible_run_placements c1Row = Except.ok r2 ∧
      r2.runs = specTwoPass c1Row ∧
      ∀ run2 ∈ r2.runs, run2.completed = false →
        run2.possiblePlacements.Pairwise (fun a b => a.start < b.start) := by
  have hok : update_possible_run_placements c1Row = Except.ok
      (RowState.mk Direction.horizontal 0 3
        [Run.mk Direction.horizontal 1 0 0 3 [Rg.mk 0 1, Rg.mk 1 2, Rg.mk 2 3] false]
        [Square.mk 0 0 SquareStatus.unknown none none,
         Square.mk 0 1 SquareStatus.unknown none none,
         Square.mk 0 2 SquareStatus.unknown none none]
        false) := by rfl
  have h := c1_update_matches_spec c1Row _
    (fun j run hj => by
      cases j with
      | zero =>
        cases hj
        rfl
      | succ k => simp [c1Row, List.get?] at hj)
    (by decide) hok
  exact ⟨_, hok, h.1, h.2⟩

/-! ## The infer_status_assignments procedure (src/row/solver.rs lines 177 to 231) -/

/-- A set at one list position leaves get? at that position the new value. -/
theorem listSet_get?_eq {α : Type} (l : List α) (i : Nat) (a : α) (h : i < l.length) :
    (l.set i a).get? i = some a := by
  induction l generalizing i with
  | nil => simp at h
  | cons b t ih =>
    cases i with
    | zero => rfl
    | succ j => exact ih j (by simpa using h)

/-- A set at one list position leaves get? elsewhere untouched. -/
theorem listSet_get?_ne {α : Type} (l : List α) (i j : Nat) (a : α) (h : j ≠ i) :
    (l.set i a).get? j = l.get? j := by
  induction l generalizing i j with
  | nil => rfl
  | cons b t ih =>
    cases i with
    | zero =>
      cases j with
      | zero => exact absurd rfl h
      | succ k => rfl
    | succ i2 =>
      cases j with
      | zero => rfl
      | succ k => exact ih i2 k (fun hh => h (by rw [hh]))

/-- Line bookkeeping fields preserved by the square mutators. -/
def linePreserved (st st2 : RowState) : Prop :=
  st2.length = st.length ∧ st2.direction = st.direction ∧ st2.index = st.index ∧
  st2.completed = st.completed ∧ st2.squares.length = st.squares.length

theorem linePreserved_refl (st : RowState) : linePreserved st st :=
  ⟨rfl, rfl, rfl, rfl, rfl⟩

theorem linePreserved_trans {a b c : RowState} (h1 : linePreserved a b)
    (h2 : linePreserved b c) : linePreserved a c :=
  ⟨h2.1.trans h1.1, h2.2.1.trans h1.2.1, h2.2.2.1.trans h1.2.2.1,
   h2.2.2.2.1.trans h1.2.2.2.1, h2.2.2.2.2.trans h1.2.2.2.2⟩

/-- The inner fill loop of phase one of infer_status_assignments (src/row/
solver.rs lines 188 to 201): every position present in all candidate
placements of the run is set FILLED and assigned the run as its owner. -/
def fillLoop (run : Run) : List Nat → List Change → RowState →
    Except Error (List Change × RowState)
  | [], cs, st => Except.ok (cs, st)
  | pos :: rest, cs, st =>
    if run.possiblePlacements.all (fun rg => rg.containsB pos) then
      match st.setStatusAt pos SquareStatus.filledIn with
      | Except.error e => Except.error e
      | Except.ok (c1, st1) =>
        match st1.assignRunAt pos run with
        | Except.error e => Except.error e
        | Except.ok (c2, st2) =>
          fillLoop run rest (cs ++ optStatusChanges c1 ++ optRunChanges c2) st2
    else fillLoop run rest cs st

/-- One iteration of the run loop of phase one (src/row/solver.rs lines 185
to 208): skip a completed run, otherwise run the fill loop over every line
position, then complete the run when exactly one candidate placement
remains. -/
def statusRunStep (i : Nat) (cs : List Change) (st : RowState) :
    Except Error (List Change × RowState) :=
  match st.runs.get? i with
  | none => Except.error (Error.panic "index out of bounds")
  | some run =>
    if run.completed then Except.ok (cs, st)
    else
      match fillLoop run (List.range st.length) cs st with
      | Except.error e => Except.error e
      | Except.ok (cs1, st1) =>
        if run.possiblePlacements.length = 1 then
          match run.possiblePlacements.get? 0 with
          | none => Except.error (Error.panic "index out of bounds")
          | some rg =>
            match completeRunAt st1 i rg.start with
            | Except.error e => Except.error e
            | Except.ok (cs2, st2) => Except.ok (cs1 ++ cs2, st2)
        else Except.ok (cs1, st1)

/-- The run loop of phase one, over the run positions in order. -/
def statusPhase1 : List Nat → List Change → RowState →
    Except Error (List Change × RowState)
  | [], cs, st => Except.ok (cs, st)
  | i :: rest, cs, st =>
    match statusRunStep i cs st with
    | Except.error e => Except.error e
    | Except.ok (cs1, st1) => statusPhase1 rest cs1 st1

/-- Phase two of infer_status_assignments (src/row/solver.rs lines 212 to
221): cross out every position contained in no candidate placement of any
run. -/
def crossLoop : List Nat → List Change → RowState →
    Except Error (List Change × RowState)
  | [], cs, st => Except.ok (cs, st)
  | pos :: rest, cs, st =>
    if st.runs.any (fun run => run.possiblePlacements.any (fun rg => rg.containsB pos)) then
      crossLoop rest cs st
    else
      match st.setStatusAt pos SquareStatus.crossedOut with
      | Except.error e => Except.error e
      | Except.ok (c, st2) => crossLoop rest (cs ++ optStatusChanges c) st2

/-- Row.infer_status_assignments of src/row/solver.rs (lines 177 to 231). -/
def infer_status_assignments (r : RowState) : Except Error (List Change × RowState) := do
  let (cs1, r1) ← statusPhase1 (List.range r.runs.length) [] r
  crossLoop (List.range r1.length) cs1 r1

/-- Successful delineate_at: crosses out the square before the assumed
placement and the square after it when those lie on the line, touches
nothing else, and is monotone. -/
theorem delineateAt_ok (r : RowState) (run : Run) (startAt : Nat)
    (cs : List Change) (r2 : RowState)
    (h : delineateAt r run startAt = Except.ok (cs, r2)) :
    r2.runs = r.runs ∧ linePreserved r r2 ∧ r.mono r2 ∧
    (0 < startAt → (r2.sq (startAt - 1)).status = SquareStatus.crossedOut) ∧
    (startAt + run.length < run.rowLength →
      (r2.sq (startAt + run.length)).status = SquareStatus.crossedOut) := by
  by_cases h1 : 0 < startAt
  · cases hset1 : r.setStatusAt (startAt - 1) SquareStatus.crossedOut with
    | error e =>
      simp only [delineateAt, bind, Except.bind, if_pos h1, hset1] at h
      cases h
    | ok p =>
      cases p with
      | mk c1 stA =>
        have hs1 := setStatusAt_ok r (startAt - 1) SquareStatus.crossedOut c1 stA hset1
        simp only [delineateAt, bind, Except.bind, if_pos h1, hset1] at h
        by_cases h2 : startAt + run.length < run.rowLength
        · cases hset2 : stA.setStatusAt (startAt + run.length) SquareStatus.crossedOut with
          | error e =>
            rw [if_pos h2] at h
            simp only [hset2] at h
            cases h
          | ok p2 =>
            cases p2 with
            | mk c2 stB =>
              have hs2 := setStatusAt_ok stA (startAt + run.length)
                SquareStatus.crossedOut c2 stB hset2
              rw [if_pos h2] at h
              simp only [hset2] at h
              have hr2 : r2 = stB :=
                (((Prod.mk.injEq _ _ _ _).mp ((Except.ok.injEq _ _).mp h)).2).symm
              subst hr2
              have hne : startAt - 1 ≠ startAt + run.length := by omega
              refine ⟨hs2.2.2.2.2.1.trans hs1.2.2.2.2.1,
                linePreserved_trans
                  ⟨hs1.2.2.2.2.2.1, hs1.2.2.2.2.2.2.1, hs1.2.2.2.2.2.2.2.1,
                   hs1.2.2.2.2.2.2.2.2.1, hs1.2.2.2.2.2.2.2.2.2.1⟩
                  ⟨hs2.2.2.2.2.2.1, hs2.2.2.2.2.2.2.1, hs2.2.2.2.2.2.2.2.1,
                   hs2.2.2.2.2.2.2.2.2.1, hs2.2.2.2.2.2.2.2.2.2.1⟩,
                RowState.monoTrans hs1.2.2.2.2.2.2.2.2.2.2 hs2.2.2.2.2.2.2.2.2.2.2,
                ?_, ?_⟩
              · intro _
                rw [hs2.2.2.2.1 _ hne]
                exact hs1.1
              · intro _
                exact hs2.1
        · have hr2 : r2 = stA :=
            (((Prod.mk.injEq _ _ _ _).mp ((Except.ok.injEq _ _).mp
              (by rw [if_neg h2] at h; exact h))).2).symm
          subst hr2
          refine ⟨hs1.2.2.2.2.1,
            ⟨hs1.2.2.2.2.2.1, hs1.2.2.2.2.2.2.1, hs1.2.2.2.2.2.2.2.1,
             hs1.2.2.2.2.2.2.2.2.1, hs1.2.2.2.2.2.2.2.2.2.1⟩,
            hs1.2.2.2.2.2.2.2.2.2.2, ?_, ?_⟩
          · intro _
            exact hs1.1
          · intro hcon
            exact absurd hcon h2
  · simp only [delineateAt, bind, Except.bind, if_neg h1] at h
    by_cases h2 : startAt + run.length < run.rowLength
    · cases hset2 : r.setStatusAt (startAt + run.length) SquareStatus.crossedOut with
      | error e =>
        rw [if_pos h2] at h
        simp only [hset2] at h
        cases h
      | ok p2 =>
        cases p2 with
        | mk c2 stB =>
          have hs2 := setStatusAt_ok r (startAt + run.length)
            SquareStatus.crossedOut c2 stB hset2
          rw [if_pos h2] at h
          simp only [hset2] at h
          have hr2 : r2 = stB :=
            (((Prod.mk.injEq _ _ _ _).mp ((Except.ok.injEq _ _).mp h)).2).symm
          subst hr2
          refine ⟨hs2.2.2.2.2.1,
            ⟨hs2.2.2.2.2.2.1, hs2.2.2.2.2.2.2.1, hs2.2.2.2.2.2.2.2.1,
             hs2.2.2.2.2.2.2.2.2.1, hs2.2.2.2.2.2.2.2.2.2.1⟩,
            hs2.2.2.2.2.2.2.2.2.2.2, ?_, ?_⟩
          · intro hcon
            exact absurd hcon h1
          · intro _
            exact hs2.1
    · have hr2 : r2 = r :=
        (((Prod.mk.injEq _ _ _ _).mp ((Except.ok.injEq _ _).mp
          (by rw [if_neg h2] at h; exact h))).2).symm
      subst hr2
      refine ⟨rfl, linePreserved_refl _, RowState.monoRefl _, ?_, ?_⟩
      · intro hcon
        exact absurd hcon h1
      · intro hcon
        exact absurd hcon h2

/-- Successful Run.complete on the run at list position i: the run entry
becomes completed with the final placement as its single candidate, other
runs are untouched, the delineation crossings are in place, and the square
evolution is monotone. -/
theorem completeRunAt_ok (r : RowState) (i startAt : Nat) (run : Run)
    (hget : r.runs.get? i = some run)
    (cs : List Change) (r2 : RowState)
    (h : completeRunAt r i startAt = Except.ok (cs, r2)) :
    r2.runs.get? i = some { run with
      possiblePlacements := [Rg.mk startAt (startAt + run.length)], completed := true } ∧
    (∀ j, j ≠ i → r2.runs.get? j = r.runs.get? j) ∧
    r2.runs.length = r.runs.length ∧ linePreserved r r2 ∧ r.mono r2 ∧
    (0 < startAt → (r2.sq (startAt - 1)).status = SquareStatus.crossedOut) ∧
    (startAt + run.length < run.rowLength →
      (r2.sq (startAt + run.length)).status = SquareStatus.crossedOut) := by
  cases hdel : delineateAt r run startAt with
  | error e =>
    simp only [completeRunAt, bind, Except.bind, hget, hdel] at h
    cases h
  | ok p =>
    cases p with
    | mk csD r1 =>
      have hd := delineateAt_ok r run startAt csD r1 hdel
      simp only [completeRunAt, bind, Except.bind, hget, hdel] at h
      cases h
      have hlt : i < r1.runs.length := by
        rw [hd.1]
        exact listGet?_some_lt hget
      refine ⟨listSet_get?_eq _ _ _ hlt, ?_, ?_, ?_, hd.2.2.1, hd.2.2.2.1, hd.2.2.2.2⟩
      · intro j hj
        exact (listSet_get?_ne _ _ _ _ hj).trans (congrArg (fun l => List.get? l j) hd.1)
      · exact (List.length_set _ _ _).trans (congrArg List.length hd.1)
      · exact linePreserved_trans hd.2.1 ⟨rfl, rfl, rfl, rfl, rfl⟩

/-- Successful fill loop: runs and line data are untouched, the evolution is
monotone, and every listed position present in all candidate placements of
the run ends FILLED with the run as its owner. -/
theorem fillLoop_ok (run : Run) (xs : List Nat) :
    ∀ (cs : List Change) (st : RowState) (cs2 : List Change) (st2 : RowState),
    fillLoop run xs cs st = Except.ok (cs2, st2) →
    st2.runs = st.runs ∧ linePreserved st st2 ∧ st.mono st2 ∧
    (∀ pos ∈ xs, run.possiblePlacements.all (fun rg => rg.containsB pos) = true →
      (st2.sq pos).status = SquareStatus.filledIn ∧
      (st2.sq pos).getRunIndex run.direction = some run.index) := by
  induction xs with
  | nil =>
    intro cs st cs2 st2 h
    cases h
    exact ⟨rfl, linePreserved_refl _, RowState.monoRefl _, by simp⟩
  | cons pos rest ih =>
    intro cs st cs2 st2 h
    by_cases hc : run.possiblePlacements.all (fun rg => rg.containsB pos) = true
    · cases hset1 : st.setStatusAt pos SquareStatus.filledIn with
      | error e =>
        simp only [fillLoop, if_pos hc, hset1] at h
        cases h
      | ok p =>
        cases p with
        | mk c1 stA =>
          cases hset2 : stA.assignRunAt pos run with
          | error e =>
            simp only [fillLoop, if_pos hc, hset1, hset2] at h
            cases h
          | ok p2 =>
            cases p2 with
            | mk c2 stB =>
              simp only [fillLoop, if_pos hc, hset1, hset2] at h
              have hs1 := setStatusAt_ok st pos SquareStatus.filledIn c1 stA hset1
              have hs2 := assignRunAt_ok stA pos run c2 stB hset2
              have hrec := ih _ stB cs2 st2 h
              have hmonoB : stB.mono st2 := hrec.2.2.1
              refine ⟨?_, ?_, ?_, ?_⟩
              · rw [hrec.1, hs2.2.2.2.2.1, hs1.2.2.2.2.1]
              · exact linePreserved_trans
                  (linePreserved_trans
                    ⟨hs1.2.2.2.2.2.1, hs1.2.2.2.2.2.2.1, hs1.2.2.2.2.2.2.2.1,
                     hs1.2.2.2.2.2.2.2.2.1, hs1.2.2.2.2.2.2.2.2.2.1⟩
                    ⟨hs2.2.2.2.2.2.1, hs2.2.2.2.2.2.2.1, hs2.2.2.2.2.2.2.2.1,
                     hs2.2.2.2.2.2.2.2.2.1, hs2.2.2.2.2.2.2.2.2.2.1⟩)
                  hrec.2.1
              · exact RowState.monoTrans
                  (RowState.monoTrans hs1.2.2.2.2.2.2.2.2.2.2 hs2.2.2.2.2.2.2.2.2.2.2)
                  hmonoB
              · intro q hq hcq
                rcases List.mem_cons.mp hq with hq | hq
                · subst hq
                  have hfillB : (stB.sq q).status = SquareStatus.filledIn := by
                    rw [hs2.1]
                    exact hs1.1
                  have hownB : (stB.sq q).getRunIndex run.direction = some run.index :=
                    hs2.2.1
                  refine ⟨?_, ?_⟩
                  · rw [(hmonoB q).1 (by rw [hfillB]; intro hcon; cases hcon)]
                    exact hfillB
                  · exact (hmonoB q).2 run.direction run.index hownB
                · exact hrec.2.2.2 q hq hcq
    · simp only [fillLoop, if_neg hc] at h
      have hrec := ih cs st cs2 st2 h
      refine ⟨hrec.1, hrec.2.1, hrec.2.2.1, ?_⟩
      intro q hq hcq
      rcases List.mem_cons.mp hq with hq | hq
      · subst hq
        exact absurd hcq hc
      · exact hrec.2.2.2 q hq hcq

/-- Successful run step of phase one: line data preserved, monotone square
evolution, other run entries untouched; a completed run is skipped entirely;
for a non-completed run every line position present in all its candidate
placements ends FILLED and owned, a single remaining candidate completes the
run with the delineation crossings in place, and otherwise the run entry is
unchanged. -/
theorem statusRunStep_ok (i : Nat) (cs : List Change) (st : RowState)
    (run : Run) (hget : st.runs.get? i = some run)
    (cs2 : List Change) (st2 : RowState)
    (h : statusRunStep i cs st = Except.ok (cs2, st2)) :
    linePreserved st st2 ∧ st.mono st2 ∧ st2.runs.length = st.runs.length ∧
    (∀ j, j ≠ i → st2.runs.get? j = st.runs.get? j) ∧
    (run.completed = true → st2 = st) ∧
    (run.completed = false →
      (∀ pos, pos < st.length →
        run.possiblePlacements.all (fun rg => rg.containsB pos) = true →
        (st2.sq pos).status = SquareStatus.filledIn ∧
        (st2.sq pos).getRunIndex run.direction = some run.index) ∧
      (∀ rg, run.possiblePlacements = [rg] →
        st2.runs.get? i = some { run with
          possiblePlacements := [Rg.mk rg.start (rg.start + run.length)],
          completed := true } ∧
        (0 < rg.start → (st2.sq (rg.start - 1)).status = SquareStatus.crossedOut) ∧
        (rg.start + run.length < run.rowLength →
          (st2.sq (rg.start + run.length)).status = SquareStatus.crossedOut)) ∧
      (run.possiblePlacements.length ≠ 1 → st2.runs.get? i = some run)) := by
  by_cases hcomp : run.completed = true
  · simp only [statusRunStep, hget, if_pos hcomp] at h
    cases h
    refine ⟨linePreserved_refl _, RowState.monoRefl _, rfl, fun j _ => rfl,
      fun _ => rfl, ?_⟩
    intro hfalse
    rw [hcomp] at hfalse
    cases hfalse
  · cases hfl : fillLoop run (List.range st.length) cs st with
    | error e =>
      simp only [statusRunStep, hget, if_neg hcomp, hfl] at h
      cases h
    | ok p =>
      cases p with
      | mk cs1 stA =>
        have hfill := fillLoop_ok run (List.range st.length) cs st cs1 stA hfl
        by_cases hone : run.possiblePlacements.length = 1
        · cases hpp : run.possiblePlacements.get? 0 with
          | none =>
            simp only [statusRunStep, hget, if_neg hcomp, hfl, if_pos hone, hpp] at h
            cases h
          | some rg =>
            have hppeq : run.possiblePlacements = [rg] := by
              cases hl : run.possiblePlacements with
              | nil =>
                rw [hl] at hone
                simp at hone
              | cons a t =>
                cases t with
                | nil =>
                  rw [hl] at hpp
                  simp only [List.get?] at hpp
                  rw [(Option.some.injEq _ _).mp hpp]
                | cons b t2 =>
                  rw [hl] at hone
                  simp at hone
            cases hcpl : completeRunAt stA i rg.start with
            | error e =>
              simp only [statusRunStep, hget, if_neg hcomp, hfl, if_pos hone, hpp,
                hcpl] at h
              cases h
            | ok p2 =>
              cases p2 with
              | mk cs3 stB =>
                simp only [statusRunStep, hget, if_neg hcomp, hfl, if_pos hone, hpp,
                  hcpl] at h
                cases h
                have hgetA : stA.runs.get? i = some run := by
                  rw [hfill.1]
                  exact hget
                have hcOk := completeRunAt_ok stA i rg.start run hgetA cs3 st2 hcpl
                refine ⟨linePreserved_trans hfill.2.1 hcOk.2.2.2.1,
                  RowState.monoTrans hfill.2.2.1 hcOk.2.2.2.2.1,
                  hcOk.2.2.1.trans (congrArg List.length hfill.1),
                  ?_, ?_, ?_⟩
                · intro j hj
                  exact (hcOk.2.1 j hj).trans (congrArg (fun l => List.get? l j) hfill.1)
                · intro hc
                  exact absurd hc hcomp
                · intro _
                  refine ⟨?_, ?_, ?_⟩
                  · intro pos hpos hcq
                    have hatA := hfill.2.2.2 pos (List.mem_range.mpr hpos) hcq
                    have hmono := hcOk.2.2.2.2.1 pos
                    refine ⟨?_, hmono.2 run.direction run.index hatA.2⟩
                    rw [hmono.1 (by rw [hatA.1]; intro hcon; cases hcon)]
                    exact hatA.1
                  · intro rg2 hrg2
                    have hr : rg2 = rg := by
                      rw [hppeq] at hrg2
                      exact ((List.cons.injEq _ _ _ _).mp hrg2.symm).1
                    subst hr
                    exact ⟨hcOk.1, hcOk.2.2.2.2.2.1, hcOk.2.2.2.2.2.2⟩
                  · intro hcon
                    exact absurd hone hcon
        · simp only [statusRunStep, hget, if_neg hcomp, hfl, if_neg hone] at h
          cases h
          refine ⟨hfill.2.1, hfill.2.2.1, congrArg List.length hfill.1,
            fun j _ => congrArg (fun l => List.get? l j) hfill.1,
            fun hc => absurd hc hcomp, ?_⟩
          intro _
          refine ⟨?_, ?_, ?_⟩
          · intro pos hpos hcq
            exact hfill.2.2.2 pos (List.mem_range.mpr hpos) hcq
          · intro rg2 hrg2
            exfalso
            apply hone
            rw [hrg2]
            rfl
          · intro _
            rw [hfill.1]
            exact hget

/-- Successful phase one over a duplicate-free list of run positions: line
data preserved, monotone square evolution, unlisted run entries untouched;
each listed non-completed run gets the overlap fills with ownership and, on a
single remaining candidate, completion with delineation crossings; and every
run entry of the result is either unchanged or the completed form of the
original entry. -/
theorem statusPhase1_ok (xs : List Nat) :
    ∀ (cs : List Change) (st : RowState) (cs2 : List Change) (st2 : RowState),
    xs.Nodup →
    statusPhase1 xs cs st = Except.ok (cs2, st2) →
    linePreserved st st2 ∧ st.mono st2 ∧ st2.runs.length = st.runs.length ∧
    (∀ j, j ∉ xs → st2.runs.get? j = st.runs.get? j) ∧
    (∀ i ∈ xs, ∀ run, st.runs.get? i = some run → run.completed = false →
      (∀ pos, pos < st.length →
        run.possiblePlacements.all (fun rg => rg.containsB pos) = true →
        (st2.sq pos).status = SquareStatus.filledIn ∧
        (st2.sq pos).getRunIndex run.direction = some run.index) ∧
      (∀ rg, run.possiblePlacements = [rg] →
        st2.runs.get? i = some { run with
          possiblePlacements := [Rg.mk rg.start (rg.start + run.length)],
          completed := true } ∧
        (0 < rg.start → (st2.sq (rg.start - 1)).status = SquareStatus.crossedOut) ∧
        (rg.start + run.length < run.rowLength →
          (st2.sq (rg.start + run.length)).status = SquareStatus.crossedOut))) ∧
    (∀ i run, st.runs.get? i = some run →
      ∃ run2, st2.runs.get? i = some run2 ∧
        (run2 = run ∨ ∃ rg, run.possiblePlacements = [rg] ∧
          run2 = { run with
            possiblePlacements := [Rg.mk rg.start (rg.start + run.length)],
            completed := true })) := by
  induction xs with
  | nil =>
    intro cs st cs2 st2 _ h
    cases h
    refine ⟨linePreserved_refl _, RowState.monoRefl _, rfl, fun j _ => rfl, ?_, ?_⟩
    · intro i hi
      cases hi
    · intro i run hget
      exact ⟨run, hget, Or.inl rfl⟩
  | cons i rest ih =>
    intro cs st cs2 st2 hnodup h
    have hnd := List.nodup_cons.mp hnodup
    cases hgr : st.runs.get? i with
    | none =>
      simp only [statusPhase1, statusRunStep, hgr] at h
      cases h
    | some run =>
      cases hstep : statusRunStep i cs st with
      | error e =>
        simp only [statusPhase1, hstep] at h
        cases h
      | ok p =>
        cases p with
        | mk csA stA =>
          simp only [statusPhase1, hstep] at h
          have hs := statusRunStep_ok i cs st run hgr csA stA hstep
          have hrec := ih csA stA cs2 st2 hnd.2 h
          have huntI : st2.runs.get? i = stA.runs.get? i := hrec.2.2.2.1 i hnd.1
          refine ⟨linePreserved_trans hs.1 hrec.1,
            RowState.monoTrans hs.2.1 hrec.2.1,
            hrec.2.2.1.trans hs.2.2.1, ?_, ?_, ?_⟩
          · intro j hj
            have hj1 : j ≠ i := fun hh => hj (hh ▸ List.mem_cons_self i rest)
            have hj2 : j ∉ rest := fun hh => hj (List.mem_cons_of_mem i hh)
            exact (hrec.2.2.2.1 j hj2).trans (hs.2.2.2.1 j hj1)
          · intro i2 hi2 run2 hget2 hcomp2
            rcases List.mem_cons.mp hi2 with hi2 | hi2
            · subst hi2
              have hrr : run2 = run := by
                rw [hgr] at hget2
                exact ((Option.some.injEq _ _).mp hget2).symm
              subst hrr
              have hsc := hs.2.2.2.2.2 hcomp2
              refine ⟨?_, ?_⟩
              · intro pos hpos hcq
                have hatA := hsc.1 pos hpos hcq
                have hmono := hrec.2.1 pos
                refine ⟨?_, hmono.2 run2.direction run2.index hatA.2⟩
                rw [hmono.1 (by rw [hatA.1]; intro hcon; cases hcon)]
                exact hatA.1
              · intro rg hrg
                have hatA := hsc.2.1 rg hrg
                refine ⟨huntI.trans hatA.1, ?_, ?_⟩
                · intro hpos
                  have hmono := hrec.2.1 (rg.start - 1)
                  rw [hmono.1 (by rw [hatA.2.1 hpos]; intro hcon; cases hcon)]
                  exact hatA.2.1 hpos
                · intro hpos
                  have hmono := hrec.2.1 (rg.start + run2.length)
                  rw [hmono.1 (by rw [hatA.2.2 hpos]; intro hcon; cases hcon)]
                  exact hatA.2.2 hpos
            · have hne : i2 ≠ i := fun hh => hnd.1 (hh ▸ hi2)
              have hgetA : stA.runs.get? i2 = some run2 :=
                (hs.2.2.2.1 i2 hne).trans hget2
              have hr := hrec.2.2.2.2.1 i2 hi2 run2 hgetA hcomp2
              refine ⟨?_, hr.2⟩
              intro pos hpos hcq
              exact hr.1 pos (by rw [hs.1.1]; exact hpos) hcq
          · intro i2 run2 hget2
            by_cases hi2 : i2 = i
            · subst hi2
              have hrr : run2 = run := by
                rw [hgr] at hget2
                exact ((Option.some.injEq _ _).mp hget2).symm
              subst hrr
              by_cases hcomp : run2.completed = true
              · have hsa : stA = st := hs.2.2.2.2.1 hcomp
                refine ⟨run2, ?_, Or.inl rfl⟩
                rw [huntI, hsa]
                exact hget2
              · have hcompF : run2.completed = false := by
                  cases hcv : run2.completed with
                  | false => rfl
                  | true => exact absurd hcv hcomp
                have hsc := hs.2.2.2.2.2 hcompF
                by_cases hone : run2.possiblePlacements.length = 1
                · cases hl : run2.possiblePlacements with
                  | nil =>
                    rw [hl] at hone
                    simp at hone
                  | cons a t =>
                    cases t with
                    | nil =>
                      have hatA := hsc.2.1 a hl
                      refine ⟨_, huntI.trans hatA.1, Or.inr ⟨a, rfl, rfl⟩⟩
                    | cons b t2 =>
                      rw [hl] at hone
                      simp at hone
                · have hatA := hsc.2.2 hone
                  exact ⟨run2, huntI.trans hatA, Or.inl rfl⟩
            · have hgetA : stA.runs.get? i2 = some run2 :=
                (hs.2.2.2.1 i2 hi2).trans hget2
              exact hrec.2.2.2.2.2 i2 run2 hgetA

/-- Successful phase two over a duplicate-free position list: runs and line
data untouched, monotone square evolution, and every listed position
contained in no candidate placement of any run ends EMPTY. -/
theorem crossLoop_ok (xs : List Nat) :
    ∀ (cs : List Change) (st : RowState) (cs2 : List Change) (st2 : RowState),
    crossLoop xs cs st = Except.ok (cs2, st2) →
    st2.runs = st.runs ∧ linePreserved st st2 ∧ st.mono st2 ∧
    (∀ pos ∈ xs,
      st.runs.any (fun run =>
        run.possiblePlacements.any (fun rg => rg.containsB pos)) = false →
      (st2.sq pos).status = SquareStatus.crossedOut) := by
  induction xs with
  | nil =>
    intro cs st cs2 st2 h
    cases h
    refine ⟨rfl, linePreserved_refl _, RowState.monoRefl _, ?_⟩
    intro pos hpos
    cases hpos
  | cons pos rest ih =>
    intro cs st cs2 st2 h
    by_cases hc : st.runs.any (fun run =>
        run.possiblePlacements.any (fun rg => rg.containsB pos)) = true
    · simp only [crossLoop, if_pos hc] at h
      have hrec := ih cs st cs2 st2 h
      refine ⟨hrec.1, hrec.2.1, hrec.2.2.1, ?_⟩
      intro q hq hcq
      rcases List.mem_cons.mp hq with hq | hq
      · subst hq
        rw [hcq] at hc
        cases hc
      · exact hrec.2.2.2 q hq hcq
    · cases hset : st.setStatusAt pos SquareStatus.crossedOut with
      | error e =>
        simp only [crossLoop, if_neg hc, hset] at h
        cases h
      | ok p =>
        cases p with
        | mk c stA =>
          simp only [crossLoop, if_neg hc, hset] at h
          have hsOk := setStatusAt_ok st pos SquareStatus.crossedOut c stA hset
          have hrec := ih _ stA cs2 st2 h
          refine ⟨hrec.1.trans hsOk.2.2.2.2.1, ?_, ?_, ?_⟩
          · exact linePreserved_trans
              ⟨hsOk.2.2.2.2.2.1, hsOk.2.2.2.2.2.2.1, hsOk.2.2.2.2.2.2.2.1,
               hsOk.2.2.2.2.2.2.2.2.1, hsOk.2.2.2.2.2.2.2.2.2.1⟩
              hrec.2.1
          · exact RowState.monoTrans hsOk.2.2.2.2.2.2.2.2.2.2 hrec.2.2.1
          · intro q hq hcq
            rcases List.mem_cons.mp hq with hq | hq
            · subst hq
              have hmono := hrec.2.2.1 q
              rw [hmono.1 (by rw [hsOk.1]; intro hcon; cases hcon)]
              exact hsOk.1
            · refine hrec.2.2.2 q hq ?_
              rw [hsOk.2.2.2.2.1]
              exact hcq

/-- CLAIM C2.  On a line whose candidate placements have the length of their
run, after infer_status_assignments succeeds: every position contained in
all candidate placements of a non-completed run is FILLED and owned by that
run; every non-completed run with exactly one remaining candidate is marked
completed with that candidate as its single final placement and the cells
immediately before and after the placement, when on the line, are EMPTY; and
every position contained in no candidate placement of any run is EMPTY. -/
theorem c2_infer_status_assignments (r : RowState) (cs : List Change) (r2 : RowState)
    (hShape : ∀ run ∈ r.runs, ∀ rg ∈ run.possiblePlacements,
      rg.stop = rg.start + run.length)
    (hok : infer_status_assignments r = Except.ok (cs, r2)) :
    (∀ run ∈ r.runs, run.completed = false →
      ∀ pos, pos < r.length →
        run.possiblePlacements.all (fun rg => rg.containsB pos) = true →
        (r2.sq pos).status = SquareStatus.filledIn ∧
        (r2.sq pos).getRunIndex run.direction = some run.index) ∧
    (∀ i run rg, r.runs.get? i = some run → run.completed = false →
      run.possiblePlacements = [rg] →
      r2.runs.get? i = some { run with possiblePlacements := [rg], completed := true } ∧
      (0 < rg.start → (r2.sq (rg.start - 1)).status = SquareStatus.crossedOut) ∧
      (rg.stop < run.rowLength → (r2.sq rg.stop).status = SquareStatus.crossedOut)) ∧
    (∀ pos, pos < r.length →
      r.runs.all (fun run =>
        run.possiblePlacements.all (fun rg => !(rg.containsB pos))) = true →
      (r2.sq pos).status = SquareStatus.crossedOut) := by
  cases hp1 : statusPhase1 (List.range r.runs.length) [] r with
  | error e =>
    simp only [infer_status_assignments, bind, Except.bind, hp1] at hok
    cases hok
  | ok p =>
    cases p with
    | mk cs1 r1 =>
      simp only [infer_status_assignments, bind, Except.bind, hp1] at hok
      have hP := statusPhase1_ok (List.range r.runs.length) [] r cs1 r1
        (List.nodup_range _) hp1
      have hC := crossLoop_ok (List.range r1.length) cs1 r1 cs r2 hok
      have hlen1 : r1.length = r.length := hP.1.1
      refine ⟨?_, ?_, ?_⟩
      · intro run hmem hcomp pos hpos hcq
        obtain ⟨i, hi⟩ := List.mem_iff_get?.mp hmem
        have hiR : i ∈ List.range r.runs.length :=
          List.mem_range.mpr (listGet?_some_lt hi)
        have hat1 := (hP.2.2.2.2.1 i hiR run hi hcomp).1 pos hpos hcq
        have hmono := hC.2.2.1 pos
        refine ⟨?_, hmono.2 run.direction run.index hat1.2⟩
        rw [hmono.1 (by rw [hat1.1]; intro hcon; cases hcon)]
        exact hat1.1
      · intro i run rg hi hcomp hrg
        have hstop : rg.stop = rg.start + run.length :=
          hShape run (List.get?_mem hi) rg (by rw [hrg]; exact List.mem_cons_self _ _)
        have hiR : i ∈ List.range r.runs.length :=
          List.mem_range.mpr (listGet?_some_lt hi)
        have hat1 := (hP.2.2.2.2.1 i hiR run hi hcomp).2 rg hrg
        have hrgeq : Rg.mk rg.start (rg.start + run.length) = rg := by
          cases rg with
          | mk s e =>
            simp only at hstop
            rw [hstop]
        refine ⟨?_, ?_, ?_⟩
        · rw [hC.1]
          rw [hrgeq] at hat1
          exact hat1.1
        · intro hpos
          have hmono := hC.2.2.1 (rg.start - 1)
          rw [hmono.1 (by rw [hat1.2.1 hpos]; intro hcon; cases hcon)]
          exact hat1.2.1 hpos
        · intro hpos
          rw [hstop]
          have hpos2 : rg.start + run.length < run.rowLength := by
            rw [hstop] at hpos
            exact hpos
          have hmono := hC.2.2.1 (rg.start + run.length)
          rw [hmono.1 (by rw [hat1.2.2 hpos2]; intro hcon; cases hcon)]
          exact hat1.2.2 hpos2
      · intro pos hpos hall
        have hany : r1.runs.any (fun run =>
            run.possiblePlacements.any (fun rg => rg.containsB pos)) = false := by
          by_contra hcon
          have htrue : r1.runs.any (fun run =>
              run.possiblePlacements.any (fun rg => rg.containsB pos)) = true := by
            cases hv : r1.runs.any (fun run =>
                run.possiblePlacements.any (fun rg => rg.containsB pos)) with
            | true => rfl
            | false => exact absurd hv hcon
          obtain ⟨run2, hmem2, hp2⟩ := List.any_eq_true.mp htrue
          obtain ⟨i, hi1⟩ := List.mem_iff_get?.mp hmem2
          have hilt : i < r.runs.length := by
            have := listGet?_some_lt hi1
            rw [hP.2.2.1] at this
            exact this
          obtain ⟨run, hrun⟩ : ∃ run, r.runs.get? i = some run := by
            cases hg : r.runs.get? i with
            | some run => exact ⟨run, rfl⟩
            | none =>
              have := List.get?_eq_none.mp hg
              omega
          obtain ⟨run2b, hrun2b, hdisj⟩ := hP.2.2.2.2.2 i run hrun
          have hbb : run2b = run2 := by
            rw [hi1] at hrun2b
            exact ((Option.some.injEq _ _).mp hrun2b).symm
          subst hbb
          have hppeq : run2b.possiblePlacements = run.possiblePlacements := by
            rcases hdisj with hd | ⟨rg, hrg, hd⟩
            · rw [hd]
            · have hstop : rg.stop = rg.start + run.length :=
                hShape run (List.get?_mem hrun) rg
                  (by rw [hrg]; exact List.mem_cons_self _ _)
              have hrgeq : Rg.mk rg.start (rg.start + run.length) = rg := by
                cases rg with
                | mk s e =>
                  simp only at hstop
                  rw [hstop]
              rw [hd]
              simp only [hrgeq]
              rw [hrg]
          rw [hppeq] at hp2
          obtain ⟨rg, hrgmem, hrgc⟩ := List.any_eq_true.mp hp2
          have hallr := List.all_eq_true.mp hall run (List.get?_mem hrun)
          have := List.all_eq_true.mp hallr rg hrgmem
          rw [hrgc] at this
          cases this
        have hposR : pos ∈ List.range r1.length := by
          rw [hlen1]
          exact List.mem_range.mpr hpos
        exact hC.2.2.2 pos hposR hany

/-- Concrete line for the C2 witness: one run of length two with a single
candidate placement on three UNKNOWN squares. -/
def c2Row : RowState :=
  RowState.mk Direction.horizontal 0 3
    [Run.mk Direction.horizontal 2 0 0 3 [Rg.mk 0 2] false]
    [Square.mk 0 0 SquareStatus.unknown none none,
     Square.mk 0 1 SquareStatus.unknown none none,
     Square.mk 0 2 SquareStatus.unknown none none]
    false

/-- Line state after infer_status_assignments on the C2 witness line. -/
def c2RowAfter : RowState :=
  RowState.mk Direction.horizontal 0 3
    [Run.mk Direction.horizontal 2 0 0 3 [Rg.mk 0 2] true]
    [Square.mk 0 0 SquareStatus.filledIn (some 0) none,
     Square.mk 0 1 SquareStatus.filledIn (some 0) none,
     Square.mk 0 2 SquareStatus.crossedOut none none]
    false

/-- Witness for C2 on the concrete line: position one is in every candidate
of the run, so it ends FILLED and owned; the run had a single candidate, so
it ends completed with the cell after it EMPTY; position two is in no
candidate, so it ends EMPTY. -/
theorem c2_witness :
    (c2RowAfter.sq 1).status = SquareStatus.filledIn ∧
    (c2RowAfter.sq 1).getRunIndex Direction.horizontal = some 0 ∧
    c2RowAfter.runs.get? 0 =
      some (Run.mk Direction.horizontal 2 0 0 3 [Rg.mk 0 2] true) ∧
    (c2RowAfter.sq 2).status = SquareStatus.crossedOut := by
  have hok : infer_status_assignments c2Row = Except.ok
      ([Change.status (StatusChange.mk 0 0 SquareStatus.unknown SquareStatus.filledIn),
        Change.run (RunChange.mk 0 0 Direction.horizontal none 0),
        Change.status (StatusChange.mk 0 1 SquareStatus.unknown SquareStatus.filledIn),
        Change.run (RunChange.mk 0 1 Direction.horizontal none 0),
        Change.status (StatusChange.mk 0 2 SquareStatus.unknown SquareStatus.crossedOut)],
       c2RowAfter) := by rfl
  have h := c2_infer_status_assignments c2Row _ c2RowAfter (by decide) hok
  have hrun : Run.mk Direction.horizontal 2 0 0 3 [Rg.mk 0 2] false ∈ c2Row.runs :=
    List.mem_cons_self _ _
  have h1 := h.1 _ hrun rfl 1 (by decide) (by decide)
  have h2 := h.2.1 0 (Run.mk Direction.horizontal 2 0 0 3 [Rg.mk 0 2] false)
    (Rg.mk 0 2) rfl rfl rfl
  have h3 := h.2.2 2 (by decide) (by decide)
  exact ⟨h1.1, h1.2, h2.1, h3⟩

/-! ## The infer_run_assignments procedure (src/row/solver.rs lines 233 to 504) -/

/-- Display form of a direction (src/util.rs lines 52 to 61). -/
def dirStr (d : Direction) : String :=
  match d with
  | Direction.horizontal => "Horizontal"
  | Direction.vertical => "Vertical"

/-- Indexing into the run list (self.runs[idx]), panicking out of range. -/
def getRunE (st : RowState) (i : Nat) : Except Error Run :=
  match st.runs.get? i with
  | none => Except.error (Error.panic "index out of bounds")
  | some run => Except.ok run

/-- Run.completed_placement of src/row/mod.rs (lines 243 to 247): asserts a
completed run with a single possible placement and returns that placement. -/
def completedPlacementE (run : Run) : Except Error Rg :=
  if run.completed then
    match run.possiblePlacements with
    | [rg] => Except.ok rg
    | _ => Except.error (Error.panic "assertion failed: possible_placements.len() == 1")
  else Except.error (Error.panic "assertion failed: self.is_completed()")

/-- The square range associated with a range of non-completed runs
(src/row/solver.rs lines 300 to 321): from the first field after the
previous completed run (or the first field) to the last field before the
next completed run (or the last field); the fields list is the one computed
at procedure entry. -/
def sqRangeOf (st : RowState) (fields : List Rg) (runsRange : Rg) :
    Except Error Rg := do
  let s0 ← match fields.head? with
    | none => Except.error (Error.panic "called Option::unwrap on a None value")
    | some f => Except.ok f.start
  let e0 ← match fields.getLast? with
    | none => Except.error (Error.panic "called Option::unwrap on a None value")
    | some f => Except.ok f.stop
  let s1 ← if 0 < runsRange.start then do
      let prev ← getRunE st (runsRange.start - 1)
      if prev.completed then do
        let cp ← completedPlacementE prev
        match (fields.filter (fun field => decide (cp.stop < field.start))).head? with
        | none => Except.error (Error.panic "called Option::unwrap on a None value")
        | some f => Except.ok f.start
      else
        Except.error (Error.panic "assertion failed: prev_completed_run.is_completed()")
    else Except.ok s0
  let e1 ← if runsRange.stop < st.runs.length then do
      let next ← getRunE st runsRange.stop
      if next.completed then do
        let cp ← completedPlacementE next
        match (fields.filter (fun field => decide (field.stop < cp.start))).getLast? with
        | none => Except.error (Error.panic "called Option::unwrap on a None value")
        | some f => Except.ok f.stop
      else
        Except.error (Error.panic "assertion failed: next_completed_run.is_completed()")
    else Except.ok e0
  Except.ok (Rg.mk s1 e1)

/-- The possible-runs map of src/row/solver.rs lines 338 to 342; the source
HashMap is keyed by the sequence indices 0 to n-1, modelled as the list of
values in key order. -/
def possibleRunsMap (st : RowState) (seqs : List Rg) : List (List Nat) :=
  seqs.map (fun seq => possible_runs_for_sequence st seq)

/-- In-place update of one entry of the map (get_mut on an always-present
key; absent keys cannot occur since the keys are exactly the positions). -/
def listModify {α : Type} (l : List α) (i : Nat) (f : α → α) : List α :=
  match l.get? i with
  | none => l
  | some a => l.set i (f a)

/-- Narrowing rules a and b (src/row/solver.rs lines 364 to 380): for each
sequence, drop the leftmost run when the sequence ends more than that run's
length past the start of the leftmost sequence, and drop the rightmost run
when the rightmost sequence ends more than that run's length past the start
of the sequence; vec_remove_item removes the first occurrence. -/
def ruleAB (lmRun rmRun : Run) (lmSeq rmSeq : Rg) :
    List (Nat × Rg) → List (List Nat) → List (List Nat)
  | [], m => m
  | (i, seq) :: rest, m =>
    let m1 := if lmRun.length < seq.stop - lmSeq.start then
        listModify m i (fun prs => prs.erase lmRun.index) else m
    let m2 := if rmRun.length < rmSeq.stop - seq.start then
        listModify m1 i (fun prs => prs.erase rmRun.index) else m1
    ruleAB lmRun rmRun lmSeq rmSeq rest m2

/-- One erase of a run index from the map entries at the given positions. -/
def eraseAt (ixs : List Nat) (v : Nat) (m : List (List Nat)) : List (List Nat) :=
  ixs.foldl (fun acc i => listModify acc i (fun prs => prs.erase v)) m

/-- Narrowing rules c and d for one run index (src/row/solver.rs lines 386
to 417): both boundary sequences are computed on the entry map of this run
index, then the run is dropped left of the rightmost sequence admitting only
earlier runs and right of the leftmost sequence admitting only later runs. -/
def ruleCDStep (numSeqs runIdx : Nat) (m : List (List Nat)) : List (List Nat) :=
  let rightmost := ((rustRange 0 numSeqs).filter (fun seqIdx =>
      (m.getD seqIdx []).all (fun p => decide (p < runIdx)))).getLast?
  let leftmost := ((rustRange 0 numSeqs).filter (fun seqIdx =>
      (m.getD seqIdx []).all (fun p => decide (runIdx < p)))).head?
  let m1 := match rightmost with
    | none => m
    | some rIdx => eraseAt (rustRange 0 rIdx) runIdx m
  match leftmost with
  | none => m1
  | some lIdx => eraseAt (rustRange (lIdx + 1) numSeqs) runIdx m1

/-- Rules c and d over every run index of the range, threading the map. -/
def ruleCD (numSeqs : Nat) (runIdxs : List Nat) (m : List (List Nat)) :
    List (List Nat) :=
  runIdxs.foldl (fun acc runIdx => ruleCDStep numSeqs runIdx acc) m

/-- The fully narrowed possible-runs map of one runs range: the initial map
narrowed by rules a, b and then c, d. -/
def narrowedPossibleRuns (st : RowState) (runsRange : Rg) (seqs : List Rg)
    (lmRun rmRun : Run) (lmSeq rmSeq : Rg) : List (List Nat) :=
  ruleCD seqs.length (rustRange runsRange.start runsRange.stop)
    (ruleAB lmRun rmRun lmSeq rmSeq seqs.enum (possibleRunsMap st seqs))

/-- The singleton-assignment loop of src/row/solver.rs lines 439 to 443:
assign the run to every square of the sequence. -/
def assignLoop (run : Run) : List Nat → List Change → RowState →
    Except Error (List Change × RowState)
  | [], cs, st => Except.ok (cs, st)
  | x :: rest, cs, st =>
    match st.assignRunAt x run with
    | Except.error e => Except.error e
    | Except.ok (c, st2) => assignLoop run rest (cs ++ optRunChanges c) st2

/-- A fill loop of src/row/solver.rs lines 488 to 497: set every listed
square FILLED. -/
def fillRangeLoop : List Nat → List Change → RowState →
    Except Error (List Change × RowState)
  | [], cs, st => Except.ok (cs, st)
  | x :: rest, cs, st =>
    match st.setStatusAt x SquareStatus.filledIn with
    | Except.error e => Except.error e
    | Except.ok (c, st2) => fillRangeLoop rest (cs ++ optStatusChanges c) st2

/-- The same-length test of src/row/solver.rs line 454, with the indexing
panic of self.runs[r] and the short-circuit of Iterator::all. -/
def allRunLengthsEq (st : RowState) (prs : List Nat) (target : Nat) :
    Except Error Bool :=
  match prs with
  | [] => Except.ok true
  | p :: rest => do
    let run ← getRunE st p
    if run.length == target then allRunLengthsEq st rest target
    else Except.ok false

/-- The lengths of the runs at the given indices (the map of line 471). -/
def runLengthsE (st : RowState) : List Nat → Except Error (List Nat)
  | [] => Except.ok []
  | p :: rest => do
    let run ← getRunE st p
    let ls ← runLengthsE st rest
    Except.ok (run.length :: ls)

/-- min().unwrap() over the run lengths (src/row/solver.rs line 471). -/
def minRunLength (st : RowState) (prs : List Nat) : Except Error Nat := do
  let ls ← runLengthsE st prs
  match ls with
  | [] => Except.error (Error.panic "called Option::unwrap on a None value")
  | x :: rest => Except.ok (rest.foldl Nat.min x)

/-- The bounce fills of src/row/solver.rs lines 480 to 497: clamp the
minimum length against the containing field and fill from the sequence start
to the end of the clamped leftmost placement and from the start of the
clamped rightmost placement to the sequence end.  The two subtractions of
the source panic on underflow in a debug build. -/
def bounceFills (seq : Rg) (m : Nat) (field : Rg) (cs : List Change)
    (st : RowState) : Except Error (List Change × RowState) :=
  if seq.start < m then Except.error (Error.panic "attempt to subtract with overflow")
  else
    let cls := Nat.max (seq.start - m + 1) field.start
    let cre := Nat.min (seq.start + m) field.stop
    if cre < m then Except.error (Error.panic "attempt to subtract with overflow")
    else do
      let (cs1, st1) ← fillRangeLoop (rustRange seq.start (cls + m)) cs st
      fillRangeLoop (rustRange (cre - m) seq.stop) cs1 st1

/-- Processing of one filled sequence against its narrowed possible-runs
list (src/row/solver.rs lines 427 to 500): no possible run is the logic
inconsistency; exactly one is assigned to every square of the sequence; with
more than one, delineate in place when all possible runs have the length of
the sequence, then bounce the minimum length against the live containing
field. -/
def processSeqStep (seq : Rg) (prs : List Nat) (cs : List Change)
    (st : RowState) : Except Error (List Change × RowState) :=
  match prs with
  | [] =>
    Except.error (Error.logic
      ("Inconsistency: no run found that can encompass the sequence of filled squares ["
        ++ toString seq.start ++ ", " ++ toString (seq.stop - 1) ++ "] in "
        ++ dirStr st.direction ++ " row " ++ toString st.index))
  | [p] => do
    let run ← getRunE st p
    assignLoop run (rustRange seq.start seq.stop) cs st
  | p0 :: _ :: _ => do
    let sameLen ← allRunLengthsEq st prs seq.len
    let (cs1, st1) ←
      if sameLen then
        match getRunE st p0 with
        | Except.error e => Except.error e
        | Except.ok run0 =>
          match delineateAt st run0 seq.start with
          | Except.error e => Except.error e
          | Except.ok (csD, stD) => Except.ok (cs ++ csD, stD)
      else Except.ok (cs, st)
    let m ← minRunLength st1 prs
    let field ← match ( st1.get_fields.filter
        (fun f => f.containsB seq.start)).head? with
      | none => Except.error (Error.panic "called Option::expect on a None value")
      | some f => Except.ok f
    bounceFills seq m field cs1 st1

/-- The per-sequence loop of src/row/solver.rs lines 427 to 500; the source
iterates the HashMap entries in unspecified order, modelled in key order. -/
def processSeqs (seqs : List Rg) (m : List (List Nat)) :
    List Nat → List Change → RowState → Except Error (List Change × RowState)
  | [], cs, st => Except.ok (cs, st)
  | i :: rest, cs, st =>
    match seqs.get? i with
    | none => Except.error (Error.panic "index out of bounds")
    | some seq =>
      match processSeqStep seq (m.getD i []) cs st with
      | Except.error e => Except.error e
      | Except.ok (cs1, st1) => processSeqs seqs m rest cs1 st1

/-- Processing of one range of non-completed runs (the body of the loop at
src/row/solver.rs lines 290 to 502); the fields list is the stale one of
procedure entry, while filled sequences and the per-sequence work use the
live state. -/
def processRunsRange (fields : List Rg) (runsRange : Rg) (cs : List Change)
    (st : RowState) : Except Error (List Change × RowState) := do
  let sqRange ← sqRangeOf st fields runsRange
  let seqs := rangesOfSquares st (fun sq pos =>
      (sq.status == SquareStatus.filledIn) && sqRange.containsB pos)
  if seqs.isEmpty then Except.ok (cs, st)
  else do
    let lmRun ← getRunE st runsRange.start
    let rmRun ← getRunE st (runsRange.stop - 1)
    let lmSeq ← match seqs.head? with
      | none => Except.error (Error.panic "called Option::unwrap on a None value")
      | some s => Except.ok s
    let rmSeq ← match seqs.getLast? with
      | none => Except.error (Error.panic "called Option::unwrap on a None value")
      | some s => Except.ok s
    let mp := narrowedPossibleRuns st runsRange seqs lmRun rmRun lmSeq rmSeq
    processSeqs seqs mp (List.range seqs.length) cs st

/-- The loop of processRunsRange over every range of non-completed runs. -/
def processAllRanges (fields : List Rg) :
    List Rg → List Change → RowState → Except Error (List Change × RowState)
  | [], cs, st => Except.ok (cs, st)
  | rr :: rest, cs, st =>
    match processRunsRange fields rr cs st with
    | Except.error e => Except.error e
    | Except.ok (cs1, st1) => processAllRanges fields rest cs1 st1

/-- Row.infer_run_assignments of src/row/solver.rs (lines 233 to 504): the
fields and the ranges of non-completed runs are computed once at entry, then
every runs range is processed in order. -/
def infer_run_assignments (r : RowState) :
    Except Error (List Change × RowState) :=
  processAllRanges r.get_fields
    (rangesOfRuns r (fun run => !run.completed)) [] r

/-- Successful assign loop: runs and line data untouched, monotone, and
every listed position ends owned by the run in its orientation. -/
theorem assignLoop_ok (run : Run) (xs : List Nat) :
    ∀ (cs : List Change) (st : RowState) (cs2 : List Change) (st2 : RowState),
    assignLoop run xs cs st = Except.ok (cs2, st2) →
    st2.runs = st.runs ∧ linePreserved st st2 ∧ st.mono st2 ∧
    (∀ pos ∈ xs, (st2.sq pos).getRunIndex run.direction = some run.index) := by
  induction xs with
  | nil =>
    intro cs st cs2 st2 h
    cases h
    refine ⟨rfl, linePreserved_refl _, RowState.monoRefl _, ?_⟩
    intro pos hpos
    cases hpos
  | cons x rest ih =>
    intro cs st cs2 st2 h
    cases hset : st.assignRunAt x run with
    | error e =>
      simp only [assignLoop, hset] at h
      cases h
    | ok p =>
      cases p with
      | mk c stA =>
        simp only [assignLoop, hset] at h
        have hs := assignRunAt_ok st x run c stA hset
        have hrec := ih _ stA cs2 st2 h
        refine ⟨hrec.1.trans hs.2.2.2.2.1, ?_, ?_, ?_⟩
        · exact linePreserved_trans
            ⟨hs.2.2.2.2.2.1, hs.2.2.2.2.2.2.1, hs.2.2.2.2.2.2.2.1,
             hs.2.2.2.2.2.2.2.2.1, hs.2.2.2.2.2.2.2.2.2.1⟩
            hrec.2.1
        · exact RowState.monoTrans hs.2.2.2.2.2.2.2.2.2.2 hrec.2.2.1
        · intro pos hpos
          rcases List.mem_cons.mp hpos with hpos | hpos
          · subst hpos
            exact (hrec.2.2.1 pos).2 run.direction run.index hs.2.1
          · exact hrec.2.2.2 pos hpos

/-- set_status with the current status is a successful no-op. -/
theorem set_status_noop (sq : Square) (stt : SquareStatus) (h : sq.status = stt) :
    sq.set_status stt = (Except.ok none, sq) := by
  simp [Square.set_status, Square.apply_status_change, h]

/-- A successful setStatusAt whose target equals the current status leaves
every square of the line unchanged. -/
theorem setStatusAt_noop (r : RowState) (pos : Nat) (stt : SquareStatus)
    (c : Option StatusChange) (r2 : RowState)
    (hsame : (r.sq pos).status = stt)
    (h : r.setStatusAt pos stt = Except.ok (c, r2)) :
    ∀ q, r2.sq q = r.sq q := by
  cases hget : r.squares.get? pos with
  | none =>
    have hval : r.setStatusAt pos stt = Except.error (Error.panic "index out of bounds") := by
      unfold RowState.setStatusAt
      rw [hget]
    rw [hval] at h
    cases h
  | some sq =>
    have hsq : r.sq pos = sq := listGetD_of_get? defaultSquare hget
    have hnoop : sq.set_status stt = (Except.ok none, sq) :=
      set_status_noop sq stt (by rw [← hsq]; exact hsame)
    have hval : r.setStatusAt pos stt =
        Except.ok (none, { r with squares := r.squares.set pos sq }) := by
      unfold RowState.setStatusAt
      simp only [hget]
      rw [hnoop]
    rw [hval] at h
    have hr2 : r2 = { r with squares := r.squares.set pos sq } :=
      (((Prod.mk.injEq _ _ _ _).mp ((Except.ok.injEq _ _).mp h)).2).symm
    subst hr2
    intro q
    by_cases hq : q = pos
    · subst hq
      simp only [RowState.sq]
      rw [listSet_getD_eq _ _ _ _ (listGet?_some_lt hget)]
      exact hsq.symm
    · simp only [RowState.sq]
      exact listSet_getD_ne _ _ _ _ _ hq

/-- Successful fill loop: runs and line data untouched, monotone, every
listed position ends FILLED, unlisted positions are untouched, and positions
already FILLED are untouched. -/
theorem fillRangeLoop_ok (xs : List Nat) :
    ∀ (cs : List Change) (st : RowState) (cs2 : List Change) (st2 : RowState),
    fillRangeLoop xs cs st = Except.ok (cs2, st2) →
    st2.runs = st.runs ∧ linePreserved st st2 ∧ st.mono st2 ∧
    (∀ pos ∈ xs, (st2.sq pos).status = SquareStatus.filledIn) ∧
    (∀ q, q ∉ xs → st2.sq q = st.sq q) ∧
    (∀ q, (st.sq q).status = SquareStatus.filledIn → st2.sq q = st.sq q) := by
  induction xs with
  | nil =>
    intro cs st cs2 st2 h
    cases h
    refine ⟨rfl, linePreserved_refl _, RowState.monoRefl _, ?_, fun q _ => rfl,
      fun q _ => rfl⟩
    intro pos hpos
    cases hpos
  | cons x rest ih =>
    intro cs st cs2 st2 h
    cases hset : st.setStatusAt x SquareStatus.filledIn with
    | error e =>
      simp only [fillRangeLoop, hset] at h
      cases h
    | ok p =>
      cases p with
      | mk c stA =>
        simp only [fillRangeLoop, hset] at h
        have hs := setStatusAt_ok st x SquareStatus.filledIn c stA hset
        have hrec := ih _ stA cs2 st2 h
        refine ⟨hrec.1.trans hs.2.2.2.2.1, ?_, ?_, ?_, ?_, ?_⟩
        · exact linePreserved_trans
            ⟨hs.2.2.2.2.2.1, hs.2.2.2.2.2.2.1, hs.2.2.2.2.2.2.2.1,
             hs.2.2.2.2.2.2.2.2.1, hs.2.2.2.2.2.2.2.2.2.1⟩
            hrec.2.1
        · exact RowState.monoTrans hs.2.2.2.2.2.2.2.2.2.2 hrec.2.2.1
        · intro pos hpos
          rcases List.mem_cons.mp hpos with hpos | hpos
          · subst hpos
            rw [(hrec.2.2.1 pos).1 (by rw [hs.1]; intro hcon; cases hcon)]
            exact hs.1
          · exact hrec.2.2.2.1 pos hpos
        · intro q hq
          have hq1 : q ≠ x := fun hh => hq (hh ▸ List.mem_cons_self x rest)
          have hq2 : q ∉ rest := fun hh => hq (List.mem_cons_of_mem x hh)
          exact (hrec.2.2.2.2.1 q hq2).trans (hs.2.2.2.1 q hq1)
        · intro q hfq
          by_cases hq : q = x
          · subst hq
            have hAeq : ∀ q2, stA.sq q2 = st.sq q2 := setStatusAt_noop st q
              SquareStatus.filledIn c stA hfq hset
            exact (hrec.2.2.2.2.2 q (by rw [hAeq q]; exact hfq)).trans (hAeq q)
          · have hAq : stA.sq q = st.sq q := hs.2.2.2.1 q hq
            exact (hrec.2.2.2.2.2 q (by rw [hAq]; exact hfq)).trans hAq

/-- Errors of apply_status_change are status conflicts, never logic errors. -/
theorem apply_status_change_error (sq : Square) (cand : StatusChange) (e : Error)
    (sq2 : Square) (h : sq.apply_status_change cand = (Except.error e, sq2)) :
    ∀ msg, e ≠ Error.logic msg := by
  unfold Square.apply_status_change at h
  split at h
  · have h1 := ((Prod.mk.injEq _ _ _ _).mp h).1
    intro msg hcon
    rw [hcon] at h1
    simp at h1
  · split at h
    · cases ((Prod.mk.injEq _ _ _ _).mp h).1
    · cases ((Prod.mk.injEq _ _ _ _).mp h).1

/-- Errors of set_status are never logic errors. -/
theorem set_status_error (sq : Square) (stt : SquareStatus) (e : Error)
    (sq2 : Square) (h : sq.set_status stt = (Except.error e, sq2)) :
    ∀ msg, e ≠ Error.logic msg :=
  apply_status_change_error sq _ e sq2 h

/-- Errors of apply_run_change are run conflicts or not-filled-in rejections,
never logic errors. -/
theorem apply_run_change_error (sq : Square) (cand : RunChange) (e : Error)
    (sq2 : Square) (h : sq.apply_run_change cand = (Except.error e, sq2)) :
    ∀ msg, e ≠ Error.logic msg := by
  simp only [Square.apply_run_change] at h
  split at h
  · have h1 := ((Prod.mk.injEq _ _ _ _).mp h).1
    intro msg hcon
    rw [hcon] at h1
    simp at h1
  · split at h
    · have h1 := ((Prod.mk.injEq _ _ _ _).mp h).1
      intro msg hcon
      rw [hcon] at h1
      simp at h1
    · split at h
      · cases ((Prod.mk.injEq _ _ _ _).mp h).1
      · cases ((Prod.mk.injEq _ _ _ _).mp h).1

/-- Errors of set_run_index are never logic errors. -/
theorem set_run_index_error (sq : Square) (d : Direction) (idx : Nat) (e : Error)
    (sq2 : Square) (h : sq.set_run_index d idx = (Except.error e, sq2)) :
    ∀ msg, e ≠ Error.logic msg :=
  apply_run_change_error sq _ e sq2 h

/-- Errors of setStatusAt are panics or status conflicts, never logic. -/
theorem setStatusAt_error (r : RowState) (pos : Nat) (stt : SquareStatus) (e : Error)
    (h : r.setStatusAt pos stt = Except.error e) : ∀ msg, e ≠ Error.logic msg := by
  cases hget : r.squares.get? pos with
  | none =>
    have hval : r.setStatusAt pos stt =
        Except.error (Error.panic "index out of bounds") := by
      unfold RowState.setStatusAt
      rw [hget]
    rw [hval] at h
    have he := (Except.error.injEq _ _).mp h
    intro msg hcon
    rw [hcon] at he
    simp at he
  | some sq =>
    cases hset : sq.set_status stt with
    | mk res sq2 =>
      cases res with
      | error e2 =>
        have hval : r.setStatusAt pos stt = Except.error e2 := by
          unfold RowState.setStatusAt
          simp only [hget]
          rw [hset]
        rw [hval] at h
        have he := (Except.error.injEq _ _).mp h
        rw [← he]
        exact set_status_error sq stt e2 sq2 hset
      | ok c =>
        have hval : r.setStatusAt pos stt =
            Except.ok (c, { r with squares := r.squares.set pos sq2 }) := by
          unfold RowState.setStatusAt
          simp only [hget]
          rw [hset]
        rw [hval] at h
        cases h

/-- Errors of assignRunAt are panics or run errors, never logic. -/
theorem assignRunAt_error (r : RowState) (pos : Nat) (run : Run) (e : Error)
    (h : r.assignRunAt pos run = Except.error e) : ∀ msg, e ≠ Error.logic msg := by
  cases hget : r.squares.get? pos with
  | none =>
    have hval : r.assignRunAt pos run =
        Except.error (Error.panic "index out of bounds") := by
      unfold RowState.assignRunAt
      rw [hget]
    rw [hval] at h
    have he := (Except.error.injEq _ _).mp h
    intro msg hcon
    rw [hcon] at he
    simp at he
  | some sq =>
    cases hset : sq.set_run_index run.direction run.index with
    | mk res sq2 =>
      cases res with
      | error e2 =>
        have hval : r.assignRunAt pos run = Except.error e2 := by
          unfold RowState.assignRunAt
          simp only [hget]
          rw [hset]
        rw [hval] at h
        have he := (Except.error.injEq _ _).mp h
        rw [← he]
        exact set_run_index_error sq run.direction run.index e2 sq2 hset
      | ok c =>
        have hval : r.assignRunAt pos run =
            Except.ok (c, { r with squares := r.squares.set pos sq2 }) := by
          unfold RowState.assignRunAt
          simp only [hget]
          rw [hset]
        rw [hval] at h
        cases h

/-- Errors of the assign loop are never logic errors. -/
theorem assignLoop_error (run : Run) (xs : List Nat) :
    ∀ (cs : List Change) (st : RowState) (e : Error),
    assignLoop run xs cs st = Except.error e → ∀ msg, e ≠ Error.logic msg := by
  induction xs with
  | nil =>
    intro cs st e h
    cases h
  | cons x rest ih =>
    intro cs st e h
    cases hset : st.assignRunAt x run with
    | error e2 =>
      simp only [assignLoop, hset] at h
      have he := (Except.error.injEq _ _).mp h
      rw [← he]
      exact assignRunAt_error st x run e2 hset
    | ok p =>
      cases p with
      | mk c stA =>
        simp only [assignLoop, hset] at h
        exact ih _ stA e h

/-- Errors of the fill loop are never logic errors. -/
theorem fillRangeLoop_error (xs : List Nat) :
    ∀ (cs : List Change) (st : RowState) (e : Error),
    fillRangeLoop xs cs st = Except.error e → ∀ msg, e ≠ Error.logic msg := by
  induction xs with
  | nil =>
    intro cs st e h
    cases h
  | cons x rest ih =>
    intro cs st e h
    cases hset : st.setStatusAt x SquareStatus.filledIn with
    | error e2 =>
      simp only [fillRangeLoop, hset] at h
      have he := (Except.error.injEq _ _).mp h
      rw [← he]
      exact setStatusAt_error st x SquareStatus.filledIn e2 hset
    | ok p =>
      cases p with
      | mk c stA =>
        simp only [fillRangeLoop, hset] at h
        exact ih _ stA e h

/-- Errors of delineate_at are never logic errors. -/
theorem delineateAt_error (r : RowState) (run : Run) (startAt : Nat) (e : Error)
    (h : delineateAt r run startAt = Except.error e) :
    ∀ msg, e ≠ Error.logic msg := by
  by_cases h1 : 0 < startAt
  · cases hset1 : r.setStatusAt (startAt - 1) SquareStatus.crossedOut with
    | error e2 =>
      simp only [delineateAt, bind, Except.bind, if_pos h1, hset1] at h
      have he := (Except.error.injEq _ _).mp h
      rw [← he]
      exact setStatusAt_error r (startAt - 1) SquareStatus.crossedOut e2 hset1
    | ok p =>
      cases p with
      | mk c1 stA =>
        simp only [delineateAt, bind, Except.bind, if_pos h1, hset1] at h
        by_cases h2 : startAt + run.length < run.rowLength
        · cases hset2 : stA.setStatusAt (startAt + run.length) SquareStatus.crossedOut with
          | error e2 =>
            rw [if_pos h2] at h
            simp only [hset2] at h
            have he := (Except.error.injEq _ _).mp h
            rw [← he]
            exact setStatusAt_error stA (startAt + run.length)
              SquareStatus.crossedOut e2 hset2
          | ok p2 =>
            cases p2 with
            | mk c2 stB =>
              rw [if_pos h2] at h
              simp only [hset2] at h
              cases h
        · rw [if_neg h2] at h
          cases h
  · simp only [delineateAt, bind, Except.bind, if_neg h1] at h
    by_cases h2 : startAt + run.length < run.rowLength
    · cases hset2 : r.setStatusAt (startAt + run.length) SquareStatus.crossedOut with
      | error e2 =>
        rw [if_pos h2] at h
        simp only [hset2] at h
        have he := (Except.error.injEq _ _).mp h
        rw [← he]
        exact setStatusAt_error r (startAt + run.length)
          SquareStatus.crossedOut e2 hset2
      | ok p2 =>
        cases p2 with
        | mk c2 stB =>
          rw [if_pos h2] at h
          simp only [hset2] at h
          cases h
    · rw [if_neg h2] at h
      cases h

/-- Errors of getRunE are panics, never logic errors. -/
theorem getRunE_error (st : RowState) (i : Nat) (e : Error)
    (h : getRunE st i = Except.error e) : ∀ msg, e ≠ Error.logic msg := by
  cases hget : st.runs.get? i with
  | none =>
    unfold getRunE at h
    rw [hget] at h
    have he := (Except.error.injEq _ _).mp h
    intro msg hcon
    rw [hcon] at he
    simp at he
  | some run =>
    unfold getRunE at h
    rw [hget] at h
    cases h

/-- Errors of the same-length test are panics, never logic errors. -/
theorem allRunLengthsEq_error (st : RowState) :
    ∀ (prs : List Nat) (target : Nat) (e : Error),
    allRunLengthsEq st prs target = Except.error e → ∀ msg, e ≠ Error.logic msg := by
  intro prs
  induction prs with
  | nil =>
    intro target e h
    cases h
  | cons p rest ih =>
    intro target e h
    cases hget : getRunE st p with
    | error e2 =>
      simp only [allRunLengthsEq, bind, Except.bind, hget] at h
      have he := (Except.error.injEq _ _).mp h
      rw [← he]
      exact getRunE_error st p e2 hget
    | ok run =>
      simp only [allRunLengthsEq, bind, Except.bind, hget] at h
      by_cases hlen : (run.length == target) = true
      · rw [if_pos hlen] at h
        exact ih target e h
      · rw [if_neg hlen] at h
        cases h

/-- Errors of the run-lengths collection are panics, never logic errors. -/
theorem runLengthsE_error (st : RowState) :
    ∀ (prs : List Nat) (e : Error),
    runLengthsE st prs = Except.error e → ∀ msg, e ≠ Error.logic msg := by
  intro prs
  induction prs with
  | nil =>
    intro e h
    cases h
  | cons p rest ih =>
    intro e h
    cases hget : getRunE st p with
    | error e2 =>
      simp only [runLengthsE, bind, Except.bind, hget] at h
      have he := (Except.error.injEq _ _).mp h
      rw [← he]
      exact getRunE_error st p e2 hget
    | ok run =>
      cases hrec : runLengthsE st rest with
      | error e2 =>
        simp only [runLengthsE, bind, Except.bind, hget, hrec] at h
        have he := (Except.error.injEq _ _).mp h
        rw [← he]
        exact ih e2 hrec
      | ok ls =>
        simp only [runLengthsE, bind, Except.bind, hget, hrec] at h
        cases h

/-- Errors of the minimum-length computation are panics, never logic. -/
theorem minRunLength_error (st : RowState) (prs : List Nat) (e : Error)
    (h : minRunLength st prs = Except.error e) : ∀ msg, e ≠ Error.logic msg := by
  cases hls : runLengthsE st prs with
  | error e2 =>
    simp only [minRunLength, bind, Except.bind, hls] at h
    have he := (Except.error.injEq _ _).mp h
    rw [← he]
    exact runLengthsE_error st prs e2 hls
  | ok ls =>
    simp only [minRunLength, bind, Except.bind, hls] at h
    cases ls with
    | nil =>
      have he := (Except.error.injEq _ _).mp h
      intro msg hcon
      rw [hcon] at he
      simp at he
    | cons x rest =>
      cases h

/-- Errors of the bounce fills are panics or fill-loop errors, never logic. -/
theorem bounceFills_error (seq : Rg) (m : Nat) (field : Rg) (cs : List Change)
    (st : RowState) (e : Error)
    (h : bounceFills seq m field cs st = Except.error e) :
    ∀ msg, e ≠ Error.logic msg := by
  unfold bounceFills at h
  by_cases h1 : seq.start < m
  · rw [if_pos h1] at h
    have he := (Except.error.injEq _ _).mp h
    intro msg hcon
    rw [hcon] at he
    simp at he
  · rw [if_neg h1] at h
    by_cases h2 : Nat.min (seq.start + m) field.stop < m
    · rw [if_pos h2] at h
      have he := (Except.error.injEq _ _).mp h
      intro msg hcon
      rw [hcon] at he
      simp at he
    · rw [if_neg h2] at h
      cases hf1 : fillRangeLoop
          (rustRange seq.start (Nat.max (seq.start - m + 1) field.start + m)) cs st with
      | error e2 =>
        simp only [bind, Except.bind, hf1] at h
        have he := (Except.error.injEq _ _).mp h
        rw [← he]
        exact fillRangeLoop_error _ cs st e2 hf1
      | ok p =>
        cases p with
        | mk cs1 st1 =>
          simp only [bind, Except.bind, hf1] at h
          exact fillRangeLoop_error _ cs1 st1 e h

/-- A half-open range contains its first and last position iff it contains
every position of a nonempty interval. -/
theorem containsB_pair_iff (rg : Rg) (a b : Nat) (hab : a < b) :
    (rg.containsB a = true ∧ rg.containsB (b - 1) = true) ↔
    ∀ x, a ≤ x → x < b → rg.containsB x = true := by
  simp only [Rg.containsB, Bool.and_eq_true, decide_eq_true_eq]
  constructor
  · rintro ⟨⟨h1, h2⟩, h3, h4⟩ x hx1 hx2
    exact ⟨by omega, by omega⟩
  · intro h
    exact ⟨h a (Nat.le_refl a) hab, h (b - 1) (by omega) (by omega)⟩

/-- The only logic error of processSeqStep is the empty-possibility one. -/
theorem processSeqStep_error_logic (seq : Rg) (prs : List Nat) (cs : List Change)
    (st : RowState) (msg : String)
    (h : processSeqStep seq prs cs st = Except.error (Error.logic msg)) :
    prs = [] := by
  match prs with
  | [] => rfl
  | [p] =>
    exfalso
    cases hget : getRunE st p with
    | error e =>
      simp only [processSeqStep, bind, Except.bind, hget] at h
      exact getRunE_error st p e hget msg ((Except.error.injEq _ _).mp h)
    | ok run =>
      simp only [processSeqStep, bind, Except.bind, hget] at h
      exact assignLoop_error run _ cs st _ h msg rfl
  | p0 :: p1 :: rest =>
    exfalso
    cases hsl : allRunLengthsEq st (p0 :: p1 :: rest) seq.len with
    | error e =>
      simp only [processSeqStep, bind, Except.bind, hsl] at h
      exact allRunLengthsEq_error st _ seq.len e hsl msg
        ((Except.error.injEq _ _).mp h)
    | ok b =>
      simp only [processSeqStep, bind, Except.bind, hsl] at h
      have hcont : ∀ (cs1 : List Change) (st1 : RowState),
          (do
            let m ← minRunLength st1 (p0 :: p1 :: rest)
            let field ← match (st1.get_fields.filter
                (fun f => f.containsB seq.start)).head? with
              | none => Except.error (Error.panic "called Option::expect on a None value")
              | some f => Except.ok f
            bounceFills seq m field cs1 st1 :
            Except Error (List Change × RowState)) =
            Except.error (Error.logic msg) → False := by
        intro cs1 st1 hc
        cases hm : minRunLength st1 (p0 :: p1 :: rest) with
        | error e =>
          simp only [bind, Except.bind, hm] at hc
          exact minRunLength_error st1 _ e hm msg ((Except.error.injEq _ _).mp hc)
        | ok m =>
          simp only [bind, Except.bind, hm] at hc
          cases hfd : (st1.get_fields.filter (fun f => f.containsB seq.start)).head? with
          | none =>
            simp only [hfd] at hc
            have he := (Except.error.injEq _ _).mp hc
            simp at he
          | some f =>
            simp only [hfd] at hc
            exact bounceFills_error seq m f cs1 st1 _ hc msg rfl
      cases b with
      | false =>
        simp only [if_neg (by simp : ¬(false = true))] at h
        exact hcont cs st h
      | true =>
        rw [if_pos rfl] at h
        cases hg0 : getRunE st p0 with
        | error e =>
          simp only [hg0] at h
          exact getRunE_error st p0 e hg0 msg ((Except.error.injEq _ _).mp h)
        | ok run0 =>
          simp only [hg0] at h
          cases hdel : delineateAt st run0 seq.start with
          | error e =>
            simp only [hdel] at h
            exact delineateAt_error st run0 seq.start e hdel msg
              ((Except.error.injEq _ _).mp h)
          | ok pD =>
            cases pD with
            | mk csD stD =>
              simp only [hdel] at h
              exact hcont (cs ++ csD) stD h

/-- CLAIM C5.  For a nonempty filled sequence on a line: the computed
possible-runs set is exactly the indices of the runs at least as long as the
sequence having a candidate placement containing every cell of the sequence;
the per-sequence processing returns a logic (ownership-impossible) error
exactly when its narrowed possible-runs list is empty; and when the list is
a singleton, the unique run is assigned as owner to every cell of the
sequence. -/
theorem c5_sequence_ownership (r : RowState) (seq : Rg)
    (hseq : seq.start < seq.stop) :
    (∀ i, i ∈ possible_runs_for_sequence r seq ↔
      ∃ run ∈ r.runs, run.index = i ∧ seq.len ≤ run.length ∧
        ∃ rg ∈ run.possiblePlacements,
          ∀ x, seq.start ≤ x → x < seq.stop → rg.containsB x = true) ∧
    (∀ prs cs,
      (∃ msg, processSeqStep seq prs cs r = Except.error (Error.logic msg)) ↔
      prs = []) ∧
    (∀ p run cs cs2 st2, r.runs.get? p = some run →
      processSeqStep seq [p] cs r = Except.ok (cs2, st2) →
      ∀ x, seq.start ≤ x → x < seq.stop →
        (st2.sq x).getRunIndex run.direction = some run.index) := by
  refine ⟨?_, ?_, ?_⟩
  · intro i
    constructor
    · intro hi
      obtain ⟨run, hrunf, hidx⟩ := List.mem_map.mp hi
      obtain ⟨hmem, hpred⟩ := List.mem_filter.mp hrunf
      rw [Bool.and_eq_true] at hpred
      obtain ⟨hlen, hany⟩ := hpred
      obtain ⟨rg, hrgmem, hcond⟩ := List.any_eq_true.mp hany
      rw [Bool.and_eq_true] at hcond
      exact ⟨run, hmem, hidx, of_decide_eq_true hlen, rg, hrgmem,
        (containsB_pair_iff rg seq.start seq.stop hseq).mp hcond⟩
    · rintro ⟨run, hmem, hidx, hlen, rg, hrgmem, hall⟩
      refine List.mem_map.mpr ⟨run, List.mem_filter.mpr ⟨hmem, ?_⟩, hidx⟩
      rw [Bool.and_eq_true]
      refine ⟨decide_eq_true hlen, ?_⟩
      refine List.any_eq_true.mpr ⟨rg, hrgmem, ?_⟩
      rw [Bool.and_eq_true]
      exact (containsB_pair_iff rg seq.start seq.stop hseq).mpr hall
  · intro prs cs
    constructor
    · rintro ⟨msg, hmsg⟩
      exact processSeqStep_error_logic seq prs cs r msg hmsg
    · intro hprs
      subst hprs
      exact ⟨_, rfl⟩
  · intro p run cs cs2 st2 hget hok x hx1 hx2
    have hgetE : getRunE r p = Except.ok run := by
      unfold getRunE
      rw [hget]
    simp only [processSeqStep, bind, Except.bind, hgetE] at hok
    have ha := assignLoop_ok run (rustRange seq.start seq.stop) cs r cs2 st2 hok
    refine ha.2.2.2 x ?_
    unfold rustRange
    refine List.mem_range'_1.mpr ⟨hx1, ?_⟩
    omega

/-- Concrete line for the C5 witness: a filled pair of squares and a single
run of length two with one candidate placement over them. -/
def c5Row : RowState :=
  RowState.mk Direction.horizontal 0 3
    [Run.mk Direction.horizontal 2 0 0 3 [Rg.mk 0 2] false]
    [Square.mk 0 0 SquareStatus.filledIn none none,
     Square.mk 0 1 SquareStatus.filledIn none none,
     Square.mk 0 2 SquareStatus.unknown none none]
    false

/-- Line state after the singleton assignment of the C5 witness. -/
def c5RowAfter : RowState :=
  RowState.mk Direction.horizontal 0 3
    [Run.mk Direction.horizontal 2 0 0 3 [Rg.mk 0 2] false]
    [Square.mk 0 0 SquareStatus.filledIn (some 0) none,
     Square.mk 0 1 SquareStatus.filledIn (some 0) none,
     Square.mk 0 2 SquareStatus.unknown none none]
    false

/-- Witness for C5 on the concrete line: run zero is possible for the filled
pair, the empty possibility list yields the logic error, and the singleton
list assigns run zero to both cells. -/
theorem c5_witness :
    (∃ run ∈ c5Row.runs, run.index = 0 ∧ (Rg.mk 0 2).len ≤ run.length ∧
      ∃ rg ∈ run.possiblePlacements,
        ∀ x, (Rg.mk 0 2).start ≤ x → x < (Rg.mk 0 2).stop → rg.containsB x = true) ∧
    (∃ msg, processSeqStep (Rg.mk 0 2) [] [] c5Row =
      Except.error (Error.logic msg)) ∧
    (∀ x, (Rg.mk 0 2).start ≤ x → x < (Rg.mk 0 2).stop →
      (c5RowAfter.sq x).getRunIndex Direction.horizontal = some 0) := by
  have h := c5_sequence_ownership c5Row (Rg.mk 0 2) (by decide)
  refine ⟨(h.1 0).mp (by decide), (h.2.1 [] []).mpr rfl, ?_⟩
  have hok : processSeqStep (Rg.mk 0 2) [0] [] c5Row = Except.ok
      ([Change.run (RunChange.mk 0 0 Direction.horizontal none 0),
        Change.run (RunChange.mk 0 1 Direction.horizontal none 0)],
       c5RowAfter) := by rfl
  exact h.2.2 0 (Run.mk Direction.horizontal 2 0 0 3 [Rg.mk 0 2] false) [] _ c5RowAfter
    rfl hok

/-- CLAIM C7.  For a nonempty filled sequence with more than one possible
run, none of which all share the sequence length, with m the minimum length
over the possible runs and field the maximal non-EMPTY range containing the
sequence (no other field state change intervenes in this case), and with the
source subtraction seq.start - m + 1 free of underflow: the bounce pass
leaves FILLED exactly the cells of [seq.start, max(seq.start - m + 1,
field.start) + m) and [min(seq.stop + m - 1, field.stop) - m, seq.stop) -
every cell of those two ranges ends FILLED and every square outside them is
unchanged - and runs and line data are untouched.  The clamped rightmost end
of the source is min(seq.start + m, field.stop); the cells it fills below
the claimed right range all lie inside the already-FILLED sequence, so the
resulting squares agree with the claimed ranges. -/
theorem c7_bounce_fill_ranges (seq : Rg) (prs : List Nat) (m : Nat) (field : Rg)
    (cs cs2 : List Change) (st st2 : RowState)
    (hne : seq.start < seq.stop)
    (h2 : 2 ≤ prs.length)
    (hnotall : allRunLengthsEq st prs seq.len = Except.ok false)
    (hmin : minRunLength st prs = Except.ok m)
    (hfield : (st.get_fields.filter (fun f => f.containsB seq.start)).head? =
      some field)
    (hfs : field.start ≤ seq.start) (hfe : seq.stop ≤ field.stop)
    (hsub : m ≤ seq.start)
    (hfilled : ∀ x, seq.start ≤ x → x < seq.stop →
      (st.sq x).status = SquareStatus.filledIn)
    (hok : processSeqStep seq prs cs st = Except.ok (cs2, st2)) :
    (∀ x, (seq.start ≤ x ∧ x < Nat.max (seq.start - m + 1) field.start + m) ∨
          (Nat.min (seq.stop + m - 1) field.stop - m ≤ x ∧ x < seq.stop) →
      (st2.sq x).status = SquareStatus.filledIn) ∧
    (∀ x, ¬((seq.start ≤ x ∧ x < Nat.max (seq.start - m + 1) field.start + m) ∨
            (Nat.min (seq.stop + m - 1) field.stop - m ≤ x ∧ x < seq.stop)) →
      st2.sq x = st.sq x) ∧
    st2.runs = st.runs ∧ linePreserved st st2 := by
  cases prs with
  | nil => simp at h2
  | cons p0 t =>
    cases t with
    | nil => simp at h2
    | cons p1 rest =>
      simp only [processSeqStep, bind, Except.bind, hnotall] at hok
      rw [if_neg (by simp : ¬(false = true))] at hok
      simp only [bind, Except.bind, hmin, hfield] at hok
      have hc1 : seq.start - m + 1 ≤ Nat.max (seq.start - m + 1) field.start :=
        Nat.le_max_left _ _
      have hc2 : field.start ≤ Nat.max (seq.start - m + 1) field.start :=
        Nat.le_max_right _ _
      have he1 : Nat.min (seq.start + m) field.stop ≤ seq.start + m :=
        Nat.min_le_left _ _
      have he2 : Nat.min (seq.start + m) field.stop ≤ field.stop :=
        Nat.min_le_right _ _
      have he3 : Nat.min (seq.start + m) field.stop = seq.start + m ∨
          Nat.min (seq.start + m) field.stop = field.stop := by
        rcases Nat.le_total (seq.start + m) field.stop with h | h
        · exact Or.inl (Nat.min_eq_left h)
        · exact Or.inr (Nat.min_eq_right h)
      have hr1 : Nat.min (seq.stop + m - 1) field.stop ≤ seq.stop + m - 1 :=
        Nat.min_le_left _ _
      have hr2 : Nat.min (seq.stop + m - 1) field.stop ≤ field.stop :=
        Nat.min_le_right _ _
      have hr3 : Nat.min (seq.stop + m - 1) field.stop = seq.stop + m - 1 ∨
          Nat.min (seq.stop + m - 1) field.stop = field.stop := by
        rcases Nat.le_total (seq.stop + m - 1) field.stop with h | h
        · exact Or.inl (Nat.min_eq_left h)
        · exact Or.inr (Nat.min_eq_right h)
      simp only [bounceFills] at hok
      rw [if_neg (by omega : ¬(seq.start < m))] at hok
      rw [if_neg (by
        rcases he3 with h | h <;> omega :
          ¬(Nat.min (seq.start + m) field.stop < m))] at hok
      cases hf1 : fillRangeLoop (rustRange seq.start
          (Nat.max (seq.start - m + 1) field.start + m)) cs st with
      | error e =>
        simp only [bind, Except.bind, hf1] at hok
        cases hok
      | ok pA =>
        cases pA with
        | mk csA stA =>
          simp only [bind, Except.bind, hf1] at hok
          have hF1 := fillRangeLoop_ok _ cs st csA stA hf1
          have hF2 := fillRangeLoop_ok _ csA stA cs2 st2 hok
          have hmemA : ∀ x, x ∈ rustRange seq.start
              (Nat.max (seq.start - m + 1) field.start + m) ↔
              seq.start ≤ x ∧ x < Nat.max (seq.start - m + 1) field.start + m := by
            intro x
            unfold rustRange
            rw [List.mem_range'_1]
            omega
          have hmemB : ∀ x, x ∈ rustRange
              (Nat.min (seq.start + m) field.stop - m) seq.stop ↔
              Nat.min (seq.start + m) field.stop - m ≤ x ∧ x < seq.stop := by
            intro x
            unfold rustRange
            rw [List.mem_range'_1]
            omega
          have hBleR : Nat.min (seq.start + m) field.stop - m ≤
              Nat.min (seq.stop + m - 1) field.stop - m := by
            rcases he3 with h | h <;> rcases hr3 with h2b | h2b <;> omega
          refine ⟨?_, ?_, hF2.1.trans hF1.1, linePreserved_trans hF1.2.1 hF2.2.1⟩
          · intro x hx
            rcases hx with hx | hx
            · have hA : x ∈ rustRange seq.start
                  (Nat.max (seq.start - m + 1) field.start + m) := (hmemA x).mpr hx
              have hfA : (stA.sq x).status = SquareStatus.filledIn :=
                hF1.2.2.2.1 x hA
              rw [hF2.2.2.2.2.2 x hfA]
              exact hfA
            · have hB : x ∈ rustRange
                  (Nat.min (seq.start + m) field.stop - m) seq.stop :=
                (hmemB x).mpr ⟨by omega, hx.2⟩
              exact hF2.2.2.2.1 x hB
          · intro x hx
            have hnL : ¬(seq.start ≤ x ∧
                x < Nat.max (seq.start - m + 1) field.start + m) :=
              fun hl => hx (Or.inl hl)
            have hnR : ¬(Nat.min (seq.stop + m - 1) field.stop - m ≤ x ∧
                x < seq.stop) :=
              fun hr => hx (Or.inr hr)
            by_cases hxb : Nat.min (seq.start + m) field.stop - m ≤ x ∧ x < seq.stop
            · have hsx : seq.start ≤ x := by
                rcases he3 with h | h
                · omega
                · rcases hr3 with h2b | h2b <;> omega
              have hfx : (st.sq x).status = SquareStatus.filledIn :=
                hfilled x hsx hxb.2
              have hAx : stA.sq x = st.sq x := hF1.2.2.2.2.2 x hfx
              have hBx : st2.sq x = stA.sq x :=
                hF2.2.2.2.2.2 x (by rw [hAx]; exact hfx)
              exact hBx.trans hAx
            · have hxA : x ∉ rustRange seq.start
                  (Nat.max (seq.start - m + 1) field.start + m) := by
                intro hmem
                exact hnL ((hmemA x).mp hmem)
              have hxB : x ∉ rustRange
                  (Nat.min (seq.start + m) field.stop - m) seq.stop := by
                intro hmem
                exact hxb ((hmemB x).mp hmem)
              exact (hF2.2.2.2.2.1 x hxB).trans (hF1.2.2.2.2.1 x hxA)

/-- Concrete line for the C7 witness: a single filled square at position two
inside the field [2, 4), with two possible runs of lengths two and three. -/
def c7Row : RowState :=
  RowState.mk Direction.horizontal 0 6
    [Run.mk Direction.horizontal 2 0 0 6 [] false,
     Run.mk Direction.horizontal 3 1 0 6 [] false]
    [Square.mk 0 0 SquareStatus.unknown none none,
     Square.mk 0 1 SquareStatus.crossedOut none none,
     Square.mk 0 2 SquareStatus.filledIn none none,
     Square.mk 0 3 SquareStatus.unknown none none,
     Square.mk 0 4 SquareStatus.crossedOut none none,
     Square.mk 0 5 SquareStatus.unknown none none]
    false

/-- Line state after the bounce fills of the C7 witness: the minimum length
two bounced against the field [2, 4) fills position three. -/
def c7RowAfter : RowState :=
  RowState.mk Direction.horizontal 0 6
    [Run.mk Direction.horizontal 2 0 0 6 [] false,
     Run.mk Direction.horizontal 3 1 0 6 [] false]
    [Square.mk 0 0 SquareStatus.unknown none none,
     Square.mk 0 1 SquareStatus.crossedOut none none,
     Square.mk 0 2 SquareStatus.filledIn none none,
     Square.mk 0 3 SquareStatus.filledIn none none,
     Square.mk 0 4 SquareStatus.crossedOut none none,
     Square.mk 0 5 SquareStatus.unknown none none]
    false

/-- Witness for C7 on the concrete line: position three lies in the clamped
leftmost range and ends FILLED, position five lies outside both claimed
ranges and is untouched. -/
theorem c7_witness :
    (c7RowAfter.sq 3).status = SquareStatus.filledIn ∧
    c7RowAfter.sq 5 = c7Row.sq 5 := by
  have hfield : (c7Row.get_fields.filter
      (fun f => f.containsB (Rg.mk 2 3).start)).head? = some (Rg.mk 2 4) := by
    simp [RowState.get_fields, rangesOfSquares, rangesOfSquaresGo, scanToTrue,
      scanToFalse, c7Row, RowState.sq, List.getD, defaultSquare, Rg.containsB]
  have hok : processSeqStep (Rg.mk 2 3) [0, 1] [] c7Row = Except.ok
      ([Change.status (StatusChange.mk 0 3 SquareStatus.unknown SquareStatus.filledIn)],
       c7RowAfter) := by
    simp [processSeqStep, allRunLengthsEq, getRunE, minRunLength, runLengthsE,
      bounceFills, fillRangeLoop, RowState.setStatusAt, Square.set_status,
      Square.apply_status_change, RowState.get_fields, rangesOfSquares,
      rangesOfSquaresGo, scanToTrue, scanToFalse, rustRange, c7Row, c7RowAfter,
      RowState.sq, List.getD, defaultSquare, Rg.containsB, Rg.len,
      optStatusChanges, bind, Except.bind, List.set]
  have h := c7_bounce_fill_ranges (Rg.mk 2 3) [0, 1] 2 (Rg.mk 2 4) []
    [Change.status (StatusChange.mk 0 3 SquareStatus.unknown SquareStatus.filledIn)]
    c7Row c7RowAfter (by decide) (by decide) rfl rfl hfield (by decide) (by decide)
    (by decide) (by decide) hok
  exact ⟨h.1 3 (Or.inl (by decide)), h.2.1 5 (by decide)⟩
